import Mathlib

/-!
Verification of the katcp-codec core (Rust sources under `src/`):
a shallow embedding of the message formatter (`src/format.rs`, escape tables
generated by `build.rs`) and of the streaming parser (`src/parse.rs`), with
proofs of the round-trip, stream-chunking, fast-path, sizing, error-handling
and safety properties stated for the codec.

Bytes are modelled as `Nat` (the transition tables are total functions on
`Nat`; on values ≥ 256 every row falls into its catch-all branch, so all
theorems about real byte strings are unaffected).  Machine integers are
modelled exactly: the parser's message-id accumulator is an `Int` with the
explicit signed-32-bit range check performed by `i32::try_from` in the source.
-/

namespace Katcp

/-- Type of katcp message (`MessageType` in `crates/fsm/src/lib.rs`). -/
inductive MessageType
  | Request
  | Reply
  | Inform
deriving DecidableEq, Repr

/-- State of the parser state machine (`State` in `crates/fsm/src/lib.rs`). -/
inductive State
  | Start
  | Empty
  | BeforeName
  | Name
  | BeforeId
  | Id
  | AfterId
  | BeforeArgument
  | Argument
  | ArgumentEscape
  | Error
  | EndOfLine
  | ErrorEndOfLine
deriving DecidableEq, Repr

/-- `State::is_terminal`. -/
def State.isTerminal : State → Bool
  | .EndOfLine => true
  | .ErrorEndOfLine => true
  | _ => false

/-- Transition action (`Action` in `crates/fsm/src/lib.rs`).
The argument of `ArgumentEscaped` is the byte to append. -/
inductive Action
  | Nothing
  | Name
  | Id
  | Argument
  | ArgumentEscaped (c : Nat)
  | SetType (t : MessageType)
  | ResetLineLength
  | Error
deriving DecidableEq, Repr

/-- `Action::is_mergeable`. -/
def Action.isMergeable : Action → Bool
  | .Nothing => true
  | .Name => true
  | .Id => true
  | .Argument => true
  | .Error => true
  | _ => false

/-- Discriminant of an `Action` (`std::mem::Discriminant<Action>` in the
fast-table construction of `parse.rs`). -/
inductive ActionKind
  | Nothing
  | Name
  | Id
  | Argument
  | ArgumentEscaped
  | SetType
  | ResetLineLength
  | Error
deriving DecidableEq, Repr

/-- The discriminant of an action. -/
def Action.kind : Action → ActionKind
  | .Nothing => .Nothing
  | .Name => .Name
  | .Id => .Id
  | .Argument => .Argument
  | .ArgumentEscaped _ => .ArgumentEscaped
  | .SetType _ => .SetType
  | .ResetLineLength => .ResetLineLength
  | .Error => .Error

/-- A `(state, byte)` entry of the transition table (`Entry` in `parse.rs`).
The `fast_table` slot is not stored: it is a pure function of
(`state`, `action.kind`) and is recomputed by `fastOkB` below, which is
observationally identical to the stored bitmaps of the source (an entry with
an all-false bitmap gets no stored table, and an absent table and an
all-false table stop the scanning loop at the same place). -/
structure Entry where
  action : Action
  state : State
  createArgument : Bool
deriving DecidableEq, Repr

/-- `Entry::error()`. -/
def Entry.err : Entry := ⟨.Error, .Error, false⟩

/-- The generic rule of `Parser::make_table`: the `\n` entry of a row is
promoted from `Error` to `ErrorEndOfLine`. -/
def promoteLF (row : Nat → Entry) : Entry :=
  let e := row 10
  if e.state = .Error then { e with state := .ErrorEndOfLine } else e

/-- `Parser::make_table`: builds a row from a callback, promoting the `\n`
entry and copying `\t` from `' '` and `\r` from `\n`. -/
def makeTable (row : Nat → Entry) (ch : Nat) : Entry :=
  if ch = 9 then row 32
  else if ch = 13 then promoteLF row
  else if ch = 10 then promoteLF row
  else row ch

/-- `Parser::make_start` (row callback). -/
def startRow (ch : Nat) : Entry :=
  if ch = 32 then ⟨.Nothing, .Empty, false⟩
  else if ch = 63 then ⟨.SetType .Request, .BeforeName, false⟩
  else if ch = 33 then ⟨.SetType .Reply, .BeforeName, false⟩
  else if ch = 35 then ⟨.SetType .Inform, .BeforeName, false⟩
  else if ch = 10 then ⟨.ResetLineLength, .Start, false⟩
  else Entry.err

/-- `Parser::make_empty` (row callback). -/
def emptyRow (ch : Nat) : Entry :=
  if ch = 32 then ⟨.Nothing, .Empty, false⟩
  else if ch = 10 then ⟨.ResetLineLength, .Start, false⟩
  else Entry.err

/-- `Parser::make_before_name` (row callback). -/
def beforeNameRow (ch : Nat) : Entry :=
  if (65 ≤ ch ∧ ch ≤ 90) ∨ (97 ≤ ch ∧ ch ≤ 122) then ⟨.Name, .Name, false⟩
  else Entry.err

/-- `Parser::make_name` (row callback). -/
def nameRow (ch : Nat) : Entry :=
  if (65 ≤ ch ∧ ch ≤ 90) ∨ (97 ≤ ch ∧ ch ≤ 122) ∨ (48 ≤ ch ∧ ch ≤ 57) ∨ ch = 45 then
    ⟨.Name, .Name, false⟩
  else if ch = 32 then ⟨.Nothing, .BeforeArgument, false⟩
  else if ch = 91 then ⟨.Nothing, .BeforeId, false⟩
  else if ch = 10 then ⟨.Nothing, .EndOfLine, false⟩
  else Entry.err

/-- `Parser::make_before_id` (row callback). -/
def beforeIdRow (ch : Nat) : Entry :=
  if 49 ≤ ch ∧ ch ≤ 57 then ⟨.Id, .Id, false⟩
  else Entry.err

/-- `Parser::make_id` (row callback). -/
def idRow (ch : Nat) : Entry :=
  if 48 ≤ ch ∧ ch ≤ 57 then ⟨.Id, .Id, false⟩
  else if ch = 93 then ⟨.Nothing, .AfterId, false⟩
  else Entry.err

/-- `Parser::make_after_id` (row callback). -/
def afterIdRow (ch : Nat) : Entry :=
  if ch = 32 then ⟨.Nothing, .BeforeArgument, false⟩
  else if ch = 10 then ⟨.Nothing, .EndOfLine, false⟩
  else Entry.err

/-- `Parser::make_argument` (row callback), used for both `BeforeArgument`
(`create = true`) and `Argument` (`create = false`). -/
def argumentRow (create : Bool) (ch : Nat) : Entry :=
  if ch = 32 then ⟨.Nothing, .BeforeArgument, false⟩
  else if ch = 10 then ⟨.Nothing, .EndOfLine, false⟩
  else if ch = 92 then ⟨.Nothing, .ArgumentEscape, create⟩
  else if ch = 0 ∨ ch = 27 then Entry.err
  else ⟨.Argument, .Argument, create⟩

/-- `Parser::make_argument_escape` (row callback). -/
def argumentEscapeRow (ch : Nat) : Entry :=
  if ch = 64 then ⟨.Nothing, .Argument, false⟩
  else if ch = 92 then ⟨.ArgumentEscaped 92, .Argument, false⟩
  else if ch = 95 then ⟨.ArgumentEscaped 32, .Argument, false⟩
  else if ch = 48 then ⟨.ArgumentEscaped 0, .Argument, false⟩
  else if ch = 110 then ⟨.ArgumentEscaped 10, .Argument, false⟩
  else if ch = 114 then ⟨.ArgumentEscaped 13, .Argument, false⟩
  else if ch = 101 then ⟨.ArgumentEscaped 27, .Argument, false⟩
  else if ch = 116 then ⟨.ArgumentEscaped 9, .Argument, false⟩
  else Entry.err

/-- `Parser::make_error` (row callback). -/
def errorRow (_ : Nat) : Entry := Entry.err

/-- The full transition table (`Parser::parser_table`). -/
def table : State → Nat → Entry
  | .Start => makeTable startRow
  | .Empty => makeTable emptyRow
  | .BeforeName => makeTable beforeNameRow
  | .Name => makeTable nameRow
  | .BeforeId => makeTable beforeIdRow
  | .Id => makeTable idRow
  | .AfterId => makeTable afterIdRow
  | .BeforeArgument => makeTable (argumentRow true)
  | .Argument => makeTable (argumentRow false)
  | .ArgumentEscape => makeTable argumentEscapeRow
  | .Error => makeTable errorRow
  | .EndOfLine => makeTable errorRow
  | .ErrorEndOfLine => makeTable errorRow

/-- Content of the fast table cached for key `(t, k)` in
`Parser::build_fast_tables`: byte `b` is marked iff in state `t` the
transition on `b` stays in `t`, has an action of discriminant `k`, and does
not create an argument. -/
def fastOkB (t : State) (k : ActionKind) (b : Nat) : Bool :=
  (table t b).state = t ∧ (table t b).action.kind = k ∧ (table t b).createArgument = false

/-- A parse error (`ParseError` in `parse.rs`): message and 1-based byte
position within the current line. -/
structure ParseError where
  message : String
  position : Nat
deriving DecidableEq, Repr

/-- A katcp message (`Message` in `src/message.rs`, with the name and
arguments as plain byte lists and the id as the parser's `Option<i32>`). -/
structure Msg where
  mtype : MessageType
  name : List Nat
  mid : Option Int
  arguments : List (List Nat)
deriving DecidableEq, Repr

/-- One element of the lazy sequence produced by `Parser::append`. -/
inductive Outcome
  | ok (m : Msg)
  | err (e : ParseError)
deriving DecidableEq, Repr

/-- The full observable parser state.  The Rust implementation splits the
in-progress name and the tail of the argument list between `Parser` and the
per-append `Transient` (a borrowing optimisation); `Parser::append` moves
`Parser::name` and the last stored argument into the `Transient` and
`next_message` moves them back when the data runs out, so the concatenation
modelled here is exactly the observable content at every step.  The extra
`panicked` flag is an instrument recording whether any `unwrap`/panic site of
`Parser::apply` was ever reached; it influences nothing else. -/
structure PState where
  state : State
  lineLength : Nat
  maxLineLength : Nat
  mtype : Option MessageType
  name : List Nat
  mid : Option Int
  arguments : List (List Nat)
  error : Option ParseError
  panicked : Bool
deriving DecidableEq, Repr

/-- `Parser::new(max_line_length)`. -/
def initState (maxLineLength : Nat) : PState :=
  ⟨.Start, 0, maxLineLength, none, [], none, [], none, false⟩

/-- `Parser::buffer_size`. -/
def bufferSize (ps : PState) : Nat := ps.lineLength

/-- `Parser::reset` (also covering `reset_transient`; the `panicked`
instrument survives). -/
def resetPS (ps : PState) : PState :=
  { ps with state := .Start, lineLength := 0, mtype := none, name := [],
            mid := none, arguments := [], error := none }

/-- `Parser::error_at`. -/
def errorAt (ps : PState) (msg : String) (pos : Nat) : PState :=
  let ps1 := if ps.state ≠ .ErrorEndOfLine then { ps with state := .Error } else ps
  let ps2 := if ps1.error = none then { ps1 with error := some ⟨msg, pos⟩ } else ps1
  { ps2 with arguments := [] }

/-- Append `chunk` to the last argument (`transient.arguments.last_mut()`
followed by `extend`); the empty-list case is the panic of the `unwrap` in
`Parser::apply` and is handled by the caller. -/
def pushLast : List (List Nat) → List Nat → List (List Nat)
  | [], _ => []
  | [a], c => [a ++ c]
  | a :: rest, c => a :: pushLast rest c

/-- The digit loop of `Action::Id` in `Parser::apply`: 64-bit accumulation
with the `i32::try_from` range check; returns the final id and whether the
loop stopped on an overflow (`break`). -/
def idFold (mid : Option Int) : List Nat → Option Int × Bool
  | [] => (mid, false)
  | d :: ds =>
    let v : Int := mid.getD 0 * 10 + ((d : Int) - 48)
    if -(2 ^ 31) ≤ v ∧ v ≤ 2 ^ 31 - 1 then idFold (some v) ds
    else (mid, true)

/-- `Parser::apply`, action part: apply `a` to the consumed `chunk` at 1-based
line position `pos`. -/
def applyAct (a : Action) (chunk : List Nat) (pos : Nat) (ps : PState) : PState :=
  match a with
  | .SetType t => { ps with mtype := some t }
  | .Name => { ps with name := ps.name ++ chunk }
  | .Id =>
    match idFold ps.mid chunk with
    | (m, false) => { ps with mid := m }
    | (m, true) => errorAt { ps with mid := m } "Message ID overflowed" pos
  | .Argument =>
    if ps.arguments = [] then { ps with panicked := true }
    else { ps with arguments := pushLast ps.arguments chunk }
  | .ArgumentEscaped c =>
    if ps.arguments = [] then { ps with panicked := true }
    else { ps with arguments := pushLast ps.arguments [c] }
  | .ResetLineLength => { ps with lineLength := 0 }
  | .Nothing => ps
  | .Error => errorAt ps "Invalid character" pos

/-- `Parser::apply`, terminal part: emit on `EndOfLine` / `ErrorEndOfLine`.
The `unwrap`s on `mtype` and on the pending error are modelled by the
`panicked` instrument plus an arbitrary default. -/
def finishRound (ps : PState) : Option Outcome × PState :=
  match ps.state with
  | .EndOfLine =>
    match ps.mtype with
    | some t => (some (.ok ⟨t, ps.name, ps.mid, ps.arguments⟩), resetPS ps)
    | none => (some (.ok ⟨.Request, ps.name, ps.mid, ps.arguments⟩),
               resetPS { ps with panicked := true })
  | .ErrorEndOfLine =>
    match ps.error with
    | some e => (some (.err e), resetPS ps)
    | none => (some (.err ⟨"", 0⟩), resetPS { ps with panicked := true })
  | _ => (none, ps)

/-- The "Line too long" check at the top of the `next_message` loop. -/
def preAdjust (ps : PState) : PState :=
  if ps.maxLineLength ≤ ps.lineLength ∧ ps.state ≠ .Error then
    errorAt ps "Line too long" (ps.lineLength + 1)
  else ps

/-- Length of the run merged by the fast-table scan
(`while p < max_len && fast_table[data[p]]`), with `cap = max_len - 1`. -/
def countRun (t : State) (k : ActionKind) : Nat → List Nat → Nat
  | 0, _ => 0
  | _, [] => 0
  | cap + 1, r :: rs => if fastOkB t k r then countRun t k cap rs + 1 else 0

/-- The run of extra bytes merged into the round that consumes `b` with
remaining data `rest` (empty unless the entry carries a fast table). -/
def chooseRun (ps : PState) (b : Nat) (rest : List Nat) : List Nat :=
  let ps1 := preAdjust ps
  let e := table ps1.state b
  if e.state.isTerminal || !e.action.isMergeable then []
  else
    let dataLen := rest.length + 1
    let maxLen := if ps1.maxLineLength ≤ ps1.lineLength then dataLen
                  else min dataLen (ps1.maxLineLength - ps1.lineLength)
    rest.take (countRun e.state e.action.kind (maxLen - 1) rest)

/-- One iteration of the `next_message` loop, consuming `b :: run`. -/
def roundCore (ps : PState) (b : Nat) (run : List Nat) : Option Outcome × PState :=
  let ps1 := preAdjust ps
  let e := table ps1.state b
  let ps2 := if e.createArgument then { ps1 with arguments := ps1.arguments ++ [[]] } else ps1
  let ps3 := { ps2 with state := e.state }
  let pos := ps3.lineLength + 1
  let ps4 := if ps3.lineLength < ps3.maxLineLength
             then { ps3 with lineLength := ps3.lineLength + (1 + run.length) } else ps3
  finishRound (applyAct e.action (b :: run) pos ps4)

/-- Consuming a whole buffer and collecting every emission: the composition of
`Parser::append` with full iteration of the returned `ParseIterator`.  With
`fast = true` the fast-table runs of the source are taken; with `fast = false`
every round consumes a single byte (the reference byte-at-a-time parser). -/
def runP (fast : Bool) (ps : PState) (data : List Nat) : List Outcome × PState :=
  match data with
  | [] => ([], ps)
  | b :: rest =>
    let run := if fast then chooseRun ps b rest else []
    let r := roundCore ps b run
    let res := runP fast r.2 (rest.drop run.length)
    (match r.1 with | some o => o :: res.1 | none => res.1, res.2)
termination_by data.length
decreasing_by
  simp only [List.length_drop, List.length_cons]
  omega

/-- `Parser::append` over a sequence of chunks, collecting all emissions in
order. -/
def appendAll (ps : PState) : List (List Nat) → List Outcome × PState
  | [] => ([], ps)
  | c :: cs =>
    let r := runP true ps c
    let res := appendAll r.2 cs
    (r.1 ++ res.1, res.2)

/-- Fuel-indexed restatement of `runP` by structural recursion, used to
evaluate the parser on concrete inputs. -/
def runPF : Nat → Bool → PState → List Nat → List Outcome × PState
  | 0, _, ps, _ => ([], ps)
  | _ + 1, _, ps, [] => ([], ps)
  | fuel + 1, fast, ps, b :: rest =>
    let run := if fast then chooseRun ps b rest else []
    let r := roundCore ps b run
    let res := runPF fuel fast r.2 (rest.drop run.length)
    (match r.1 with | some o => o :: res.1 | none => res.1, res.2)

/-- Fuel-indexed restatement of `appendAll`. -/
def appendAllF (fuel : Nat) (ps : PState) : List (List Nat) → List Outcome × PState
  | [] => ([], ps)
  | c :: cs =>
    let r := runPF fuel true ps c
    let res := appendAllF fuel r.2 cs
    (r.1 ++ res.1, res.2)

/-! ## The formatter (`src/format.rs` and the tables generated by `build.rs`) -/

/-- `Message::type_symbol`. -/
def typeSymbol : MessageType → Nat
  | .Request => 63
  | .Reply => 33
  | .Inform => 35

/-- The `escape` function of `build.rs`, generating `ESCAPE_SYMBOL`:
the escape letter for a byte, or 0 if no escaping is needed. -/
def escapeSym (c : Nat) : Nat :=
  if c = 13 then 114
  else if c = 10 then 110
  else if c = 9 then 116
  else if c = 27 then 101
  else if c = 0 then 48
  else if c = 92 then 92
  else if c = 32 then 95
  else 0

/-- `ESCAPE_FLAG` of `build.rs`: true iff the byte needs escaping. -/
def escapeFlag (c : Nat) : Bool := escapeSym c != 0

/-- The bytes `write_out` emits for one argument byte. -/
def encByte (c : Nat) : List Nat :=
  if escapeFlag c then [92, escapeSym c] else [c]

/-- The bytes `write_out` emits for one argument (after its leading space). -/
def encodeArg (a : List Nat) : List Nat :=
  if a = [] then [92, 64] else (a.map encByte).flatten

/-- Decimal digits of a natural number, most significant first (the digit
sequence produced by `itoa::Buffer::format`). -/
def decDigits (n : Nat) : List Nat :=
  if _h : n < 10 then [n] else decDigits (n / 10) ++ [n % 10]
decreasing_by
  exact Nat.div_lt_self (by omega) (by omega)

/-- ASCII bytes of the decimal representation of `n`. -/
def midBytes (n : Nat) : List Nat := (decDigits n).map (· + 48)

/-- The byte sequence written by `Message::write_out`. -/
def msgBytes (m : Msg) : List Nat :=
  typeSymbol m.mtype :: m.name
    ++ (match m.mid with
        | none => []
        | some v => 91 :: midBytes v.toNat ++ [93])
    ++ (m.arguments.map (fun a => 32 :: encodeArg a)).flatten
    ++ [10]

/-- `Message::write_size`. -/
def writeSize (m : Msg) : Nat :=
  2 + m.name.length + m.arguments.length
    + (match m.mid with
       | none => 0
       | some v => 2 + (decDigits v.toNat).length)
    + (m.arguments.map
        (fun a => if a = [] then 2 else a.length + a.countP (fun c => escapeFlag c))).sum

/-- `Message::to_vec`: allocates `write_size` bytes, writes, and panics
(modelled as `none`) if `write_out` either overruns the buffer or leaves a
non-empty tail. -/
def toVec (m : Msg) : Option (List Nat) :=
  if (msgBytes m).length = writeSize m then some (msgBytes m) else none

/-- Encoded length of one argument as the specification words it:
2 if empty, otherwise its length plus the number of bytes drawn from the
set {CR, LF, TAB, ESC, NUL, backslash, space}. -/
def encodedArgLen (a : List Nat) : Nat :=
  if a = [] then 2
  else a.length
    + a.countP (fun c => decide (c = 13 ∨ c = 10 ∨ c = 9 ∨ c = 27 ∨ c = 0 ∨ c = 92 ∨ c = 32))

/-- The total encoded size as the specification words it: 1 (sigil) +
name length + (2 + decimal digits if the id is present) + one space plus the
encoded length per argument + 1 (trailing LF). -/
def specSize (m : Msg) : Nat :=
  1 + m.name.length
    + (match m.mid with
       | none => 0
       | some v => 2 + (decDigits v.toNat).length)
    + (m.arguments.map (fun a => 1 + encodedArgLen a)).sum + 1

/-- The state after the bookkeeping of one round (argument creation, state
assignment, line-length update for `p` consumed bytes), before the action. -/
def stepState (ps : PState) (e : Entry) (p : Nat) : PState :=
  { ps with
    state := e.state,
    arguments := if e.createArgument then ps.arguments ++ [[]] else ps.arguments,
    lineLength := if ps.lineLength < ps.maxLineLength then ps.lineLength + p
                  else ps.lineLength }

/-! ## Erasure of overflow-error positions

The position recorded for a "Message ID overflowed" error depends on where
the merged digit run started, and hence on chunk boundaries; all other
observable data is insensitive to chunking.  `eraseErr` forgets exactly that
one position. -/

def ovText : String := "Message ID overflowed"

/-- Normalise the position of a "Message ID overflowed" error. -/
def eraseErr (e : ParseError) : ParseError :=
  if e.message = ovText then { e with position := 0 } else e

/-- Normalise an outcome. -/
def eraseOut : Outcome → Outcome
  | .ok m => .ok m
  | .err e => .err (eraseErr e)

/-- Normalise a parser state. -/
def erasePS (ps : PState) : PState := { ps with error := ps.error.map eraseErr }

/-- Two states equal up to the position of a pending overflow error. -/
abbrev Rel (ps ps' : PState) : Prop := erasePS ps = erasePS ps'

/-- The finite set of entries the transition table is built from. -/
def entryPool : List Entry :=
  [Entry.err, ⟨.Error, .ErrorEndOfLine, false⟩, ⟨.Nothing, .Empty, false⟩,
   ⟨.SetType .Request, .BeforeName, false⟩, ⟨.SetType .Reply, .BeforeName, false⟩,
   ⟨.SetType .Inform, .BeforeName, false⟩, ⟨.ResetLineLength, .Start, false⟩,
   ⟨.Name, .Name, false⟩, ⟨.Nothing, .BeforeArgument, false⟩, ⟨.Nothing, .BeforeId, false⟩,
   ⟨.Nothing, .EndOfLine, false⟩, ⟨.Id, .Id, false⟩, ⟨.Nothing, .AfterId, false⟩,
   ⟨.Nothing, .ArgumentEscape, true⟩, ⟨.Nothing, .ArgumentEscape, false⟩,
   ⟨.Argument, .Argument, true⟩, ⟨.Argument, .Argument, false⟩,
   ⟨.Nothing, .Argument, false⟩,
   ⟨.ArgumentEscaped 92, .Argument, false⟩, ⟨.ArgumentEscaped 32, .Argument, false⟩,
   ⟨.ArgumentEscaped 0, .Argument, false⟩, ⟨.ArgumentEscaped 10, .Argument, false⟩,
   ⟨.ArgumentEscaped 13, .Argument, false⟩, ⟨.ArgumentEscaped 27, .Argument, false⟩,
   ⟨.ArgumentEscaped 9, .Argument, false⟩]

/-- The state the fast path reaches after bulk-applying an `Id` chunk, with
the overflow position normalised to 0 (it is erased anyway). -/
def idTarget (ps : PState) (run : List Nat) : PState :=
  match idFold ps.mid run with
  | (m, false) => { ps with mid := m, lineLength := ps.lineLength + run.length }
  | (m, true) => errorAt { ps with mid := m, lineLength := ps.lineLength + run.length }
      ovText 0

/-! ## The reachability invariant -/

/-- An optional message id lies in the positive `i32` range. -/
def midOk (m : Option Int) : Prop := ∀ v, m = some v → 1 ≤ v ∧ v ≤ 2 ^ 31 - 1

/-- States in which the sigil has already been consumed, so `mtype` is set. -/
def mtypeNeeded : State → Bool
  | .BeforeName => true
  | .Name => true
  | .BeforeId => true
  | .Id => true
  | .AfterId => true
  | .BeforeArgument => true
  | .Argument => true
  | .ArgumentEscape => true
  | _ => false

/-- The invariant of emitted outcomes: an `Ok` message carries a message id
in the positive `i32` range. -/
def OutInv : Outcome → Prop
  | .ok m => midOk m.mid
  | .err _ => True

/-- Invariant of every parser state reachable between rounds: the line length
is bounded by the configured maximum, no modelled `unwrap` has failed, the
state is not transient-terminal, the message id is in range (and present in
state `Id`), the argument list is non-empty in argument states, and the
message type is present after the sigil. -/
def Inv (ps : PState) : Prop :=
  ps.lineLength ≤ ps.maxLineLength
  ∧ ps.panicked = false
  ∧ ps.state.isTerminal = false
  ∧ midOk ps.mid
  ∧ (ps.state = .Id → ∃ v, ps.mid = some v ∧ 1 ≤ v ∧ v ≤ 2 ^ 31 - 1)
  ∧ ((ps.state = .Argument ∨ ps.state = .ArgumentEscape) → ps.arguments ≠ [])
  ∧ (mtypeNeeded ps.state = true → ps.mtype.isSome = true)


/-- A client-visible operation on a parser (`Parser::append` / `Parser::reset`). -/
inductive Op
  | append (data : List Nat)
  | reset

/-- Run a sequence of `append`/`reset` calls, collecting all emissions. -/
def runOps (ps : PState) : List Op → List Outcome × PState
  | [] => ([], ps)
  | .append data :: rest =>
    let r := runP true ps data
    let res := runOps r.2 rest
    (r.1 ++ res.1, res.2)
  | .reset :: rest => runOps (resetPS ps) rest


/-! ## Well-formedness of formatter messages (§3 of the specification) -/

/-- First character of a valid name: `[A-Za-z]`. -/
def nameHeadChar (b : Nat) : Prop := (65 ≤ b ∧ b ≤ 90) ∨ (97 ≤ b ∧ b ≤ 122)

/-- Later characters of a valid name: `[A-Za-z0-9-]`. -/
def nameTailChar (b : Nat) : Prop := nameHeadChar b ∨ (48 ≤ b ∧ b ≤ 57) ∨ b = 45

/-- States from which a space starts a new argument and LF ends the line. -/
def argReady (s : State) : Prop := s = .Name ∨ s = .AfterId ∨ s = .Argument


/-- The encoded bytes of the optional message id (`[` digits `]`). -/
def midPart : Option Int → List Nat
  | none => []
  | some v => 91 :: midBytes v.toNat ++ [93]

/-- The encoded length of the optional message id. -/
def midPartLen : Option Int → Nat
  | none => 0
  | some v => 2 + (decDigits v.toNat).length


theorem escapeFlag_eq (c : Nat) :
    escapeFlag c = decide (c = 13 ∨ c = 10 ∨ c = 9 ∨ c = 27 ∨ c = 0 ∨ c = 92 ∨ c = 32) := by
  unfold escapeFlag escapeSym
  split_ifs <;> simp_all

theorem sum_map_one_add (f : List Nat → Nat) (l : List (List Nat)) :
    (l.map (fun a => 1 + f a)).sum = l.length + (l.map f).sum := by
  induction l with
  | nil => simp
  | cons a t ih => simp [ih]; omega

theorem encodeArg_flat_length (a : List Nat) :
    (List.map (List.length ∘ encByte) a).sum = a.length + a.countP (fun c => escapeFlag c) := by
  induction a with
  | nil => simp
  | cons c t ih =>
    by_cases h : escapeFlag c = true <;>
      simp [encByte, h, ih, List.countP_cons] <;> omega

theorem encodeArg_length (a : List Nat) :
    (encodeArg a).length
      = if a = [] then 2 else a.length + a.countP (fun c => escapeFlag c) := by
  by_cases h : a = [] <;> simp [encodeArg, h, encodeArg_flat_length]

theorem msgBytes_length (m : Msg) : (msgBytes m).length = writeSize m := by
  unfold msgBytes writeSize
  have h1 : (List.length ∘ fun a => 32 :: encodeArg a)
      = (fun a : List Nat =>
          1 + (if a = [] then 2 else a.length + a.countP (fun c => escapeFlag c))) := by
    funext a
    simp [encodeArg_length a, Nat.add_comm]
  cases m.mid with
  | none =>
    simp only [List.length_append, List.length_cons, List.length_flatten, List.map_map, h1,
      sum_map_one_add, List.length_nil, List.length_map, midBytes]
    omega
  | some v =>
    simp only [List.length_append, List.length_cons, List.length_flatten, List.map_map, h1,
      sum_map_one_add, List.length_nil, List.length_map, midBytes]
    omega

theorem writeSize_eq_specSize (m : Msg) : writeSize m = specSize m := by
  unfold writeSize specSize encodedArgLen
  rw [sum_map_one_add]
  have hflag : (fun c => escapeFlag c)
      = (fun c => decide (c = 13 ∨ c = 10 ∨ c = 9 ∨ c = 27 ∨ c = 0 ∨ c = 92 ∨ c = 32)) :=
    funext escapeFlag_eq
  rw [hflag]
  cases m.mid <;> omega

/-! ## Decimal accumulation -/

/-- The value accumulated by the `Action::Id` digit loop over ASCII digit
bytes, starting from `a`. -/
def decVal (a : Int) (l : List Nat) : Int :=
  l.foldl (fun (x : Int) (d : Nat) => x * 10 + ((d : Int) - 48)) a

@[simp] theorem decVal_nil (a : Int) : decVal a [] = a := rfl

@[simp] theorem decVal_cons (a : Int) (d : Nat) (l : List Nat) :
    decVal a (d :: l) = decVal (a * 10 + ((d : Int) - 48)) l := rfl

theorem decVal_append (a : Int) (l1 l2 : List Nat) :
    decVal a (l1 ++ l2) = decVal (decVal a l1) l2 := by
  unfold decVal
  exact List.foldl_append _ _ _ _

theorem decDigits_lt10 (n : Nat) (h : n < 10) : decDigits n = [n] := by
  rw [decDigits]
  simp [h]

theorem decDigits_ge10 (n : Nat) (h : ¬n < 10) :
    decDigits n = decDigits (n / 10) ++ [n % 10] := by
  rw [decDigits]
  simp [h]

theorem decVal_ge (l : List Nat) (a : Int) (ha : 0 ≤ a) (hd : ∀ d ∈ l, 48 ≤ d) :
    a ≤ decVal a l := by
  induction l generalizing a with
  | nil => simp
  | cons d t ih =>
    have h48 : (48 : Int) ≤ (d : Int) := by exact_mod_cast hd d (by simp)
    have step : a ≤ a * 10 + ((d : Int) - 48) := by nlinarith
    calc a ≤ a * 10 + ((d : Int) - 48) := step
    _ ≤ decVal (a * 10 + ((d : Int) - 48)) t :=
        ih _ (by nlinarith) (fun x hx => hd x (by simp [hx]))

theorem decDigits_shape (n : Nat) (hn : 1 ≤ n) :
    ∃ d ds, decDigits n = d :: ds ∧ 1 ≤ d ∧ d ≤ 9 ∧ ∀ x ∈ ds, x ≤ 9 := by
  induction n using Nat.strong_induction_on with
  | _ n ih =>
    by_cases h : n < 10
    · exact ⟨n, [], decDigits_lt10 n h, hn, by omega, by simp⟩
    · have hd10 : 1 ≤ n / 10 := (Nat.one_le_div_iff (by omega)).mpr (by omega)
      obtain ⟨d, ds, hds, h1, h9, hall⟩ :=
        ih (n / 10) (Nat.div_lt_self (by omega) (by omega)) hd10
      refine ⟨d, ds ++ [n % 10], ?_, h1, h9, ?_⟩
      · rw [decDigits_ge10 n h, hds]; simp
      · intro x hx
        rcases List.mem_append.mp hx with hx | hx
        · exact hall x hx
        · simp at hx; omega

theorem decVal_midBytes (n : Nat) :
    ∀ a : Int, decVal a (midBytes n) = a * 10 ^ (decDigits n).length + n := by
  induction n using Nat.strong_induction_on with
  | _ n ih =>
    intro a
    by_cases h : n < 10
    · rw [midBytes, decDigits_lt10 n h]
      simp only [List.map_cons, List.map_nil, decVal_cons, decVal_nil, List.length_cons,
        List.length_nil, pow_one]
      push_cast
      ring
    · have hlt : n / 10 < n := Nat.div_lt_self (by omega) (by omega)
      rw [midBytes, decDigits_ge10 n h]
      simp only [List.map_append, List.map_cons, List.map_nil]
      rw [decVal_append, ← midBytes, ih (n / 10) hlt a]
      simp only [decVal_cons, decVal_nil, List.length_append, List.length_cons,
        List.length_nil]
      have hmod : ((n % 10 + 48 : Nat) : Int) - 48 = ((n % 10 : Nat) : Int) := by push_cast; ring
      rw [hmod]
      have hdm : (n : Int) = ((n / 10 : Nat) : Int) * 10 + ((n % 10 : Nat) : Int) := by
        omega
      rw [pow_succ]
      nlinarith [hdm]

theorem decDigits_digits (n : Nat) : ∀ x ∈ decDigits n, x ≤ 9 := by
  induction n using Nat.strong_induction_on with
  | _ n ih =>
    intro x hx
    by_cases h : n < 10
    · rw [decDigits_lt10 n h] at hx; simp at hx; omega
    · rw [decDigits_ge10 n h] at hx
      rcases List.mem_append.mp hx with hx | hx
      · exact ih (n / 10) (Nat.div_lt_self (by omega) (by omega)) x hx
      · simp at hx; omega

/-! ## Unfolding and decomposition lemmas for the parse loop -/

theorem runP_nil (f : Bool) (ps : PState) : runP f ps [] = ([], ps) := by
  rw [runP]

theorem runS_cons (ps : PState) (b : Nat) (rest : List Nat) :
    runP false ps (b :: rest)
      = (match (roundCore ps b []).1 with
         | some o => o :: (runP false (roundCore ps b []).2 rest).1
         | none => (runP false (roundCore ps b []).2 rest).1,
         (runP false (roundCore ps b []).2 rest).2) := by
  rw [runP]
  simp

theorem runF_cons (ps : PState) (b : Nat) (rest : List Nat) :
    runP true ps (b :: rest)
      = (match (roundCore ps b (chooseRun ps b rest)).1 with
         | some o =>
             o :: (runP true (roundCore ps b (chooseRun ps b rest)).2
                    (rest.drop (chooseRun ps b rest).length)).1
         | none => (runP true (roundCore ps b (chooseRun ps b rest)).2
                    (rest.drop (chooseRun ps b rest).length)).1,
         (runP true (roundCore ps b (chooseRun ps b rest)).2
           (rest.drop (chooseRun ps b rest).length)).2) := by
  rw [runP]
  simp

theorem runS_append (ps : PState) (l1 l2 : List Nat) :
    runP false ps (l1 ++ l2)
      = ((runP false ps l1).1 ++ (runP false (runP false ps l1).2 l2).1,
         (runP false (runP false ps l1).2 l2).2) := by
  induction l1 generalizing ps with
  | nil => simp [runP_nil]
  | cons b t ih =>
    rw [List.cons_append, runS_cons, runS_cons, ih]
    cases (roundCore ps b []).1 <;> simp

theorem Rel.refl (ps : PState) : Rel ps ps := rfl

theorem Rel.state_eq {ps ps' : PState} (h : Rel ps ps') : ps.state = ps'.state := by
  have t := congrArg PState.state h
  exact t

theorem Rel.lineLength_eq {ps ps' : PState} (h : Rel ps ps') :
    ps.lineLength = ps'.lineLength := by
  have t := congrArg PState.lineLength h
  exact t

theorem Rel.maxLineLength_eq {ps ps' : PState} (h : Rel ps ps') :
    ps.maxLineLength = ps'.maxLineLength := by
  have t := congrArg PState.maxLineLength h
  exact t

theorem Rel.mtype_eq {ps ps' : PState} (h : Rel ps ps') : ps.mtype = ps'.mtype := by
  have t := congrArg PState.mtype h
  exact t

theorem Rel.name_eq {ps ps' : PState} (h : Rel ps ps') : ps.name = ps'.name := by
  have t := congrArg PState.name h
  exact t

theorem Rel.mid_eq {ps ps' : PState} (h : Rel ps ps') : ps.mid = ps'.mid := by
  have t := congrArg PState.mid h
  exact t

theorem Rel.arguments_eq {ps ps' : PState} (h : Rel ps ps') :
    ps.arguments = ps'.arguments := by
  have t := congrArg PState.arguments h
  exact t

theorem Rel.panicked_eq {ps ps' : PState} (h : Rel ps ps') : ps.panicked = ps'.panicked := by
  have t := congrArg PState.panicked h
  exact t

theorem Rel.error_rel {ps ps' : PState} (h : Rel ps ps') :
    ps.error.map eraseErr = ps'.error.map eraseErr := by
  have t := congrArg PState.error h
  exact t

theorem Rel.of_fields {ps ps' : PState}
    (h1 : ps.state = ps'.state) (h2 : ps.lineLength = ps'.lineLength)
    (h3 : ps.maxLineLength = ps'.maxLineLength) (h4 : ps.mtype = ps'.mtype)
    (h5 : ps.name = ps'.name) (h6 : ps.mid = ps'.mid)
    (h7 : ps.arguments = ps'.arguments)
    (h8 : ps.error.map eraseErr = ps'.error.map eraseErr)
    (h9 : ps.panicked = ps'.panicked) : Rel ps ps' := by
  cases ps
  cases ps'
  simp_all [Rel, erasePS]

theorem Rel.error_none_iff {ps ps' : PState} (h : Rel ps ps') :
    ps.error = none ↔ ps'.error = none := by
  have := h.error_rel
  constructor <;> intro hn
  · rw [hn] at this
    cases he : ps'.error with
    | none => rfl
    | some e => rw [he] at this; simp at this
  · rw [hn] at this
    cases he : ps.error with
    | none => rfl
    | some e => rw [he] at this; simp at this

theorem errorAt_rel {ps ps' : PState} (h : Rel ps ps') (m : String) (p : Nat) :
    Rel (errorAt ps m p) (errorAt ps' m p) := by
  obtain ⟨s, L, M, mt, nm, mi, ar, er, pk⟩ := ps
  obtain ⟨s', L', M', mt', nm', mi', ar', er', pk'⟩ := ps'
  have h1 : s = s' := h.state_eq
  have h2 : L = L' := h.lineLength_eq
  have h3 : M = M' := h.maxLineLength_eq
  have h4 : mt = mt' := h.mtype_eq
  have h5 : nm = nm' := h.name_eq
  have h6 : mi = mi' := h.mid_eq
  have h7 : ar = ar' := h.arguments_eq
  have h9 : pk = pk' := h.panicked_eq
  have h8 : er.map eraseErr = er'.map eraseErr := h.error_rel
  subst h1 h2 h3 h4 h5 h6 h7 h9
  cases er with
  | none =>
    cases er' with
    | none => rfl
    | some e' => simp at h8
  | some e =>
    cases er' with
    | none => simp at h8
    | some e' =>
      simp only [Option.map_some'] at h8
      injection h8 with h8
      unfold Katcp.errorAt Rel erasePS
      split_ifs <;> simp_all

theorem resetPS_rel {ps ps' : PState} (h : Rel ps ps') : resetPS ps = resetPS ps' := by
  unfold Katcp.resetPS
  rw [h.maxLineLength_eq, h.panicked_eq]

/-! ## A normal form for one round -/

theorem roundCore_eq (ps : PState) (b : Nat) (run : List Nat) :
    roundCore ps b run
      = finishRound (applyAct (table (preAdjust ps).state b).action (b :: run)
          ((preAdjust ps).lineLength + 1)
          (stepState (preAdjust ps) (table (preAdjust ps).state b) (1 + run.length))) := by
  unfold roundCore stepState
  by_cases h1 : (table (preAdjust ps).state b).createArgument <;>
    by_cases h2 : (preAdjust ps).lineLength < (preAdjust ps).maxLineLength <;>
    simp [h1, h2]

theorem stepState_rel {ps ps' : PState} (h : Rel ps ps') (e : Entry) (p : Nat) :
    Rel (stepState ps e p) (stepState ps' e p) := by
  refine Rel.of_fields ?_ ?_ ?_ ?_ ?_ ?_ ?_ ?_ ?_ <;>
    simp [Katcp.stepState, h.lineLength_eq, h.maxLineLength_eq, h.mtype_eq, h.name_eq,
      h.mid_eq, h.arguments_eq, h.error_rel, h.panicked_eq]

theorem applyAct_rel {ps ps' : PState} (h : Rel ps ps') (a : Action) (chunk : List Nat)
    (pos : Nat) : Rel (applyAct a chunk pos ps) (applyAct a chunk pos ps') := by
  cases a with
  | SetType t =>
    refine Rel.of_fields ?_ ?_ ?_ ?_ ?_ ?_ ?_ ?_ ?_ <;>
      simp [Katcp.applyAct, h.lineLength_eq, h.maxLineLength_eq, h.state_eq, h.name_eq,
        h.mid_eq, h.arguments_eq, h.error_rel, h.panicked_eq]
  | Name =>
    refine Rel.of_fields ?_ ?_ ?_ ?_ ?_ ?_ ?_ ?_ ?_ <;>
      simp [Katcp.applyAct, h.lineLength_eq, h.maxLineLength_eq, h.state_eq, h.mtype_eq,
        h.name_eq, h.mid_eq, h.arguments_eq, h.error_rel, h.panicked_eq]
  | Id =>
    rw [show applyAct Action.Id chunk pos ps
          = (match idFold ps.mid chunk with
             | (m, false) => { ps with mid := m }
             | (m, true) => errorAt { ps with mid := m } "Message ID overflowed" pos) from rfl,
        show applyAct Action.Id chunk pos ps'
          = (match idFold ps'.mid chunk with
             | (m, false) => { ps' with mid := m }
             | (m, true) => errorAt { ps' with mid := m } "Message ID overflowed" pos) from rfl]
    rw [← h.mid_eq]
    cases hf : idFold ps.mid chunk with
    | mk m ov =>
      cases ov
      · refine Rel.of_fields ?_ ?_ ?_ ?_ ?_ ?_ ?_ ?_ ?_ <;>
          simp [h.lineLength_eq, h.maxLineLength_eq, h.state_eq, h.mtype_eq, h.name_eq,
            h.arguments_eq, h.error_rel, h.panicked_eq]
      · refine errorAt_rel ?_ _ _
        refine Rel.of_fields ?_ ?_ ?_ ?_ ?_ ?_ ?_ ?_ ?_ <;>
          simp [h.lineLength_eq, h.maxLineLength_eq, h.state_eq, h.mtype_eq, h.name_eq,
            h.arguments_eq, h.error_rel, h.panicked_eq]
  | Argument =>
    rw [show applyAct Action.Argument chunk pos ps
          = (if ps.arguments = [] then { ps with panicked := true }
             else { ps with arguments := pushLast ps.arguments chunk }) from rfl,
        show applyAct Action.Argument chunk pos ps'
          = (if ps'.arguments = [] then { ps' with panicked := true }
             else { ps' with arguments := pushLast ps'.arguments chunk }) from rfl]
    rw [← h.arguments_eq]
    split_ifs <;>
      refine Rel.of_fields ?_ ?_ ?_ ?_ ?_ ?_ ?_ ?_ ?_ <;>
        simp [h.lineLength_eq, h.maxLineLength_eq, h.state_eq, h.mtype_eq, h.name_eq,
          h.mid_eq, h.arguments_eq, h.error_rel, h.panicked_eq]
  | ArgumentEscaped c =>
    rw [show applyAct (Action.ArgumentEscaped c) chunk pos ps
          = (if ps.arguments = [] then { ps with panicked := true }
             else { ps with arguments := pushLast ps.arguments [c] }) from rfl,
        show applyAct (Action.ArgumentEscaped c) chunk pos ps'
          = (if ps'.arguments = [] then { ps' with panicked := true }
             else { ps' with arguments := pushLast ps'.arguments [c] }) from rfl]
    rw [← h.arguments_eq]
    split_ifs <;>
      refine Rel.of_fields ?_ ?_ ?_ ?_ ?_ ?_ ?_ ?_ ?_ <;>
        simp [h.lineLength_eq, h.maxLineLength_eq, h.state_eq, h.mtype_eq, h.name_eq,
          h.mid_eq, h.arguments_eq, h.error_rel, h.panicked_eq]
  | ResetLineLength =>
    refine Rel.of_fields ?_ ?_ ?_ ?_ ?_ ?_ ?_ ?_ ?_ <;>
      simp [Katcp.applyAct, h.maxLineLength_eq, h.state_eq, h.mtype_eq, h.name_eq,
        h.mid_eq, h.arguments_eq, h.error_rel, h.panicked_eq]
  | Nothing => exact h
  | Error => exact errorAt_rel h _ _

theorem finishRound_other {ps : PState} (h1 : ps.state ≠ .EndOfLine)
    (h2 : ps.state ≠ .ErrorEndOfLine) : finishRound ps = (none, ps) := by
  unfold finishRound
  cases hs : ps.state <;> simp_all

theorem finishRound_eol {ps : PState} {t : MessageType} (h : ps.state = .EndOfLine)
    (hm : ps.mtype = some t) :
    finishRound ps = (some (.ok ⟨t, ps.name, ps.mid, ps.arguments⟩), resetPS ps) := by
  unfold finishRound
  rw [h, hm]

theorem finishRound_eol_panic {ps : PState} (h : ps.state = .EndOfLine)
    (hm : ps.mtype = none) :
    finishRound ps = (some (.ok ⟨.Request, ps.name, ps.mid, ps.arguments⟩),
      resetPS { ps with panicked := true }) := by
  unfold finishRound
  rw [h, hm]

theorem finishRound_eeol {ps : PState} {e : ParseError} (h : ps.state = .ErrorEndOfLine)
    (he : ps.error = some e) : finishRound ps = (some (.err e), resetPS ps) := by
  unfold finishRound
  rw [h, he]

theorem finishRound_eeol_panic {ps : PState} (h : ps.state = .ErrorEndOfLine)
    (he : ps.error = none) :
    finishRound ps = (some (.err ⟨"", 0⟩), resetPS { ps with panicked := true }) := by
  unfold finishRound
  rw [h, he]

theorem rel_of_reset_eq {ps ps' : PState} (h : resetPS ps = resetPS ps') :
    Rel (resetPS ps) (resetPS ps') := congrArg erasePS h

theorem finishRound_rel {ps ps' : PState} (h : Rel ps ps') :
    (Katcp.finishRound ps).1.map eraseOut = (Katcp.finishRound ps').1.map eraseOut
      ∧ Rel (Katcp.finishRound ps).2 (Katcp.finishRound ps').2 := by
  by_cases hEol : ps.state = .EndOfLine
  · have hEol' : ps'.state = .EndOfLine := h.state_eq ▸ hEol
    cases hm : ps.mtype with
    | some t =>
      have hm' : ps'.mtype = some t := h.mtype_eq ▸ hm
      rw [finishRound_eol hEol hm, finishRound_eol hEol' hm']
      exact ⟨by simp [h.name_eq, h.mid_eq, h.arguments_eq],
        rel_of_reset_eq (resetPS_rel h)⟩
    | none =>
      have hm' : ps'.mtype = none := h.mtype_eq ▸ hm
      rw [finishRound_eol_panic hEol hm, finishRound_eol_panic hEol' hm']
      refine ⟨by simp [h.name_eq, h.mid_eq, h.arguments_eq], rel_of_reset_eq ?_⟩
      unfold Katcp.resetPS
      simp [h.maxLineLength_eq, h.panicked_eq]
  · by_cases hEeol : ps.state = .ErrorEndOfLine
    · have hEeol' : ps'.state = .ErrorEndOfLine := h.state_eq ▸ hEeol
      cases he : ps.error with
      | some e =>
        obtain ⟨e', he', hee⟩ : ∃ e', ps'.error = some e' ∧ eraseErr e = eraseErr e' := by
          have t := h.error_rel
          rw [he] at t
          cases hx : ps'.error with
          | none => rw [hx] at t; simp at t
          | some e' =>
            rw [hx] at t
            simp only [Option.map_some'] at t
            exact ⟨e', rfl, by injection t⟩
        rw [finishRound_eeol hEeol he, finishRound_eeol hEeol' he']
        exact ⟨by simp [eraseOut, hee], rel_of_reset_eq (resetPS_rel h)⟩
      | none =>
        have he' : ps'.error = none := h.error_none_iff.mp he
        rw [finishRound_eeol_panic hEeol he, finishRound_eeol_panic hEeol' he']
        refine ⟨rfl, rel_of_reset_eq ?_⟩
        unfold Katcp.resetPS
        simp [h.maxLineLength_eq, h.panicked_eq]
    · have hEol' : ps'.state ≠ .EndOfLine := fun hx => hEol (h.state_eq ▸ hx)
      have hEeol' : ps'.state ≠ .ErrorEndOfLine := fun hx => hEeol (h.state_eq ▸ hx)
      rw [finishRound_other hEol hEeol, finishRound_other hEol' hEeol']
      exact ⟨rfl, h⟩

theorem preAdjust_rel {ps ps' : PState} (h : Rel ps ps') :
    Rel (Katcp.preAdjust ps) (Katcp.preAdjust ps') := by
  unfold Katcp.preAdjust
  by_cases hc : ps.maxLineLength ≤ ps.lineLength ∧ ps.state ≠ .Error
  · rw [if_pos hc,
      if_pos (by rw [← h.lineLength_eq, ← h.maxLineLength_eq, ← h.state_eq]; exact hc),
      ← h.lineLength_eq]
    exact errorAt_rel h _ _
  · rw [if_neg hc,
      if_neg (by rw [← h.lineLength_eq, ← h.maxLineLength_eq, ← h.state_eq]; exact hc)]
    exact h

theorem roundCore_rel {ps ps' : PState} (h : Rel ps ps') (b : Nat) (run : List Nat) :
    (roundCore ps b run).1.map eraseOut = (roundCore ps' b run).1.map eraseOut
      ∧ Rel (roundCore ps b run).2 (roundCore ps' b run).2 := by
  rw [roundCore_eq, roundCore_eq]
  have hpre : Rel (preAdjust ps) (preAdjust ps') := preAdjust_rel h
  rw [← hpre.state_eq, ← hpre.lineLength_eq]
  exact finishRound_rel (applyAct_rel (stepState_rel hpre _ _) _ _ _)

/-! ## Structural facts about the transition table -/

theorem kind_eq_nothing {a : Action} (h : a.kind = .Nothing) : a = .Nothing := by
  cases a <;> simp_all [Action.kind]

theorem kind_eq_name {a : Action} (h : a.kind = .Name) : a = .Name := by
  cases a <;> simp_all [Action.kind]

theorem kind_eq_id {a : Action} (h : a.kind = .Id) : a = .Id := by
  cases a <;> simp_all [Action.kind]

theorem kind_eq_argument {a : Action} (h : a.kind = .Argument) : a = .Argument := by
  cases a <;> simp_all [Action.kind]

theorem kind_eq_error {a : Action} (h : a.kind = .Error) : a = .Error := by
  cases a <;> simp_all [Action.kind]

theorem Entry.eq_of_fields {e : Entry} {a : Action} {s : State} {c : Bool}
    (h1 : e.action = a) (h2 : e.state = s) (h3 : e.createArgument = c) : e = ⟨a, s, c⟩ := by
  cases e
  simp_all

theorem fastOkB_spec {t : State} {k : ActionKind} {b : Nat} (h : fastOkB t k b = true) :
    (table t b).state = t ∧ (table t b).action.kind = k
      ∧ (table t b).createArgument = false := by
  simpa [fastOkB] using h

theorem startRow_pool (c : Nat) : startRow c ∈ entryPool := by
  unfold startRow
  split_ifs <;> first | decide | omega

theorem emptyRow_pool (c : Nat) : emptyRow c ∈ entryPool := by
  unfold emptyRow
  split_ifs <;> first | decide | omega

theorem beforeNameRow_pool (c : Nat) : beforeNameRow c ∈ entryPool := by
  unfold beforeNameRow
  split_ifs <;> first | decide | omega

theorem nameRow_pool (c : Nat) : nameRow c ∈ entryPool := by
  unfold nameRow
  split_ifs <;> first | decide | omega

theorem beforeIdRow_pool (c : Nat) : beforeIdRow c ∈ entryPool := by
  unfold beforeIdRow
  split_ifs <;> first | decide | omega

theorem idRow_pool (c : Nat) : idRow c ∈ entryPool := by
  unfold idRow
  split_ifs <;> first | decide | omega

theorem afterIdRow_pool (c : Nat) : afterIdRow c ∈ entryPool := by
  unfold afterIdRow
  split_ifs <;> first | decide | omega

theorem argumentRow_pool (cr : Bool) (c : Nat) : argumentRow cr c ∈ entryPool := by
  cases cr <;> unfold argumentRow <;> split_ifs <;> first | decide | omega

theorem argumentEscapeRow_pool (c : Nat) : argumentEscapeRow c ∈ entryPool := by
  unfold argumentEscapeRow
  split_ifs <;> first | decide | omega

theorem errorRow_pool (c : Nat) : errorRow c ∈ entryPool := by
  unfold errorRow
  decide

theorem table_pool (s : State) (b : Nat) : table s b ∈ entryPool := by
  cases s <;> (simp only [table]; unfold makeTable; split_ifs) <;>
    first
      | decide
      | exact startRow_pool _
      | exact emptyRow_pool _
      | exact beforeNameRow_pool _
      | exact nameRow_pool _
      | exact beforeIdRow_pool _
      | exact idRow_pool _
      | exact afterIdRow_pool _
      | exact argumentRow_pool _ _
      | exact argumentEscapeRow_pool _
      | exact errorRow_pool _

theorem errorKind_state {s : State} {b : Nat} (h : (table s b).action.kind = .Error) :
    (table s b).state = .Error ∨ (table s b).state = .ErrorEndOfLine := by
  have hp := table_pool s b
  simp only [entryPool, List.mem_cons, List.not_mem_nil, or_false] at hp
  rcases hp with hp|hp|hp|hp|hp|hp|hp|hp|hp|hp|hp|hp|hp|hp|hp|hp|hp|hp|hp|hp|hp|hp|hp|hp|hp <;>
    rw [hp] at h ⊢ <;> simp_all [Action.kind, Entry.err]

theorem errorKind_noCreate {s : State} {b : Nat} (h : (table s b).action.kind = .Error) :
    (table s b).createArgument = false := by
  have hp := table_pool s b
  simp only [entryPool, List.mem_cons, List.not_mem_nil, or_false] at hp
  rcases hp with hp|hp|hp|hp|hp|hp|hp|hp|hp|hp|hp|hp|hp|hp|hp|hp|hp|hp|hp|hp|hp|hp|hp|hp|hp <;>
    rw [hp] at h ⊢ <;> simp_all [Action.kind, Entry.err]

theorem argumentKind_state {s : State} {b : Nat} (h : (table s b).action.kind = .Argument) :
    (table s b).state = .Argument := by
  have hp := table_pool s b
  simp only [entryPool, List.mem_cons, List.not_mem_nil, or_false] at hp
  rcases hp with hp|hp|hp|hp|hp|hp|hp|hp|hp|hp|hp|hp|hp|hp|hp|hp|hp|hp|hp|hp|hp|hp|hp|hp|hp <;>
    rw [hp] at h ⊢ <;> simp_all [Action.kind, Entry.err]

theorem idKind_state {s : State} {b : Nat} (h : (table s b).action.kind = .Id) :
    (table s b).state = .Id := by
  have hp := table_pool s b
  simp only [entryPool, List.mem_cons, List.not_mem_nil, or_false] at hp
  rcases hp with hp|hp|hp|hp|hp|hp|hp|hp|hp|hp|hp|hp|hp|hp|hp|hp|hp|hp|hp|hp|hp|hp|hp|hp|hp <;>
    rw [hp] at h ⊢ <;> simp_all [Action.kind, Entry.err]

theorem id_row_digit {b : Nat} (h : (table .Id b).action.kind = .Id) :
    48 ≤ b ∧ b ≤ 57 := by
  by_cases h9 : b = 9
  · subst h9; revert h; decide
  by_cases h13 : b = 13
  · subst h13; revert h; decide
  by_cases h10 : b = 10
  · subst h10; revert h; decide
  have ht : table .Id b = idRow b := by
    simp only [table]; unfold makeTable; simp [h9, h13, h10]
  rw [ht] at h
  unfold idRow at h
  split_ifs at h with hd hd2
  · exact hd
  · simp [Action.kind] at h
  · simp [Entry.err, Action.kind] at h

theorem table_error_row {b : Nat} (h10 : b ≠ 10) (h13 : b ≠ 13) :
    table .Error b = Entry.err := by
  simp only [table]
  unfold makeTable
  split_ifs <;>
    first
      | rfl
      | exact absurd (by assumption) h10
      | exact absurd (by assumption) h13

/-! ## Properties of the fast-run scan -/

theorem countRun_le_cap (t : State) (k : ActionKind) (cap : Nat) (l : List Nat) :
    countRun t k cap l ≤ cap := by
  induction l generalizing cap with
  | nil => cases cap <;> simp [countRun]
  | cons r rs ih =>
    cases cap with
    | zero => simp [countRun]
    | succ c =>
      by_cases h : fastOkB t k r = true <;> simp [countRun, h]
      exact ih c

theorem countRun_le_len (t : State) (k : ActionKind) (cap : Nat) (l : List Nat) :
    countRun t k cap l ≤ l.length := by
  induction l generalizing cap with
  | nil => cases cap <;> simp [countRun]
  | cons r rs ih =>
    cases cap with
    | zero => simp [countRun]
    | succ c =>
      by_cases h : fastOkB t k r = true <;> simp [countRun, h]
      exact ih c

theorem countRun_take_ok (t : State) (k : ActionKind) (cap : Nat) (l : List Nat) :
    ∀ r ∈ l.take (countRun t k cap l), fastOkB t k r = true := by
  induction l generalizing cap with
  | nil => simp
  | cons x rs ih =>
    cases cap with
    | zero => simp [countRun]
    | succ c =>
      by_cases h : fastOkB t k x = true
      · simp only [countRun, h, if_true, List.take_succ_cons, List.mem_cons]
        rintro r (rfl | hr)
        · exact h
        · exact ih c r hr
      · simp [countRun, h]

theorem preAdjust_id {ps : PState}
    (h : ps.lineLength < ps.maxLineLength ∨ ps.state = .Error) : preAdjust ps = ps := by
  unfold preAdjust
  rcases h with h | h
  · exact if_neg (fun hc => absurd hc.1 (by omega))
  · exact if_neg (fun hc => hc.2 h)

theorem roundCore_noAdjust (ps : PState) (b : Nat) (run : List Nat)
    (hid : preAdjust ps = ps) :
    roundCore ps b run
      = finishRound (applyAct (table ps.state b).action (b :: run)
          (ps.lineLength + 1) (stepState ps (table ps.state b) (1 + run.length))) := by
  rw [roundCore_eq, hid]

theorem slow_round (ps : PState) (b : Nat)
    (hLa : ps.lineLength < ps.maxLineLength ∨ ps.state = .Error) :
    roundCore ps b []
      = finishRound (applyAct (table ps.state b).action [b]
          (ps.lineLength + 1) (stepState ps (table ps.state b) 1)) := by
  rw [roundCore_noAdjust ps b [] (preAdjust_id hLa)]
  norm_num

theorem isTerminal_false {t : State} (h : t.isTerminal = false) :
    t ≠ .EndOfLine ∧ t ≠ .ErrorEndOfLine := by
  cases t <;> simp_all [State.isTerminal]

theorem slow_run_nothing (run : List Nat) : ∀ ps : PState,
    ps.state.isTerminal = false →
    (∀ r ∈ run, table ps.state r = ⟨.Nothing, ps.state, false⟩) →
    ps.lineLength + run.length ≤ ps.maxLineLength →
    runP false ps run = ([], { ps with lineLength := ps.lineLength + run.length }) := by
  induction run with
  | nil =>
    intro ps _ _ _
    simp [runP_nil]
  | cons r rs ih =>
    intro ps hterm hrun hcap
    simp only [List.length_cons] at hcap
    have hL : ps.lineLength < ps.maxLineLength := by omega
    rw [runS_cons, slow_round ps r (Or.inl hL), hrun r (by simp)]
    have hstep : stepState ps ⟨.Nothing, ps.state, false⟩ 1
        = { ps with lineLength := ps.lineLength + 1 } := by
      simp [stepState, hL]
    rw [hstep]
    have hfin : finishRound (applyAct .Nothing [r] (ps.lineLength + 1)
        { ps with lineLength := ps.lineLength + 1 })
        = (none, { ps with lineLength := ps.lineLength + 1 }) := by
      have ht := isTerminal_false hterm
      exact finishRound_other (by simp [applyAct, ht.1]) (by simp [applyAct, ht.2])
    rw [show applyAct .Nothing [r] (ps.lineLength + 1)
        { ps with lineLength := ps.lineLength + 1 }
        = { ps with lineLength := ps.lineLength + 1 } from rfl] at hfin ⊢
    rw [hfin]
    have := ih { ps with lineLength := ps.lineLength + 1 }
      (by simpa using hterm)
      (by intro x hx; simpa using hrun x (by simp [hx]))
      (by simp; omega)
    rw [this]
    simp
    omega

theorem slow_run_name (run : List Nat) : ∀ ps : PState,
    ps.state.isTerminal = false →
    (∀ r ∈ run, table ps.state r = ⟨.Name, ps.state, false⟩) →
    ps.lineLength + run.length ≤ ps.maxLineLength →
    runP false ps run
      = ([], { ps with name := ps.name ++ run,
                       lineLength := ps.lineLength + run.length }) := by
  induction run with
  | nil =>
    intro ps _ _ _
    simp [runP_nil]
  | cons r rs ih =>
    intro ps hterm hrun hcap
    simp only [List.length_cons] at hcap
    have hL : ps.lineLength < ps.maxLineLength := by omega
    rw [runS_cons, slow_round ps r (Or.inl hL), hrun r (by simp)]
    have hstep : stepState ps ⟨.Name, ps.state, false⟩ 1
        = { ps with lineLength := ps.lineLength + 1 } := by
      simp [stepState, hL]
    rw [hstep]
    rw [show applyAct .Name [r] (ps.lineLength + 1) { ps with lineLength := ps.lineLength + 1 }
        = { ps with name := ps.name ++ [r], lineLength := ps.lineLength + 1 } from rfl]
    have ht := isTerminal_false hterm
    rw [finishRound_other (by simpa using ht.1) (by simpa using ht.2)]
    have := ih { ps with name := ps.name ++ [r], lineLength := ps.lineLength + 1 }
      (by simpa using hterm)
      (by intro x hx; simpa using hrun x (by simp [hx]))
      (by simp; omega)
    rw [this]
    simp
    omega

theorem errorAt_noop {X : PState} (m : String) (p : Nat) (h1 : X.state = .Error)
    (h2 : X.error ≠ none) (h3 : X.arguments = []) : errorAt X m p = X := by
  obtain ⟨s, L, M, mt, nm, mi, ar, er, pk⟩ := X
  simp only at h1 h2 h3
  subst h1 h3
  unfold errorAt
  split_ifs <;> simp_all

theorem slow_round' (ps : PState) (b : Nat) {A : Action} {t' : State} {c : Bool}
    (he : table ps.state b = ⟨A, t', c⟩)
    (hLa : ps.lineLength < ps.maxLineLength ∨ ps.state = .Error) :
    roundCore ps b []
      = finishRound (applyAct A [b] (ps.lineLength + 1) (stepState ps ⟨A, t', c⟩ 1)) := by
  rw [slow_round ps b hLa, he]

theorem slow_run_error (run : List Nat) : ∀ ps : PState,
    ps.state = .Error →
    ps.error ≠ none →
    ps.arguments = [] →
    (∀ r ∈ run, table .Error r = ⟨.Error, .Error, false⟩) →
    (ps.lineLength + run.length ≤ ps.maxLineLength ∨ ps.maxLineLength ≤ ps.lineLength) →
    runP false ps run
      = ([], { ps with lineLength := if ps.lineLength < ps.maxLineLength
                                     then ps.lineLength + run.length
                                     else ps.lineLength }) := by
  induction run with
  | nil =>
    intro ps _ _ _ _ _
    rw [runP_nil]
    by_cases h : ps.lineLength < ps.maxLineLength <;> simp [h]
  | cons r rs ih =>
    intro ps hst herr hargs hrun hcap
    obtain ⟨s, L, M, mt, nm, mi, ar, er, pk⟩ := ps
    simp only at hst herr hargs hcap ⊢
    subst hst hargs
    simp only [List.length_cons] at hcap
    rw [runS_cons, slow_round' _ r (hrun r (by simp)) (Or.inr rfl)]
    by_cases hL : L < M
    · have hstep : stepState ⟨.Error, L, M, mt, nm, mi, [], er, pk⟩
          ⟨.Error, .Error, false⟩ 1 = ⟨.Error, L + 1, M, mt, nm, mi, [], er, pk⟩ := by
        simp [stepState, hL]
      rw [hstep]
      rw [show applyAct .Error [r] (L + 1) ⟨.Error, L + 1, M, mt, nm, mi, [], er, pk⟩
          = errorAt ⟨.Error, L + 1, M, mt, nm, mi, [], er, pk⟩ "Invalid character" (L + 1)
          from rfl]
      rw [errorAt_noop _ _ rfl herr rfl]
      rw [finishRound_other (by simp) (by simp)]
      have := ih ⟨.Error, L + 1, M, mt, nm, mi, [], er, pk⟩ rfl herr rfl
        (fun x hx => hrun x (by simp [hx]))
        (by dsimp only; omega)
      rw [this]
      dsimp only
      have harith : (if L + 1 < M then L + 1 + rs.length else L + 1)
          = L + (rs.length + 1) := by
        split_ifs <;> omega
      simp [harith, hL]
    · have hstep : stepState ⟨.Error, L, M, mt, nm, mi, [], er, pk⟩
          ⟨.Error, .Error, false⟩ 1 = ⟨.Error, L, M, mt, nm, mi, [], er, pk⟩ := by
        simp [stepState, hL]
      rw [hstep]
      rw [show applyAct .Error [r] (L + 1) ⟨.Error, L, M, mt, nm, mi, [], er, pk⟩
          = errorAt ⟨.Error, L, M, mt, nm, mi, [], er, pk⟩ "Invalid character" (L + 1)
          from rfl]
      rw [errorAt_noop _ _ rfl herr rfl]
      rw [finishRound_other (by simp) (by simp)]
      have := ih ⟨.Error, L, M, mt, nm, mi, [], er, pk⟩ rfl herr rfl
        (fun x hx => hrun x (by simp [hx]))
        (by dsimp only; omega)
      rw [this]
      dsimp only
      split_ifs <;> simp_all

theorem pushLast_nil (A : List (List Nat)) : pushLast A [] = A := by
  induction A with
  | nil => rfl
  | cons a rest ih =>
    cases rest with
    | nil => simp [pushLast]
    | cons b rest2 => simpa [pushLast] using ih

theorem pushLast_shape (b : List Nat) (rest : List (List Nat)) (c : List Nat) :
    ∃ y ys, pushLast (b :: rest) c = y :: ys := by
  cases rest <;> simp [pushLast]

theorem pushLast_append (A : List (List Nat)) (c1 c2 : List Nat) :
    pushLast (pushLast A c1) c2 = pushLast A (c1 ++ c2) := by
  induction A with
  | nil => rfl
  | cons a rest ih =>
    cases rest with
    | nil => simp [pushLast]
    | cons b rest2 =>
      obtain ⟨y, ys, hy⟩ := pushLast_shape b rest2 c1
      rw [show pushLast (a :: b :: rest2) c1 = a :: pushLast (b :: rest2) c1 from rfl, hy,
        show pushLast (a :: y :: ys) c2 = a :: pushLast (y :: ys) c2 from rfl, ← hy, ih,
        show pushLast (a :: b :: rest2) (c1 ++ c2) = a :: pushLast (b :: rest2) (c1 ++ c2)
          from rfl]

theorem table_id_digit {r : Nat} (h1 : 48 ≤ r) (h2 : r ≤ 57) :
    table .Id r = ⟨.Id, .Id, false⟩ := by
  simp only [table]
  unfold makeTable idRow
  simp [show ¬r = 9 by omega, show ¬r = 13 by omega, show ¬r = 10 by omega, h1, h2]

theorem table_error_lit {b : Nat} (h10 : b ≠ 10) (h13 : b ≠ 13) :
    table .Error b = ⟨.Error, .Error, false⟩ := table_error_row h10 h13

theorem slow_run_argument (run : List Nat) : ∀ ps : PState,
    ps.state = .Argument →
    (∀ r ∈ run, table .Argument r = ⟨.Argument, .Argument, false⟩) →
    ps.lineLength + run.length ≤ ps.maxLineLength →
    runP false ps run
      = ([], { ps with arguments := pushLast ps.arguments run,
                       lineLength := ps.lineLength + run.length,
                       panicked := ps.panicked || (!run.isEmpty && ps.arguments.isEmpty) }) := by
  induction run with
  | nil =>
    intro ps _ _ _
    simp [runP_nil, pushLast_nil]
  | cons r rs ih =>
    intro ps hst hrun hcap
    obtain ⟨s, L, M, mt, nm, mi, ar, er, pk⟩ := ps
    simp only at hst hcap ⊢
    subst hst
    simp only [List.length_cons] at hcap
    have hL : L < M := by omega
    rw [runS_cons, slow_round' _ r (hrun r (by simp)) (Or.inl hL)]
    have hstep : stepState ⟨.Argument, L, M, mt, nm, mi, ar, er, pk⟩
        ⟨.Argument, .Argument, false⟩ 1 = ⟨.Argument, L + 1, M, mt, nm, mi, ar, er, pk⟩ := by
      simp [stepState, hL]
    rw [hstep]
    cases ar with
    | nil =>
      rw [show applyAct .Argument [r] (L + 1) ⟨.Argument, L + 1, M, mt, nm, mi, [], er, pk⟩
          = ⟨.Argument, L + 1, M, mt, nm, mi, [], er, true⟩ from rfl]
      rw [finishRound_other (by simp) (by simp)]
      have := ih ⟨.Argument, L + 1, M, mt, nm, mi, [], er, true⟩ rfl
        (fun x hx => hrun x (by simp [hx])) (by dsimp only; omega)
      rw [this]
      simp [pushLast]
      omega
    | cons b arrest =>
      rw [show applyAct .Argument [r] (L + 1)
            ⟨.Argument, L + 1, M, mt, nm, mi, b :: arrest, er, pk⟩
          = ⟨.Argument, L + 1, M, mt, nm, mi, pushLast (b :: arrest) [r], er, pk⟩ from rfl]
      rw [finishRound_other (by simp) (by simp)]
      have := ih ⟨.Argument, L + 1, M, mt, nm, mi, pushLast (b :: arrest) [r], er, pk⟩ rfl
        (fun x hx => hrun x (by simp [hx])) (by dsimp only; omega)
      rw [this]
      obtain ⟨y, ys, hy⟩ := pushLast_shape b arrest [r]
      rw [pushLast_append]
      simp [hy]
      omega

theorem errorAt_lit (s : State) (L M : Nat) (mt : Option MessageType) (nm : List Nat)
    (mi : Option Int) (ar : List (List Nat)) (er : Option ParseError) (pk : Bool)
    (m : String) (p : Nat) (hs : s ≠ .ErrorEndOfLine) :
    errorAt ⟨s, L, M, mt, nm, mi, ar, er, pk⟩ m p
      = ⟨.Error, L, M, mt, nm, mi, [], if er = none then some ⟨m, p⟩ else er, pk⟩ := by
  unfold errorAt
  split_ifs <;> simp_all

theorem eraseErr_ov (p : Nat) : eraseErr ⟨ovText, p⟩ = ⟨ovText, 0⟩ := by
  simp [eraseErr]

theorem slow_run_id (run : List Nat) : ∀ ps : PState,
    ps.state = .Id →
    (∀ r ∈ run, 48 ≤ r ∧ r ≤ 57) →
    ps.lineLength + run.length ≤ ps.maxLineLength →
    (runP false ps run).1 = [] ∧ Rel (runP false ps run).2 (idTarget ps run) := by
  induction run with
  | nil =>
    intro ps _ _ _
    refine ⟨by simp [runP_nil], ?_⟩
    rw [runP_nil]
    have : idTarget ps [] = ps := by
      simp [idTarget, idFold]
    rw [this]
  | cons r rs ih =>
    intro ps hst hrun hcap
    obtain ⟨s, L, M, mt, nm, mi, ar, er, pk⟩ := ps
    simp only at hst hcap ⊢
    subst hst
    simp only [List.length_cons] at hcap
    have hL : L < M := by omega
    have hdig := hrun r (by simp)
    rw [runS_cons, slow_round' _ r (table_id_digit hdig.1 hdig.2) (Or.inl hL)]
    have hstep : stepState ⟨.Id, L, M, mt, nm, mi, ar, er, pk⟩ ⟨.Id, .Id, false⟩ 1
        = ⟨.Id, L + 1, M, mt, nm, mi, ar, er, pk⟩ := by
      simp [stepState, hL]
    rw [hstep]
    by_cases hv : -(2 ^ 31) ≤ mi.getD 0 * 10 + ((r : Int) - 48)
        ∧ mi.getD 0 * 10 + ((r : Int) - 48) ≤ 2 ^ 31 - 1
    · norm_num at hv
      have hf1 : idFold mi [r] = (some (mi.getD 0 * 10 + ((r : Int) - 48)), false) := by
        simp [idFold, hv]
      have hf2 : idFold mi (r :: rs)
          = idFold (some (mi.getD 0 * 10 + ((r : Int) - 48))) rs := by
        simp [idFold, hv]
      rw [show applyAct .Id [r] (L + 1) ⟨.Id, L + 1, M, mt, nm, mi, ar, er, pk⟩
          = (match idFold mi [r] with
             | (m, false) => (⟨.Id, L + 1, M, mt, nm, m, ar, er, pk⟩ : PState)
             | (m, true) => errorAt ⟨.Id, L + 1, M, mt, nm, m, ar, er, pk⟩
                 "Message ID overflowed" (L + 1)) from rfl, hf1]
      rw [finishRound_other (by simp) (by simp)]
      obtain ⟨ih1, ih2⟩ := ih
        ⟨.Id, L + 1, M, mt, nm, some (mi.getD 0 * 10 + ((r : Int) - 48)), ar, er, pk⟩ rfl
        (fun x hx => hrun x (by simp [hx])) (by dsimp only; omega)
      refine ⟨by simpa using ih1, ?_⟩
      simp only
      refine ih2.trans (congrArg erasePS ?_)
      unfold idTarget
      rw [hf2]
      dsimp only
      have harith : L + 1 + rs.length = L + (rs.length + 1) := by omega
      rw [harith]
      rfl
    · have hneg : ¬(-(2 ^ 31) ≤ mi.getD 0 * 10 + ((r : Int) - 48)
          ∧ mi.getD 0 * 10 + ((r : Int) - 48) ≤ 2 ^ 31 - 1) := hv
      have hf1 : idFold mi [r] = (mi, true) := by
        simp only [idFold]
        rw [if_neg hneg]
      have hf2 : idFold mi (r :: rs) = (mi, true) := by
        simp only [idFold]
        rw [if_neg hneg]
      rw [show applyAct .Id [r] (L + 1) ⟨.Id, L + 1, M, mt, nm, mi, ar, er, pk⟩
          = (match idFold mi [r] with
             | (m, false) => (⟨.Id, L + 1, M, mt, nm, m, ar, er, pk⟩ : PState)
             | (m, true) => errorAt ⟨.Id, L + 1, M, mt, nm, m, ar, er, pk⟩
                 "Message ID overflowed" (L + 1)) from rfl, hf1]
      dsimp only
      rw [errorAt_lit _ _ _ _ _ _ _ _ _ _ _ (by simp)]
      rw [finishRound_other (by simp) (by simp)]
      have herr2 : (if er = none then some (⟨"Message ID overflowed", L + 1⟩ : ParseError)
          else er) ≠ none := by
        split_ifs with he <;> simp_all
      have := slow_run_error rs
        ⟨.Error, L + 1, M, mt, nm, mi, [],
          if er = none then some ⟨"Message ID overflowed", L + 1⟩ else er, pk⟩
        rfl herr2 rfl
        (fun x hx => table_error_lit (by have := hrun x (by simp [hx]); omega)
          (by have := hrun x (by simp [hx]); omega))
        (by dsimp only; left; omega)
      rw [this]
      refine ⟨by simp, ?_⟩
      simp only
      unfold idTarget
      rw [hf2]
      dsimp only
      rw [errorAt_lit _ _ _ _ _ _ _ _ _ _ _ (by simp)]
      have harith : (if L + 1 < M then L + 1 + rs.length else L + 1) = L + (rs.length + 1) := by
        split_ifs <;> omega
      rw [harith]
      refine Rel.of_fields rfl rfl rfl rfl rfl rfl rfl ?_ rfl
      dsimp only
      by_cases he : er = none <;> simp [he, eraseErr, ovText]

theorem slow_roundH (ps : PState) (b : Nat) {A : Action} {t' : State} {c : Bool}
    (he : table ps.state b = ⟨A, t', c⟩) (hid : preAdjust ps = ps) :
    roundCore ps b []
      = finishRound (applyAct A [b] (ps.lineLength + 1) (stepState ps ⟨A, t', c⟩ 1)) := by
  rw [roundCore_noAdjust ps b [] hid, he]
  norm_num

theorem table_error_action (b : Nat) : (table .Error b).action = .Error := by
  simp only [table]
  unfold makeTable promoteLF errorRow
  split_ifs <;> rfl

theorem table_eeol_action (b : Nat) : (table .ErrorEndOfLine b).action = .Error := by
  simp only [table]
  unfold makeTable promoteLF errorRow
  split_ifs <;> rfl

theorem errorAt_state (X : PState) (m : String) (p : Nat) :
    (errorAt X m p).state = if X.state = .ErrorEndOfLine then X.state else .Error := by
  unfold errorAt
  by_cases he : X.error = none <;> by_cases hs : X.state = .ErrorEndOfLine <;>
    simp [he, hs]

theorem preAdjust_fix {ps : PState} (hid : preAdjust ps = ps)
    (h : ps.maxLineLength ≤ ps.lineLength) :
    ps.state = .Error ∨ ps.state = .ErrorEndOfLine := by
  by_cases hs : ps.state = .Error
  · exact Or.inl hs
  by_cases hsE : ps.state = .ErrorEndOfLine
  · exact Or.inr hsE
  exfalso
  unfold preAdjust at hid
  rw [if_pos ⟨h, hs⟩] at hid
  have hstate := congrArg PState.state hid
  rw [errorAt_state, if_neg hsE] at hstate
  exact hs hstate.symm

/-- In a round whose action is not `Error`, the line is still short. -/
theorem chunk_short {ps : PState} {b : Nat} {A : Action} {t' : State} {c : Bool}
    (hid : preAdjust ps = ps) (he : table ps.state b = ⟨A, t', c⟩) (hA : A ≠ .Error) :
    ps.lineLength < ps.maxLineLength := by
  by_contra hL
  rcases preAdjust_fix hid (by omega) with hs | hs
  · have := table_error_action b
    rw [hs] at he
    rw [he] at this
    exact hA this
  · have := table_eeol_action b
    rw [hs] at he
    rw [he] at this
    exact hA this

theorem fastRun_entry {t' : State} {k : ActionKind} {r : Nat} {A0 : Action}
    (hk : ∀ a : Action, a.kind = k → a = A0)
    (h : fastOkB t' k r = true) : table t' r = ⟨A0, t', false⟩ := by
  obtain ⟨h1, h2, h3⟩ := fastOkB_spec h
  exact Entry.eq_of_fields (hk _ h2) h1 h3

theorem chunk_nothing (ps : PState) (b : Nat) (run : List Nat) {t' : State} {c : Bool}
    (hid : preAdjust ps = ps)
    (he : table ps.state b = ⟨.Nothing, t', c⟩)
    (hterm : t'.isTerminal = false)
    (hrun : ∀ r ∈ run, fastOkB t' ActionKind.Nothing r = true)
    (hcap : ps.lineLength + (1 + run.length) ≤ ps.maxLineLength) :
    (roundCore ps b run).1 = none
      ∧ (runP false ps (b :: run)).1 = []
      ∧ Rel (runP false ps (b :: run)).2 (roundCore ps b run).2 := by
  have hL : ps.lineLength < ps.maxLineLength := chunk_short hid he (by simp)
  have ht := isTerminal_false hterm
  obtain ⟨s, L, M, mt, nm, mi, ar, er, pk⟩ := ps
  simp only at hL hcap he ⊢
  rw [roundCore_noAdjust _ _ _ hid, he]
  rw [runS_cons, slow_roundH _ _ he hid]
  have hstep1 : stepState ⟨s, L, M, mt, nm, mi, ar, er, pk⟩ ⟨.Nothing, t', c⟩ 1
      = ⟨t', L + 1, M, mt, nm, mi, if c then ar ++ [[]] else ar, er, pk⟩ := by
    simp [stepState, hL]
  have hstepN : stepState ⟨s, L, M, mt, nm, mi, ar, er, pk⟩ ⟨.Nothing, t', c⟩ (1 + run.length)
      = ⟨t', L + (1 + run.length), M, mt, nm, mi, if c then ar ++ [[]] else ar, er, pk⟩ := by
    simp [stepState, hL]
  rw [hstep1, hstepN]
  rw [show ∀ X : PState, applyAct .Nothing (b :: run) (L + 1) X = X from fun _ => rfl,
      show ∀ X : PState, applyAct .Nothing [b] (L + 1) X = X from fun _ => rfl]
  rw [finishRound_other (by simpa using ht.1) (by simpa using ht.2),
      finishRound_other (by simpa using ht.1) (by simpa using ht.2)]
  have hslow := slow_run_nothing run
    ⟨t', L + 1, M, mt, nm, mi, if c then ar ++ [[]] else ar, er, pk⟩
    (by simpa using hterm)
    (fun x hx => by
      simpa using fastRun_entry (fun a ha => kind_eq_nothing ha) (hrun x hx))
    (by dsimp only; omega)
  rw [hslow]
  refine ⟨rfl, rfl, congrArg erasePS ?_⟩
  dsimp only
  have : L + 1 + run.length = L + (1 + run.length) := by omega
  rw [this]

theorem chunk_name (ps : PState) (b : Nat) (run : List Nat) {t' : State} {c : Bool}
    (hid : preAdjust ps = ps)
    (he : table ps.state b = ⟨.Name, t', c⟩)
    (hterm : t'.isTerminal = false)
    (hrun : ∀ r ∈ run, fastOkB t' ActionKind.Name r = true)
    (hcap : ps.lineLength + (1 + run.length) ≤ ps.maxLineLength) :
    (roundCore ps b run).1 = none
      ∧ (runP false ps (b :: run)).1 = []
      ∧ Rel (runP false ps (b :: run)).2 (roundCore ps b run).2 := by
  have hL : ps.lineLength < ps.maxLineLength := chunk_short hid he (by simp)
  have ht := isTerminal_false hterm
  obtain ⟨s, L, M, mt, nm, mi, ar, er, pk⟩ := ps
  simp only at hL hcap he ⊢
  rw [roundCore_noAdjust _ _ _ hid, he]
  rw [runS_cons, slow_roundH _ _ he hid]
  have hstep1 : stepState ⟨s, L, M, mt, nm, mi, ar, er, pk⟩ ⟨.Name, t', c⟩ 1
      = ⟨t', L + 1, M, mt, nm, mi, if c then ar ++ [[]] else ar, er, pk⟩ := by
    simp [stepState, hL]
  have hstepN : stepState ⟨s, L, M, mt, nm, mi, ar, er, pk⟩ ⟨.Name, t', c⟩ (1 + run.length)
      = ⟨t', L + (1 + run.length), M, mt, nm, mi, if c then ar ++ [[]] else ar, er, pk⟩ := by
    simp [stepState, hL]
  rw [hstep1, hstepN]
  rw [show ∀ X : PState, applyAct .Name (b :: run) (L + 1) X
        = { X with name := X.name ++ (b :: run) } from fun _ => rfl,
      show ∀ X : PState, applyAct .Name [b] (L + 1) X
        = { X with name := X.name ++ [b] } from fun _ => rfl]
  rw [finishRound_other (by simpa using ht.1) (by simpa using ht.2),
      finishRound_other (by simpa using ht.1) (by simpa using ht.2)]
  have hslow := slow_run_name run
    ⟨t', L + 1, M, mt, nm ++ [b], mi, if c then ar ++ [[]] else ar, er, pk⟩
    (by simpa using hterm)
    (fun x hx => by
      simpa using fastRun_entry (fun a ha => kind_eq_name ha) (hrun x hx))
    (by dsimp only; omega)
  rw [hslow]
  refine ⟨rfl, rfl, congrArg erasePS ?_⟩
  dsimp only
  have h1 : L + 1 + run.length = L + (1 + run.length) := by omega
  have h2 : (nm ++ [b]) ++ run = nm ++ (b :: run) := by simp
  rw [h1, h2]

theorem chunk_error (ps : PState) (b : Nat) (run : List Nat) {c : Bool}
    (hid : preAdjust ps = ps)
    (he : table ps.state b = ⟨.Error, .Error, c⟩)
    (hrun : ∀ r ∈ run, fastOkB .Error ActionKind.Error r = true)
    (hcap : ps.lineLength < ps.maxLineLength →
      ps.lineLength + (1 + run.length) ≤ ps.maxLineLength) :
    (roundCore ps b run).1 = none
      ∧ (runP false ps (b :: run)).1 = []
      ∧ Rel (runP false ps (b :: run)).2 (roundCore ps b run).2 := by
  obtain ⟨s, L, M, mt, nm, mi, ar, er, pk⟩ := ps
  simp only at hcap he ⊢
  rw [roundCore_noAdjust _ _ _ hid, he]
  rw [runS_cons, slow_roundH _ _ he hid]
  have hstep1 : stepState ⟨s, L, M, mt, nm, mi, ar, er, pk⟩ ⟨.Error, .Error, c⟩ 1
      = ⟨.Error, if L < M then L + 1 else L, M, mt, nm, mi,
          if c then ar ++ [[]] else ar, er, pk⟩ := by
    by_cases h : L < M <;> simp [stepState, h]
  have hstepN : stepState ⟨s, L, M, mt, nm, mi, ar, er, pk⟩ ⟨.Error, .Error, c⟩
      (1 + run.length)
      = ⟨.Error, if L < M then L + (1 + run.length) else L, M, mt, nm, mi,
          if c then ar ++ [[]] else ar, er, pk⟩ := by
    by_cases h : L < M <;> simp [stepState, h]
  rw [hstep1, hstepN]
  rw [show ∀ X : PState, applyAct .Error (b :: run) (L + 1) X
        = errorAt X "Invalid character" (L + 1) from fun _ => rfl,
      show ∀ X : PState, applyAct .Error [b] (L + 1) X
        = errorAt X "Invalid character" (L + 1) from fun _ => rfl]
  rw [errorAt_lit _ _ _ _ _ _ _ _ _ _ _ (by simp),
      errorAt_lit _ _ _ _ _ _ _ _ _ _ _ (by simp)]
  rw [finishRound_other (by simp) (by simp), finishRound_other (by simp) (by simp)]
  have herr2 : (if er = none then some (⟨"Invalid character", L + 1⟩ : ParseError) else er)
      ≠ none := by
    split_ifs with hh <;> simp_all
  have hslow := slow_run_error run
    ⟨.Error, if L < M then L + 1 else L, M, mt, nm, mi, [],
      if er = none then some ⟨"Invalid character", L + 1⟩ else er, pk⟩
    rfl herr2 rfl
    (fun x hx => fastRun_entry (fun a ha => kind_eq_error ha) (hrun x hx))
    (by dsimp only; split_ifs with h <;> [left; right] <;> [skip; omega]
        exact le_trans (by omega) (hcap h))
  rw [hslow]
  refine ⟨rfl, rfl, congrArg erasePS ?_⟩
  dsimp only
  have harith : (if (if L < M then L + 1 else L) < M
      then (if L < M then L + 1 else L) + run.length
      else if L < M then L + 1 else L)
      = if L < M then L + (1 + run.length) else L := by
    by_cases h : L < M
    · have := hcap h
      split_ifs <;> omega
    · split_ifs <;> omega
  rw [harith]

theorem chunk_argument (ps : PState) (b : Nat) (run : List Nat) {c : Bool}
    (hid : preAdjust ps = ps)
    (he : table ps.state b = ⟨.Argument, .Argument, c⟩)
    (hrun : ∀ r ∈ run, fastOkB .Argument ActionKind.Argument r = true)
    (hcap : ps.lineLength + (1 + run.length) ≤ ps.maxLineLength) :
    (roundCore ps b run).1 = none
      ∧ (runP false ps (b :: run)).1 = []
      ∧ Rel (runP false ps (b :: run)).2 (roundCore ps b run).2 := by
  have hL : ps.lineLength < ps.maxLineLength := chunk_short hid he (by simp)
  obtain ⟨s, L, M, mt, nm, mi, ar, er, pk⟩ := ps
  simp only at hL hcap he ⊢
  rw [roundCore_noAdjust _ _ _ hid, he]
  rw [runS_cons, slow_roundH _ _ he hid]
  have hstep1 : stepState ⟨s, L, M, mt, nm, mi, ar, er, pk⟩ ⟨.Argument, .Argument, c⟩ 1
      = ⟨.Argument, L + 1, M, mt, nm, mi, if c then ar ++ [[]] else ar, er, pk⟩ := by
    simp [stepState, hL]
  have hstepN : stepState ⟨s, L, M, mt, nm, mi, ar, er, pk⟩ ⟨.Argument, .Argument, c⟩
      (1 + run.length)
      = ⟨.Argument, L + (1 + run.length), M, mt, nm, mi,
          if c then ar ++ [[]] else ar, er, pk⟩ := by
    simp [stepState, hL]
  rw [hstep1, hstepN]
  by_cases hargs : (if c then ar ++ [[]] else ar) = []
  · rw [show applyAct .Argument (b :: run) (L + 1)
          ⟨.Argument, L + (1 + run.length), M, mt, nm, mi,
            if c then ar ++ [[]] else ar, er, pk⟩
        = ⟨.Argument, L + (1 + run.length), M, mt, nm, mi,
            if c then ar ++ [[]] else ar, er, true⟩ by
      rw [show applyAct .Argument (b :: run) (L + 1)
            ⟨.Argument, L + (1 + run.length), M, mt, nm, mi,
              if c then ar ++ [[]] else ar, er, pk⟩
          = if (if c then ar ++ [[]] else ar) = []
            then ⟨.Argument, L + (1 + run.length), M, mt, nm, mi,
              if c then ar ++ [[]] else ar, er, true⟩
            else ⟨.Argument, L + (1 + run.length), M, mt, nm, mi,
              pushLast (if c then ar ++ [[]] else ar) (b :: run), er, pk⟩ from rfl,
        if_pos hargs]]
    rw [show applyAct .Argument [b] (L + 1)
          ⟨.Argument, L + 1, M, mt, nm, mi, if c then ar ++ [[]] else ar, er, pk⟩
        = ⟨.Argument, L + 1, M, mt, nm, mi, if c then ar ++ [[]] else ar, er, true⟩ by
      rw [show applyAct .Argument [b] (L + 1)
            ⟨.Argument, L + 1, M, mt, nm, mi, if c then ar ++ [[]] else ar, er, pk⟩
          = if (if c then ar ++ [[]] else ar) = []
            then ⟨.Argument, L + 1, M, mt, nm, mi, if c then ar ++ [[]] else ar, er, true⟩
            else ⟨.Argument, L + 1, M, mt, nm, mi,
              pushLast (if c then ar ++ [[]] else ar) [b], er, pk⟩ from rfl,
        if_pos hargs]]
    rw [finishRound_other (by simp) (by simp), finishRound_other (by simp) (by simp)]
    have hslow := slow_run_argument run
      ⟨.Argument, L + 1, M, mt, nm, mi, if c then ar ++ [[]] else ar, er, true⟩
      rfl
      (fun x hx => fastRun_entry (fun a ha => kind_eq_argument ha) (hrun x hx))
      (by dsimp only; omega)
    rw [hslow]
    refine ⟨rfl, rfl, congrArg erasePS ?_⟩
    dsimp only
    rw [hargs]
    have h1 : L + 1 + run.length = L + (1 + run.length) := by omega
    simp [pushLast, h1]
  · rw [show applyAct .Argument (b :: run) (L + 1)
          ⟨.Argument, L + (1 + run.length), M, mt, nm, mi,
            if c then ar ++ [[]] else ar, er, pk⟩
        = ⟨.Argument, L + (1 + run.length), M, mt, nm, mi,
            pushLast (if c then ar ++ [[]] else ar) (b :: run), er, pk⟩ by
      rw [show applyAct .Argument (b :: run) (L + 1)
            ⟨.Argument, L + (1 + run.length), M, mt, nm, mi,
              if c then ar ++ [[]] else ar, er, pk⟩
          = if (if c then ar ++ [[]] else ar) = []
            then ⟨.Argument, L + (1 + run.length), M, mt, nm, mi,
              if c then ar ++ [[]] else ar, er, true⟩
            else ⟨.Argument, L + (1 + run.length), M, mt, nm, mi,
              pushLast (if c then ar ++ [[]] else ar) (b :: run), er, pk⟩ from rfl,
        if_neg hargs]]
    rw [show applyAct .Argument [b] (L + 1)
          ⟨.Argument, L + 1, M, mt, nm, mi, if c then ar ++ [[]] else ar, er, pk⟩
        = ⟨.Argument, L + 1, M, mt, nm, mi,
            pushLast (if c then ar ++ [[]] else ar) [b], er, pk⟩ by
      rw [show applyAct .Argument [b] (L + 1)
            ⟨.Argument, L + 1, M, mt, nm, mi, if c then ar ++ [[]] else ar, er, pk⟩
          = if (if c then ar ++ [[]] else ar) = []
            then ⟨.Argument, L + 1, M, mt, nm, mi, if c then ar ++ [[]] else ar, er, true⟩
            else ⟨.Argument, L + 1, M, mt, nm, mi,
              pushLast (if c then ar ++ [[]] else ar) [b], er, pk⟩ from rfl,
        if_neg hargs]]
    rw [finishRound_other (by simp) (by simp), finishRound_other (by simp) (by simp)]
    have hslow := slow_run_argument run
      ⟨.Argument, L + 1, M, mt, nm, mi,
        pushLast (if c then ar ++ [[]] else ar) [b], er, pk⟩
      rfl
      (fun x hx => fastRun_entry (fun a ha => kind_eq_argument ha) (hrun x hx))
      (by dsimp only; omega)
    rw [hslow]
    refine ⟨rfl, rfl, congrArg erasePS ?_⟩
    dsimp only
    obtain ⟨y, ys, hy⟩ : ∃ y ys, (if c then ar ++ [[]] else ar) = y :: ys := by
      cases hA : (if c then ar ++ [[]] else ar) with
      | nil => exact absurd hA hargs
      | cons y ys => exact ⟨y, ys, rfl⟩
    rw [pushLast_append]
    have h1 : L + 1 + run.length = L + (1 + run.length) := by omega
    rw [h1, hy]
    obtain ⟨z, zs, hz⟩ := pushLast_shape y ys [b]
    rw [hz]
    simp

theorem chunk_id (ps : PState) (b : Nat) (run : List Nat) {c : Bool}
    (hid : preAdjust ps = ps)
    (he : table ps.state b = ⟨.Id, .Id, c⟩)
    (hrun : ∀ r ∈ run, fastOkB .Id ActionKind.Id r = true)
    (hcap : ps.lineLength + (1 + run.length) ≤ ps.maxLineLength) :
    (roundCore ps b run).1 = none
      ∧ (runP false ps (b :: run)).1 = []
      ∧ Rel (runP false ps (b :: run)).2 (roundCore ps b run).2 := by
  have hL : ps.lineLength < ps.maxLineLength := chunk_short hid he (by simp)
  have hdg : ∀ r ∈ run, 48 ≤ r ∧ r ≤ 57 :=
    fun x hx => id_row_digit (fastOkB_spec (hrun x hx)).2.1
  obtain ⟨s, L, M, mt, nm, mi, ar, er, pk⟩ := ps
  simp only at hL hcap he ⊢
  rw [roundCore_noAdjust _ _ _ hid, he]
  rw [runS_cons, slow_roundH _ _ he hid]
  have hstep1 : stepState ⟨s, L, M, mt, nm, mi, ar, er, pk⟩ ⟨.Id, .Id, c⟩ 1
      = ⟨.Id, L + 1, M, mt, nm, mi, if c then ar ++ [[]] else ar, er, pk⟩ := by
    simp [stepState, hL]
  have hstepN : stepState ⟨s, L, M, mt, nm, mi, ar, er, pk⟩ ⟨.Id, .Id, c⟩ (1 + run.length)
      = ⟨.Id, L + (1 + run.length), M, mt, nm, mi, if c then ar ++ [[]] else ar, er, pk⟩ := by
    simp [stepState, hL]
  rw [hstep1, hstepN]
  rw [show applyAct .Id (b :: run) (L + 1)
        ⟨.Id, L + (1 + run.length), M, mt, nm, mi, if c then ar ++ [[]] else ar, er, pk⟩
      = (match idFold mi (b :: run) with
         | (m, false) => (⟨.Id, L + (1 + run.length), M, mt, nm, m,
             if c then ar ++ [[]] else ar, er, pk⟩ : PState)
         | (m, true) => errorAt ⟨.Id, L + (1 + run.length), M, mt, nm, m,
             if c then ar ++ [[]] else ar, er, pk⟩ "Message ID overflowed" (L + 1))
      from rfl]
  rw [show applyAct .Id [b] (L + 1)
        ⟨.Id, L + 1, M, mt, nm, mi, if c then ar ++ [[]] else ar, er, pk⟩
      = (match idFold mi [b] with
         | (m, false) => (⟨.Id, L + 1, M, mt, nm, m,
             if c then ar ++ [[]] else ar, er, pk⟩ : PState)
         | (m, true) => errorAt ⟨.Id, L + 1, M, mt, nm, m,
             if c then ar ++ [[]] else ar, er, pk⟩ "Message ID overflowed" (L + 1))
      from rfl]
  by_cases hv : -(2 ^ 31) ≤ mi.getD 0 * 10 + ((b : Int) - 48)
      ∧ mi.getD 0 * 10 + ((b : Int) - 48) ≤ 2 ^ 31 - 1
  · have hf1 : idFold mi [b] = (some (mi.getD 0 * 10 + ((b : Int) - 48)), false) := by
      simp only [idFold]
      rw [if_pos hv]
    have hf2 : idFold mi (b :: run)
        = idFold (some (mi.getD 0 * 10 + ((b : Int) - 48))) run := by
      simp only [idFold]
      rw [if_pos hv]
    rw [hf1, hf2]
    dsimp only
    rw [@finishRound_other
        ⟨.Id, L + 1, M, mt, nm, some (mi.getD 0 * 10 + ((b : Int) - 48)),
          if c then ar ++ [[]] else ar, er, pk⟩ (by simp) (by simp)]
    obtain ⟨ih1, ih2⟩ := slow_run_id run
      ⟨.Id, L + 1, M, mt, nm, some (mi.getD 0 * 10 + ((b : Int) - 48)),
        if c then ar ++ [[]] else ar, er, pk⟩ rfl hdg (by dsimp only; omega)
    cases hres : idFold (some (mi.getD 0 * 10 + ((b : Int) - 48))) run with
    | mk m ov =>
      cases ov with
      | false =>
        dsimp only
        rw [@finishRound_other
            ⟨.Id, L + (1 + run.length), M, mt, nm, m,
              if c then ar ++ [[]] else ar, er, pk⟩ (by simp) (by simp)]
        refine ⟨rfl, by simpa using ih1, ?_⟩
        dsimp only
        refine ih2.trans (congrArg erasePS ?_)
        unfold idTarget
        rw [hres]
        dsimp only
        have h1 : L + 1 + run.length = L + (1 + run.length) := by omega
        rw [h1]
      | true =>
        dsimp only
        rw [errorAt_lit _ _ _ _ _ _ _ _ _ _ _ (by simp)]
        rw [@finishRound_other
            ⟨.Error, L + (1 + run.length), M, mt, nm, m, [],
              if er = none then some ⟨"Message ID overflowed", L + 1⟩ else er, pk⟩
            (by simp) (by simp)]
        refine ⟨rfl, by simpa using ih1, ?_⟩
        dsimp only
        refine ih2.trans ?_
        unfold idTarget
        rw [hres]
        dsimp only
        rw [errorAt_lit _ _ _ _ _ _ _ _ _ _ _ (by simp)]
        have h1 : L + 1 + run.length = L + (1 + run.length) := by omega
        rw [h1]
        refine Rel.of_fields rfl rfl rfl rfl rfl rfl rfl ?_ rfl
        dsimp only
        by_cases hhe : er = none <;> simp [hhe, eraseErr, ovText]
  · have hneg : ¬(-(2 ^ 31) ≤ mi.getD 0 * 10 + ((b : Int) - 48)
        ∧ mi.getD 0 * 10 + ((b : Int) - 48) ≤ 2 ^ 31 - 1) := hv
    have hf1 : idFold mi [b] = (mi, true) := by
      simp only [idFold]
      rw [if_neg hneg]
    have hf2 : idFold mi (b :: run) = (mi, true) := by
      simp only [idFold]
      rw [if_neg hneg]
    rw [hf1, hf2]
    dsimp only
    rw [errorAt_lit .Id (L + (1 + run.length)) M mt nm mi (if c then ar ++ [[]] else ar)
        er pk "Message ID overflowed" (L + 1) (by simp)]
    rw [errorAt_lit .Id (L + 1) M mt nm mi (if c then ar ++ [[]] else ar)
        er pk "Message ID overflowed" (L + 1) (by simp)]
    rw [@finishRound_other
        ⟨.Error, L + (1 + run.length), M, mt, nm, mi, [],
          if er = none then some ⟨"Message ID overflowed", L + 1⟩ else er, pk⟩
        (by simp) (by simp)]
    rw [@finishRound_other
        ⟨.Error, L + 1, M, mt, nm, mi, [],
          if er = none then some ⟨"Message ID overflowed", L + 1⟩ else er, pk⟩
        (by simp) (by simp)]
    have herr2 : (if er = none then some (⟨"Message ID overflowed", L + 1⟩ : ParseError)
        else er) ≠ none := by
      split_ifs with hh <;> simp_all
    have hslow := slow_run_error run
      ⟨.Error, L + 1, M, mt, nm, mi, [],
        if er = none then some ⟨"Message ID overflowed", L + 1⟩ else er, pk⟩
      rfl herr2 rfl
      (fun x hx => table_error_lit (by have := hdg x hx; omega) (by have := hdg x hx; omega))
      (by dsimp only; left; omega)
    rw [hslow]
    refine ⟨rfl, rfl, congrArg erasePS ?_⟩
    dsimp only
    have h1 : (if L + 1 < M then L + 1 + run.length else L + 1) = L + (1 + run.length) := by
      split_ifs <;> omega
    rw [h1]

theorem runS_rel {ps ps' : PState} (h : Rel ps ps') (data : List Nat) :
    (runP false ps data).1.map eraseOut = (runP false ps' data).1.map eraseOut
      ∧ Rel (runP false ps data).2 (runP false ps' data).2 := by
  induction data generalizing ps ps' with
  | nil => simpa [runP_nil] using h
  | cons b rest ih =>
    rw [runS_cons, runS_cons]
    obtain ⟨ho, hs⟩ := roundCore_rel h b []
    obtain ⟨iho, ihs⟩ := ih hs
    cases hA : (roundCore ps b []).1 with
    | none =>
      cases hB : (roundCore ps' b []).1 with
      | none => exact ⟨iho, ihs⟩
      | some o' => rw [hA, hB] at ho; simp at ho
    | some o =>
      cases hB : (roundCore ps' b []).1 with
      | none => rw [hA, hB] at ho; simp at ho
      | some o' =>
        rw [hA, hB] at ho
        simp only [Option.map_some'] at ho
        injection ho with ho
        exact ⟨by simp [ho, iho], ihs⟩

/-! ## Assembling the equivalence of the fast and the slow semantics -/

theorem errorAt_eeol (L M : Nat) (mt : Option MessageType) (nm : List Nat)
    (mi : Option Int) (ar : List (List Nat)) (er : Option ParseError) (pk : Bool)
    (m : String) (p : Nat) :
    errorAt ⟨.ErrorEndOfLine, L, M, mt, nm, mi, ar, er, pk⟩ m p
      = ⟨.ErrorEndOfLine, L, M, mt, nm, mi, [],
          if er = none then some ⟨m, p⟩ else er, pk⟩ := by
  unfold errorAt
  split_ifs <;> simp_all

theorem preAdjust_idem (ps : PState) : preAdjust (preAdjust ps) = preAdjust ps := by
  obtain ⟨s, L, M, mt, nm, mi, ar, er, pk⟩ := ps
  by_cases h : M ≤ L ∧ s ≠ State.Error
  · have h0 : preAdjust ⟨s, L, M, mt, nm, mi, ar, er, pk⟩
        = errorAt ⟨s, L, M, mt, nm, mi, ar, er, pk⟩ "Line too long" (L + 1) := by
      unfold preAdjust
      exact if_pos h
    by_cases hs : s = State.ErrorEndOfLine
    · subst hs
      rw [h0, errorAt_eeol]
      have her : (if er = none then some (⟨"Line too long", L + 1⟩ : ParseError) else er)
          ≠ none := by
        split_ifs <;> simp_all
      have h2 : preAdjust ⟨State.ErrorEndOfLine, L, M, mt, nm, mi, [],
            if er = none then some ⟨"Line too long", L + 1⟩ else er, pk⟩
          = errorAt ⟨State.ErrorEndOfLine, L, M, mt, nm, mi, [],
              if er = none then some ⟨"Line too long", L + 1⟩ else er, pk⟩
              "Line too long" (L + 1) := by
        unfold preAdjust
        exact if_pos ⟨h.1, by simp⟩
      rw [h2, errorAt_eeol, if_neg her]
    · rw [h0, errorAt_lit _ _ _ _ _ _ _ _ _ _ _ hs]
      unfold preAdjust
      exact if_neg (fun hc => hc.2 rfl)
  · have h1 : preAdjust ⟨s, L, M, mt, nm, mi, ar, er, pk⟩
        = ⟨s, L, M, mt, nm, mi, ar, er, pk⟩ := by
      unfold preAdjust
      exact if_neg h
    rw [h1, h1]

theorem roundCore_pre (ps : PState) (b : Nat) (run : List Nat) :
    roundCore (preAdjust ps) b run = roundCore ps b run := by
  rw [roundCore_eq, roundCore_eq, preAdjust_idem]

theorem chooseRun_pre (ps : PState) (b : Nat) (rest : List Nat) :
    chooseRun (preAdjust ps) b rest = chooseRun ps b rest := by
  unfold chooseRun
  rw [preAdjust_idem]

theorem runP_pre (f : Bool) (ps : PState) (b : Nat) (rest : List Nat) :
    runP f (preAdjust ps) (b :: rest) = runP f ps (b :: rest) := by
  cases f with
  | false => rw [runS_cons, runS_cons, roundCore_pre]
  | true => rw [runF_cons, runF_cons, chooseRun_pre, roundCore_pre]

theorem mergeable_cases {a : Action} (h : a.isMergeable = true) :
    a = .Nothing ∨ a = .Name ∨ a = .Id ∨ a = .Argument ∨ a = .Error := by
  cases a <;> simp_all [Action.isMergeable]

/-- The data extracted from a non-empty fast run: the entry is non-terminal
and mergeable, the merged bytes all pass the fast table, and the run respects
the `max_len` cap of the scan. -/
theorem chooseRun_spec (ps : PState) (b : Nat) (rest : List Nat)
    (h : chooseRun ps b rest ≠ []) :
    (table (preAdjust ps).state b).state.isTerminal = false
    ∧ (table (preAdjust ps).state b).action.isMergeable = true
    ∧ (∀ r ∈ chooseRun ps b rest,
        fastOkB (table (preAdjust ps).state b).state
          (table (preAdjust ps).state b).action.kind r = true)
    ∧ chooseRun ps b rest ++ rest.drop (chooseRun ps b rest).length = rest
    ∧ ((preAdjust ps).lineLength < (preAdjust ps).maxLineLength →
        (preAdjust ps).lineLength + (1 + (chooseRun ps b rest).length)
          ≤ (preAdjust ps).maxLineLength) := by
  by_cases hterm : ((table (preAdjust ps).state b).state.isTerminal
      || !(table (preAdjust ps).state b).action.isMergeable) = true
  · exact absurd (by unfold chooseRun; rw [if_pos hterm]) h
  · have h1 : (table (preAdjust ps).state b).state.isTerminal = false := by
      cases hx : (table (preAdjust ps).state b).state.isTerminal
      · rfl
      · exact absurd (by rw [hx]; rfl) hterm
    have h2 : (table (preAdjust ps).state b).action.isMergeable = true := by
      cases hx : (table (preAdjust ps).state b).action.isMergeable
      · exact absurd (by rw [h1, hx]; rfl) hterm
      · rfl
    have hrun : chooseRun ps b rest
        = rest.take (countRun (table (preAdjust ps).state b).state
            (table (preAdjust ps).state b).action.kind
            ((if (preAdjust ps).maxLineLength ≤ (preAdjust ps).lineLength
              then rest.length + 1
              else min (rest.length + 1)
                ((preAdjust ps).maxLineLength - (preAdjust ps).lineLength)) - 1)
            rest) := by
      unfold chooseRun
      rw [if_neg hterm]
    refine ⟨h1, h2, ?_, ?_, ?_⟩
    · rw [hrun]
      exact countRun_take_ok _ _ _ rest
    · rw [hrun, List.length_take, min_eq_left (countRun_le_len _ _ _ rest)]
      exact List.take_append_drop _ rest
    · intro hLM
      have hif : (if (preAdjust ps).maxLineLength ≤ (preAdjust ps).lineLength
          then rest.length + 1
          else min (rest.length + 1)
            ((preAdjust ps).maxLineLength - (preAdjust ps).lineLength))
          = min (rest.length + 1)
            ((preAdjust ps).maxLineLength - (preAdjust ps).lineLength) :=
        if_neg (by omega)
      rw [hrun, hif, List.length_take, min_eq_left (countRun_le_len _ _ _ rest)]
      set K := min (rest.length + 1)
        ((preAdjust ps).maxLineLength - (preAdjust ps).lineLength) with hK
      have hcap := countRun_le_cap (table (preAdjust ps).state b).state
        (table (preAdjust ps).state b).action.kind (K - 1) rest
      have hm2 : K ≤ (preAdjust ps).maxLineLength - (preAdjust ps).lineLength := by
        rw [hK]
        exact min_le_right _ _
      omega

theorem chunk_glue {X : PState} {b : Nat} {run d : List Nat}
    (hc3 : Rel (runP false X (b :: run)).2 (roundCore X b run).2)
    (hih : (runP true (roundCore X b run).2 d).1.map eraseOut
             = (runP false (roundCore X b run).2 d).1.map eraseOut
           ∧ Rel (runP true (roundCore X b run).2 d).2
               (runP false (roundCore X b run).2 d).2) :
    (runP true (roundCore X b run).2 d).1.map eraseOut
      = (runP false (runP false X (b :: run)).2 d).1.map eraseOut
    ∧ Rel (runP true (roundCore X b run).2 d).2
        (runP false (runP false X (b :: run)).2 d).2 := by
  obtain ⟨s1, s2⟩ := runS_rel hc3 d
  exact ⟨hih.1.trans s1.symm, hih.2.trans s2.symm⟩

/-- The fast-table bulk path and the byte-at-a-time reference dispatch agree
on every emitted outcome and on the final parser state, up to the position
recorded in a "Message ID overflowed" error. -/
theorem simFS : ∀ n : Nat, ∀ data : List Nat, data.length ≤ n → ∀ ps : PState,
    (runP true ps data).1.map eraseOut = (runP false ps data).1.map eraseOut
    ∧ Rel (runP true ps data).2 (runP false ps data).2 := by
  intro n
  induction n with
  | zero =>
    intro data hlen ps
    cases data with
    | nil => simp [runP_nil]
    | cons a t => simp at hlen
  | succ n ih =>
    intro data hlen ps
    cases data with
    | nil => simp [runP_nil]
    | cons b rest =>
      simp only [List.length_cons] at hlen
      by_cases hrun0 : chooseRun ps b rest = []
      · rw [runF_cons, runS_cons, hrun0]
        simp only [List.length_nil, List.drop_zero]
        obtain ⟨iho, ihs⟩ := ih rest (by omega) (roundCore ps b []).2
        cases hA : (roundCore ps b []).1 with
        | none => exact ⟨iho, ihs⟩
        | some o => exact ⟨by simp [iho], ihs⟩
      · obtain ⟨h1, h2, h3, h4, h5⟩ := chooseRun_spec ps b rest hrun0
        rw [← runP_pre true ps b rest, ← runP_pre false ps b rest]
        set X := preAdjust ps with hX
        have hid : preAdjust X = X := by
          rw [hX]
          exact preAdjust_idem ps
        have hcr : chooseRun X b rest = chooseRun ps b rest := by
          rw [hX]
          exact chooseRun_pre ps b rest
        rw [runF_cons, hcr]
        set run := chooseRun ps b rest with hrd
        have hsplit : b :: rest = (b :: run) ++ rest.drop run.length := by
          rw [List.cons_append, h4]
        rw [hsplit, runS_append]
        have hlen2 : (rest.drop run.length).length ≤ n := by
          simp only [List.length_drop]
          omega
        have hEex : ∃ A T c, table X.state b = (⟨A, T, c⟩ : Entry) :=
          ⟨(table X.state b).action, (table X.state b).state,
           (table X.state b).createArgument, rfl⟩
        obtain ⟨A, T, c, hE⟩ := hEex
        rw [hE] at h1 h2 h3
        dsimp only at h1 h2 h3
        rcases mergeable_cases h2 with rfl | rfl | rfl | rfl | rfl
        · obtain ⟨hc1, hc2, hc3⟩ := chunk_nothing X b run hid hE h1 h3
            (h5 (chunk_short hid hE (by simp)))
          rw [hc1, hc2]
          simp only [List.nil_append]
          exact chunk_glue hc3 (ih _ hlen2 _)
        · obtain ⟨hc1, hc2, hc3⟩ := chunk_name X b run hid hE h1 h3
            (h5 (chunk_short hid hE (by simp)))
          rw [hc1, hc2]
          simp only [List.nil_append]
          exact chunk_glue hc3 (ih _ hlen2 _)
        · have hkind : (table X.state b).action.kind = ActionKind.Id := by
            rw [hE]
            rfl
          have hT : T = State.Id := by
            have h' := idKind_state hkind
            rw [hE] at h'
            exact h'
          subst hT
          obtain ⟨hc1, hc2, hc3⟩ := chunk_id X b run hid hE h3
            (h5 (chunk_short hid hE (by simp)))
          rw [hc1, hc2]
          simp only [List.nil_append]
          exact chunk_glue hc3 (ih _ hlen2 _)
        · have hkind : (table X.state b).action.kind = ActionKind.Argument := by
            rw [hE]
            rfl
          have hT : T = State.Argument := by
            have h' := argumentKind_state hkind
            rw [hE] at h'
            exact h'
          subst hT
          obtain ⟨hc1, hc2, hc3⟩ := chunk_argument X b run hid hE h3
            (h5 (chunk_short hid hE (by simp)))
          rw [hc1, hc2]
          simp only [List.nil_append]
          exact chunk_glue hc3 (ih _ hlen2 _)
        · have hkind : (table X.state b).action.kind = ActionKind.Error := by
            rw [hE]
            rfl
          have hT : T = State.Error := by
            have h' := errorKind_state hkind
            rw [hE] at h'
            rcases h' with h' | h'
            · exact h'
            · have h'' : T = State.ErrorEndOfLine := h'
              rw [h''] at h1
              simp [State.isTerminal] at h1
          subst hT
          obtain ⟨hc1, hc2, hc3⟩ := chunk_error X b run hid hE h3 h5
          rw [hc1, hc2]
          simp only [List.nil_append]
          exact chunk_glue hc3 (ih _ hlen2 _)

/-- The fast and the slow parser agree on all data, modulo erasure. -/
theorem runF_eq_runS (ps : PState) (data : List Nat) :
    (runP true ps data).1.map eraseOut = (runP false ps data).1.map eraseOut
    ∧ Rel (runP true ps data).2 (runP false ps data).2 :=
  simFS data.length data le_rfl ps

/-! ## Per-state characterization of the transition table -/

theorem table_start_cases (b : Nat) :
    table .Start b = ⟨.Nothing, .Empty, false⟩
    ∨ table .Start b = ⟨.SetType .Request, .BeforeName, false⟩
    ∨ table .Start b = ⟨.SetType .Reply, .BeforeName, false⟩
    ∨ table .Start b = ⟨.SetType .Inform, .BeforeName, false⟩
    ∨ table .Start b = ⟨.ResetLineLength, .Start, false⟩
    ∨ table .Start b = Entry.err := by
  simp only [table]
  unfold makeTable promoteLF startRow Entry.err
  split_ifs <;> first | decide | omega

theorem table_empty_cases (b : Nat) :
    table .Empty b = ⟨.Nothing, .Empty, false⟩
    ∨ table .Empty b = ⟨.ResetLineLength, .Start, false⟩
    ∨ table .Empty b = Entry.err := by
  simp only [table]
  unfold makeTable promoteLF emptyRow Entry.err
  split_ifs <;> first | decide | omega

theorem table_beforeName_cases (b : Nat) :
    table .BeforeName b = ⟨.Name, .Name, false⟩
    ∨ table .BeforeName b = Entry.err
    ∨ table .BeforeName b = ⟨.Error, .ErrorEndOfLine, false⟩ := by
  simp only [table]
  unfold makeTable promoteLF beforeNameRow Entry.err
  split_ifs <;> first | decide | omega

theorem table_name_cases (b : Nat) :
    table .Name b = ⟨.Name, .Name, false⟩
    ∨ table .Name b = ⟨.Nothing, .BeforeArgument, false⟩
    ∨ table .Name b = ⟨.Nothing, .BeforeId, false⟩
    ∨ table .Name b = ⟨.Nothing, .EndOfLine, false⟩
    ∨ table .Name b = Entry.err := by
  simp only [table]
  unfold makeTable promoteLF nameRow Entry.err
  split_ifs <;> first | decide | omega

theorem table_beforeId_cases (b : Nat) :
    ((49 ≤ b ∧ b ≤ 57) ∧ table .BeforeId b = ⟨.Id, .Id, false⟩)
    ∨ table .BeforeId b = Entry.err
    ∨ table .BeforeId b = ⟨.Error, .ErrorEndOfLine, false⟩ := by
  simp only [table]
  unfold makeTable promoteLF beforeIdRow Entry.err
  split_ifs <;> first
    | exact Or.inl ⟨⟨by omega, by omega⟩, rfl⟩
    | exact Or.inr (Or.inl rfl)
    | exact Or.inr (Or.inr rfl)
    | omega

theorem table_id_state_cases (b : Nat) :
    ((48 ≤ b ∧ b ≤ 57) ∧ table .Id b = ⟨.Id, .Id, false⟩)
    ∨ table .Id b = ⟨.Nothing, .AfterId, false⟩
    ∨ table .Id b = Entry.err
    ∨ table .Id b = ⟨.Error, .ErrorEndOfLine, false⟩ := by
  simp only [table]
  unfold makeTable promoteLF idRow Entry.err
  split_ifs <;> first
    | exact Or.inl ⟨⟨by omega, by omega⟩, rfl⟩
    | exact Or.inr (Or.inl rfl)
    | exact Or.inr (Or.inr (Or.inl rfl))
    | exact Or.inr (Or.inr (Or.inr rfl))
    | omega

theorem table_afterId_cases (b : Nat) :
    table .AfterId b = ⟨.Nothing, .BeforeArgument, false⟩
    ∨ table .AfterId b = ⟨.Nothing, .EndOfLine, false⟩
    ∨ table .AfterId b = Entry.err := by
  simp only [table]
  unfold makeTable promoteLF afterIdRow Entry.err
  split_ifs <;> first | decide | omega

theorem table_beforeArgument_cases (b : Nat) :
    table .BeforeArgument b = ⟨.Nothing, .BeforeArgument, false⟩
    ∨ table .BeforeArgument b = ⟨.Nothing, .EndOfLine, false⟩
    ∨ table .BeforeArgument b = ⟨.Nothing, .ArgumentEscape, true⟩
    ∨ table .BeforeArgument b = Entry.err
    ∨ table .BeforeArgument b = ⟨.Argument, .Argument, true⟩ := by
  simp only [table]
  unfold makeTable promoteLF argumentRow Entry.err
  split_ifs <;> first | decide | omega

theorem table_argument_cases (b : Nat) :
    table .Argument b = ⟨.Nothing, .BeforeArgument, false⟩
    ∨ table .Argument b = ⟨.Nothing, .EndOfLine, false⟩
    ∨ table .Argument b = ⟨.Nothing, .ArgumentEscape, false⟩
    ∨ table .Argument b = Entry.err
    ∨ table .Argument b = ⟨.Argument, .Argument, false⟩ := by
  simp only [table]
  unfold makeTable promoteLF argumentRow Entry.err
  split_ifs <;> first | decide | omega

theorem argumentEscapeRow_cases (c : Nat) :
    argumentEscapeRow c = ⟨.Nothing, .Argument, false⟩
    ∨ (∃ c0, argumentEscapeRow c = ⟨.ArgumentEscaped c0, .Argument, false⟩)
    ∨ argumentEscapeRow c = Entry.err := by
  unfold argumentEscapeRow Entry.err
  split_ifs <;> first
    | exact Or.inl rfl
    | exact Or.inr (Or.inl ⟨_, rfl⟩)
    | exact Or.inr (Or.inr rfl)

theorem table_argumentEscape_cases (b : Nat) :
    table .ArgumentEscape b = ⟨.Nothing, .Argument, false⟩
    ∨ (∃ c0, table .ArgumentEscape b = ⟨.ArgumentEscaped c0, .Argument, false⟩)
    ∨ table .ArgumentEscape b = Entry.err
    ∨ table .ArgumentEscape b = ⟨.Error, .ErrorEndOfLine, false⟩ := by
  simp only [table]
  unfold makeTable
  split_ifs
  · exact Or.inr (Or.inr (Or.inl (by decide)))
  · exact Or.inr (Or.inr (Or.inr (by decide)))
  · exact Or.inr (Or.inr (Or.inr (by decide)))
  · rcases argumentEscapeRow_cases b with h | ⟨c0, h⟩ | h
    · exact Or.inl h
    · exact Or.inr (Or.inl ⟨c0, h⟩)
    · exact Or.inr (Or.inr (Or.inl h))

theorem table_errState_cases (b : Nat) :
    table .Error b = Entry.err
    ∨ table .Error b = ⟨.Error, .ErrorEndOfLine, false⟩ := by
  simp only [table]
  unfold makeTable promoteLF errorRow Entry.err
  split_ifs <;> first | decide | omega

/-! ## Preservation of the reachability invariant -/

theorem inv_mk (s : State) (L M : Nat) (mt : Option MessageType) (nm : List Nat)
    (mi : Option Int) (ar : List (List Nat)) (er : Option ParseError) (pk : Bool)
    (c1 : L ≤ M) (c2 : pk = false) (c3 : s.isTerminal = false) (c4 : midOk mi)
    (c5 : s = .Id → ∃ v, mi = some v ∧ 1 ≤ v ∧ v ≤ 2 ^ 31 - 1)
    (c6 : (s = .Argument ∨ s = .ArgumentEscape) → ar ≠ [])
    (c7 : mtypeNeeded s = true → mt.isSome = true) :
    Inv ⟨s, L, M, mt, nm, mi, ar, er, pk⟩ :=
  ⟨c1, c2, c3, c4, c5, c6, c7⟩

theorem applyAct_nothing (ch : List Nat) (p : Nat) (X : PState) :
    applyAct .Nothing ch p X = X := rfl

theorem applyAct_setType (t : MessageType) (ch : List Nat) (p : Nat) (X : PState) :
    applyAct (.SetType t) ch p X = { X with mtype := some t } := rfl

theorem applyAct_name (ch : List Nat) (p : Nat) (X : PState) :
    applyAct .Name ch p X = { X with name := X.name ++ ch } := rfl

theorem applyAct_reset_len (ch : List Nat) (p : Nat) (X : PState) :
    applyAct .ResetLineLength ch p X = { X with lineLength := 0 } := rfl

theorem applyAct_error (ch : List Nat) (p : Nat) (X : PState) :
    applyAct .Error ch p X = errorAt X "Invalid character" p := rfl

theorem applyAct_argument (ch : List Nat) (p : Nat) (X : PState)
    (h : X.arguments ≠ []) :
    applyAct .Argument ch p X = { X with arguments := pushLast X.arguments ch } := by
  have hd : applyAct .Argument ch p X
      = if X.arguments = [] then { X with panicked := true }
        else { X with arguments := pushLast X.arguments ch } := rfl
  rw [hd, if_neg h]

theorem applyAct_argEsc (c0 : Nat) (ch : List Nat) (p : Nat) (X : PState)
    (h : X.arguments ≠ []) :
    applyAct (.ArgumentEscaped c0) ch p X
      = { X with arguments := pushLast X.arguments [c0] } := by
  have hd : applyAct (.ArgumentEscaped c0) ch p X
      = if X.arguments = [] then { X with panicked := true }
        else { X with arguments := pushLast X.arguments [c0] } := rfl
  rw [hd, if_neg h]

theorem stepState_lt_nc {s : State} {L M : Nat} {mt : Option MessageType}
    {nm : List Nat} {mi : Option Int} {ar : List (List Nat)} {er : Option ParseError}
    {pk : Bool} {A : Action} {T : State} (hL : L < M) :
    stepState ⟨s, L, M, mt, nm, mi, ar, er, pk⟩ ⟨A, T, false⟩ 1
      = ⟨T, L + 1, M, mt, nm, mi, ar, er, pk⟩ := by
  simp [stepState, hL]

theorem stepState_lt_cr {s : State} {L M : Nat} {mt : Option MessageType}
    {nm : List Nat} {mi : Option Int} {ar : List (List Nat)} {er : Option ParseError}
    {pk : Bool} {A : Action} {T : State} (hL : L < M) :
    stepState ⟨s, L, M, mt, nm, mi, ar, er, pk⟩ ⟨A, T, true⟩ 1
      = ⟨T, L + 1, M, mt, nm, mi, ar ++ [[]], er, pk⟩ := by
  simp [stepState, hL]

theorem stepState_ge_nc {s : State} {L M : Nat} {mt : Option MessageType}
    {nm : List Nat} {mi : Option Int} {ar : List (List Nat)} {er : Option ParseError}
    {pk : Bool} {A : Action} {T : State} (hL : ¬ L < M) :
    stepState ⟨s, L, M, mt, nm, mi, ar, er, pk⟩ ⟨A, T, false⟩ 1
      = ⟨T, L, M, mt, nm, mi, ar, er, pk⟩ := by
  simp [stepState, hL]

theorem resetPS_lit (s : State) (L M : Nat) (mt : Option MessageType) (nm : List Nat)
    (mi : Option Int) (ar : List (List Nat)) (er : Option ParseError) (pk : Bool) :
    resetPS ⟨s, L, M, mt, nm, mi, ar, er, pk⟩
      = ⟨.Start, 0, M, none, [], none, [], none, pk⟩ := rfl

theorem pushLast_ne_nil {A : List (List Nat)} (h : A ≠ []) (c : List Nat) :
    pushLast A c ≠ [] := by
  cases A with
  | nil => exact absurd rfl h
  | cons y ys =>
    obtain ⟨z, zs, hz⟩ := pushLast_shape y ys c
    rw [hz]
    simp

theorem emit_err (E : ParseError) :
    ∀ o : Outcome, some (Outcome.err E) = some o → OutInv o := by
  intro o ho
  injection ho with ho
  rw [← ho]
  trivial

theorem emit_ok {m : Msg} (h : midOk m.mid) :
    ∀ o : Outcome, some (Outcome.ok m) = some o → OutInv o := by
  intro o ho
  injection ho with ho
  rw [← ho]
  exact h

theorem inv_preAdjust {ps : PState} (h : Inv ps) : Inv (preAdjust ps) := by
  obtain ⟨s, L, M, mt, nm, mi, ar, er, pk⟩ := ps
  obtain ⟨h1, h2, h3, h4, h5, h6, h7⟩ := h
  simp only at h1 h2 h3 h4 h5 h6 h7
  unfold preAdjust
  split_ifs with hc
  · have hs : s ≠ State.ErrorEndOfLine := by
      intro hx
      subst hx
      simp [State.isTerminal] at h3
    rw [errorAt_lit _ _ _ _ _ _ _ _ _ _ _ hs]
    exact ⟨h1, h2, rfl, h4, by simp, by simp, by simp [mtypeNeeded]⟩
  · exact ⟨h1, h2, h3, h4, h5, h6, h7⟩

theorem inv_lt_of_not_err {ps : PState} (hid : preAdjust ps = ps)
    (h1 : ps.lineLength ≤ ps.maxLineLength) (hs : ps.state ≠ .Error)
    (hs2 : ps.state ≠ .ErrorEndOfLine) :
    ps.lineLength < ps.maxLineLength := by
  rcases Nat.lt_or_ge ps.lineLength ps.maxLineLength with h | h
  · exact h
  · rcases preAdjust_fix hid h with hx | hx
    · exact absurd hx hs
    · exact absurd hx hs2

theorem inv_err_step (s2 : State) (L2 M : Nat) (mt : Option MessageType)
    (nm : List Nat) (mi : Option Int) (ar : List (List Nat)) (er : Option ParseError)
    (pk : Bool) (m : String) (p : Nat)
    (hs : s2 ≠ State.ErrorEndOfLine) (hL2 : L2 ≤ M) (hpk : pk = false)
    (hmid : midOk mi) :
    Inv (finishRound (errorAt ⟨s2, L2, M, mt, nm, mi, ar, er, pk⟩ m p)).2
    ∧ ∀ o, (finishRound (errorAt ⟨s2, L2, M, mt, nm, mi, ar, er, pk⟩ m p)).1
        = some o → OutInv o := by
  rw [errorAt_lit _ _ _ _ _ _ _ _ _ _ _ hs, finishRound_other (by simp) (by simp)]
  dsimp only
  exact ⟨inv_mk _ _ _ _ _ _ _ _ _ hL2 hpk rfl hmid (by simp) (by simp)
    (by simp [mtypeNeeded]), by simp⟩

theorem inv_eeol_step (L2 M : Nat) (mt : Option MessageType) (nm : List Nat)
    (mi : Option Int) (ar : List (List Nat)) (er : Option ParseError) (pk : Bool)
    (m : String) (p : Nat) (hpk : pk = false) :
    Inv (finishRound (errorAt ⟨.ErrorEndOfLine, L2, M, mt, nm, mi, ar, er, pk⟩ m p)).2
    ∧ ∀ o, (finishRound (errorAt ⟨.ErrorEndOfLine, L2, M, mt, nm, mi, ar, er, pk⟩ m p)).1
        = some o → OutInv o := by
  rw [errorAt_eeol]
  rcases hEr : (if er = none then some (⟨m, p⟩ : ParseError) else er) with _ | e0
  · split_ifs at hEr with hc
    exact absurd hEr hc
  · rw [finishRound_eeol rfl rfl, resetPS_lit]
    exact ⟨inv_mk _ _ _ _ _ _ _ _ _ (by omega) hpk rfl (by simp [midOk]) (by simp)
      (by simp) (by simp [mtypeNeeded]), emit_err e0⟩

/-- One reference round preserves the reachability invariant, and any outcome
it emits satisfies the outcome invariant. -/
theorem inv_round_aux (ps : PState) (b : Nat) (h : Inv ps)
    (hid : preAdjust ps = ps) :
    Inv (roundCore ps b []).2
    ∧ ∀ o, (roundCore ps b []).1 = some o → OutInv o := by
  obtain ⟨s, L, M, mt, nm, mi, ar, er, pk⟩ := ps
  obtain ⟨h1, h2, h3, h4, h5, h6, h7⟩ := h
  simp only at h1 h2 h3 h4 h5 h6 h7
  cases s with
  | EndOfLine => simp [State.isTerminal] at h3
  | ErrorEndOfLine => simp [State.isTerminal] at h3
  | Error =>
    rw [slow_round _ b (Or.inr rfl)]
    dsimp only
    rcases table_errState_cases b with hE | hE
    · rw [hE]
      dsimp only [Entry.err]
      by_cases hL : L < M
      · rw [stepState_lt_nc hL, applyAct_error]
        exact inv_err_step _ _ _ _ _ _ _ _ _ _ _ (by simp) (by first | omega | (dsimp only; omega)) h2 h4
      · rw [stepState_ge_nc hL, applyAct_error]
        exact inv_err_step _ _ _ _ _ _ _ _ _ _ _ (by simp) (by first | omega | (dsimp only; omega)) h2 h4
    · rw [hE]
      dsimp only
      by_cases hL : L < M
      · rw [stepState_lt_nc hL, applyAct_error]
        exact inv_eeol_step _ _ _ _ _ _ _ _ _ _ h2
      · rw [stepState_ge_nc hL, applyAct_error]
        exact inv_eeol_step _ _ _ _ _ _ _ _ _ _ h2
  | Start =>
    have hL : L < M := inv_lt_of_not_err hid h1 (by simp) (by simp)
    rw [slow_round _ b (Or.inl hL)]
    dsimp only
    rcases table_start_cases b with hE | hE | hE | hE | hE | hE
    · rw [hE]
      dsimp only
      rw [stepState_lt_nc hL, applyAct_nothing, finishRound_other (by simp) (by simp)]
      exact ⟨inv_mk _ _ _ _ _ _ _ _ _ (by first | omega | (dsimp only; omega)) h2 rfl h4 (by simp) (by simp)
        (by simp [mtypeNeeded]), by simp⟩
    · rw [hE]
      dsimp only
      rw [stepState_lt_nc hL, applyAct_setType, finishRound_other (by simp) (by simp)]
      exact ⟨inv_mk _ _ _ _ _ _ _ _ _ (by first | omega | (dsimp only; omega)) h2 rfl h4 (by simp) (by simp)
        (fun _ => rfl), by simp⟩
    · rw [hE]
      dsimp only
      rw [stepState_lt_nc hL, applyAct_setType, finishRound_other (by simp) (by simp)]
      exact ⟨inv_mk _ _ _ _ _ _ _ _ _ (by first | omega | (dsimp only; omega)) h2 rfl h4 (by simp) (by simp)
        (fun _ => rfl), by simp⟩
    · rw [hE]
      dsimp only
      rw [stepState_lt_nc hL, applyAct_setType, finishRound_other (by simp) (by simp)]
      exact ⟨inv_mk _ _ _ _ _ _ _ _ _ (by first | omega | (dsimp only; omega)) h2 rfl h4 (by simp) (by simp)
        (fun _ => rfl), by simp⟩
    · rw [hE]
      dsimp only
      rw [stepState_lt_nc hL, applyAct_reset_len, finishRound_other (by simp) (by simp)]
      exact ⟨inv_mk _ _ _ _ _ _ _ _ _ (by first | omega | (dsimp only; omega)) h2 rfl h4 (by simp) (by simp)
        (by simp [mtypeNeeded]), by simp⟩
    · rw [hE]
      dsimp only [Entry.err]
      rw [stepState_lt_nc hL, applyAct_error]
      exact inv_err_step _ _ _ _ _ _ _ _ _ _ _ (by simp) (by first | omega | (dsimp only; omega)) h2 h4
  | Empty =>
    have hL : L < M := inv_lt_of_not_err hid h1 (by simp) (by simp)
    rw [slow_round _ b (Or.inl hL)]
    dsimp only
    rcases table_empty_cases b with hE | hE | hE
    · rw [hE]
      dsimp only
      rw [stepState_lt_nc hL, applyAct_nothing, finishRound_other (by simp) (by simp)]
      exact ⟨inv_mk _ _ _ _ _ _ _ _ _ (by first | omega | (dsimp only; omega)) h2 rfl h4 (by simp) (by simp)
        (by simp [mtypeNeeded]), by simp⟩
    · rw [hE]
      dsimp only
      rw [stepState_lt_nc hL, applyAct_reset_len, finishRound_other (by simp) (by simp)]
      exact ⟨inv_mk _ _ _ _ _ _ _ _ _ (by first | omega | (dsimp only; omega)) h2 rfl h4 (by simp) (by simp)
        (by simp [mtypeNeeded]), by simp⟩
    · rw [hE]
      dsimp only [Entry.err]
      rw [stepState_lt_nc hL, applyAct_error]
      exact inv_err_step _ _ _ _ _ _ _ _ _ _ _ (by simp) (by first | omega | (dsimp only; omega)) h2 h4
  | BeforeName =>
    have hL : L < M := inv_lt_of_not_err hid h1 (by simp) (by simp)
    rw [slow_round _ b (Or.inl hL)]
    dsimp only
    rcases table_beforeName_cases b with hE | hE | hE
    · rw [hE]
      dsimp only
      rw [stepState_lt_nc hL, applyAct_name, finishRound_other (by simp) (by simp)]
      exact ⟨inv_mk _ _ _ _ _ _ _ _ _ (by first | omega | (dsimp only; omega)) h2 rfl h4 (by simp) (by simp)
        (fun _ => h7 rfl), by simp⟩
    · rw [hE]
      dsimp only [Entry.err]
      rw [stepState_lt_nc hL, applyAct_error]
      exact inv_err_step _ _ _ _ _ _ _ _ _ _ _ (by simp) (by first | omega | (dsimp only; omega)) h2 h4
    · rw [hE]
      dsimp only
      rw [stepState_lt_nc hL, applyAct_error]
      exact inv_eeol_step _ _ _ _ _ _ _ _ _ _ h2
  | Name =>
    have hL : L < M := inv_lt_of_not_err hid h1 (by simp) (by simp)
    rw [slow_round _ b (Or.inl hL)]
    dsimp only
    rcases table_name_cases b with hE | hE | hE | hE | hE
    · rw [hE]
      dsimp only
      rw [stepState_lt_nc hL, applyAct_name, finishRound_other (by simp) (by simp)]
      exact ⟨inv_mk _ _ _ _ _ _ _ _ _ (by first | omega | (dsimp only; omega)) h2 rfl h4 (by simp) (by simp)
        (fun _ => h7 rfl), by simp⟩
    · rw [hE]
      dsimp only
      rw [stepState_lt_nc hL, applyAct_nothing, finishRound_other (by simp) (by simp)]
      exact ⟨inv_mk _ _ _ _ _ _ _ _ _ (by first | omega | (dsimp only; omega)) h2 rfl h4 (by simp) (by simp)
        (fun _ => h7 rfl), by simp⟩
    · rw [hE]
      dsimp only
      rw [stepState_lt_nc hL, applyAct_nothing, finishRound_other (by simp) (by simp)]
      exact ⟨inv_mk _ _ _ _ _ _ _ _ _ (by first | omega | (dsimp only; omega)) h2 rfl h4 (by simp) (by simp)
        (fun _ => h7 rfl), by simp⟩
    · rw [hE]
      dsimp only
      rw [stepState_lt_nc hL, applyAct_nothing]
      obtain ⟨t, ht⟩ := Option.isSome_iff_exists.mp (h7 rfl)
      rw [finishRound_eol rfl ht, resetPS_lit]
      exact ⟨inv_mk _ _ _ _ _ _ _ _ _ (by first | omega | (dsimp only; omega)) h2 rfl (by simp [midOk]) (by simp)
        (by simp) (by simp [mtypeNeeded]), emit_ok h4⟩
    · rw [hE]
      dsimp only [Entry.err]
      rw [stepState_lt_nc hL, applyAct_error]
      exact inv_err_step _ _ _ _ _ _ _ _ _ _ _ (by simp) (by first | omega | (dsimp only; omega)) h2 h4
  | BeforeId =>
    have hL : L < M := inv_lt_of_not_err hid h1 (by simp) (by simp)
    rw [slow_round _ b (Or.inl hL)]
    dsimp only
    rcases table_beforeId_cases b with ⟨hdig, hE⟩ | hE | hE
    · rw [hE]
      dsimp only
      rw [stepState_lt_nc hL]
      rw [show applyAct .Id [b] (L + 1) ⟨.Id, L + 1, M, mt, nm, mi, ar, er, pk⟩
          = (match idFold mi [b] with
             | (m, false) => (⟨.Id, L + 1, M, mt, nm, m, ar, er, pk⟩ : PState)
             | (m, true) => errorAt ⟨.Id, L + 1, M, mt, nm, m, ar, er, pk⟩
                 "Message ID overflowed" (L + 1)) from rfl]
      by_cases hv : -(2 ^ 31) ≤ mi.getD 0 * 10 + ((b : Int) - 48)
          ∧ mi.getD 0 * 10 + ((b : Int) - 48) ≤ 2 ^ 31 - 1
      · have hf : idFold mi [b] = (some (mi.getD 0 * 10 + ((b : Int) - 48)), false) := by
          simp only [idFold]
          rw [if_pos hv]
        rw [hf]
        dsimp only
        rw [finishRound_other (by simp) (by simp)]
        have hv1 : 1 ≤ mi.getD 0 * 10 + ((b : Int) - 48) := by
          cases mi with
          | none =>
            simp only [Option.getD_none]
            omega
          | some w =>
            have hw := (h4 w rfl).1
            simp only [Option.getD_some]
            omega
        refine ⟨inv_mk _ _ _ _ _ _ _ _ _ (by first | omega | (dsimp only; omega)) h2 rfl ?_ ?_ (by simp)
          (fun _ => h7 rfl), by simp⟩
        · intro v hv'
          injection hv' with hv'
          rw [← hv']
          exact ⟨hv1, hv.2⟩
        · intro _
          exact ⟨_, rfl, hv1, hv.2⟩
      · have hneg : ¬(-(2 ^ 31) ≤ mi.getD 0 * 10 + ((b : Int) - 48)
            ∧ mi.getD 0 * 10 + ((b : Int) - 48) ≤ 2 ^ 31 - 1) := hv
        have hf : idFold mi [b] = (mi, true) := by
          simp only [idFold]
          rw [if_neg hneg]
        rw [hf]
        dsimp only
        exact inv_err_step _ _ _ _ _ _ _ _ _ _ _ (by simp) (by first | omega | (dsimp only; omega)) h2 h4
    · rw [hE]
      dsimp only [Entry.err]
      rw [stepState_lt_nc hL, applyAct_error]
      exact inv_err_step _ _ _ _ _ _ _ _ _ _ _ (by simp) (by first | omega | (dsimp only; omega)) h2 h4
    · rw [hE]
      dsimp only
      rw [stepState_lt_nc hL, applyAct_error]
      exact inv_eeol_step _ _ _ _ _ _ _ _ _ _ h2
  | Id =>
    have hL : L < M := inv_lt_of_not_err hid h1 (by simp) (by simp)
    obtain ⟨w, hw, hw1, hw2⟩ := h5 rfl
    subst hw
    rw [slow_round _ b (Or.inl hL)]
    dsimp only
    rcases table_id_state_cases b with ⟨hdig, hE⟩ | hE | hE | hE
    · rw [hE]
      dsimp only
      rw [stepState_lt_nc hL]
      rw [show applyAct .Id [b] (L + 1) ⟨.Id, L + 1, M, mt, nm, some w, ar, er, pk⟩
          = (match idFold (some w) [b] with
             | (m, false) => (⟨.Id, L + 1, M, mt, nm, m, ar, er, pk⟩ : PState)
             | (m, true) => errorAt ⟨.Id, L + 1, M, mt, nm, m, ar, er, pk⟩
                 "Message ID overflowed" (L + 1)) from rfl]
      by_cases hv : -(2 ^ 31) ≤ (some w : Option Int).getD 0 * 10 + ((b : Int) - 48)
          ∧ (some w : Option Int).getD 0 * 10 + ((b : Int) - 48) ≤ 2 ^ 31 - 1
      · have hf : idFold (some w) [b]
            = (some ((some w : Option Int).getD 0 * 10 + ((b : Int) - 48)), false) := by
          simp only [idFold]
          rw [if_pos hv]
        rw [hf]
        dsimp only
        rw [finishRound_other (by simp) (by simp)]
        have hv1 : 1 ≤ (some w : Option Int).getD 0 * 10 + ((b : Int) - 48) := by
          simp only [Option.getD_some]
          omega
        refine ⟨inv_mk _ _ _ _ _ _ _ _ _ (by first | omega | (dsimp only; omega)) h2 rfl ?_ ?_ (by simp)
          (fun _ => h7 rfl), by simp⟩
        · intro v hv'
          injection hv' with hv'
          rw [← hv']
          exact ⟨hv1, hv.2⟩
        · intro _
          exact ⟨_, rfl, hv1, hv.2⟩
      · have hneg : ¬(-(2 ^ 31) ≤ (some w : Option Int).getD 0 * 10 + ((b : Int) - 48)
            ∧ (some w : Option Int).getD 0 * 10 + ((b : Int) - 48) ≤ 2 ^ 31 - 1) := hv
        have hf : idFold (some w) [b] = (some w, true) := by
          simp only [idFold]
          rw [if_neg hneg]
        rw [hf]
        dsimp only
        exact inv_err_step _ _ _ _ _ _ _ _ _ _ _ (by simp) (by first | omega | (dsimp only; omega)) h2 h4
    · rw [hE]
      dsimp only
      rw [stepState_lt_nc hL, applyAct_nothing, finishRound_other (by simp) (by simp)]
      exact ⟨inv_mk _ _ _ _ _ _ _ _ _ (by first | omega | (dsimp only; omega)) h2 rfl h4 (by simp) (by simp)
        (fun _ => h7 rfl), by simp⟩
    · rw [hE]
      dsimp only [Entry.err]
      rw [stepState_lt_nc hL, applyAct_error]
      exact inv_err_step _ _ _ _ _ _ _ _ _ _ _ (by simp) (by first | omega | (dsimp only; omega)) h2 h4
    · rw [hE]
      dsimp only
      rw [stepState_lt_nc hL, applyAct_error]
      exact inv_eeol_step _ _ _ _ _ _ _ _ _ _ h2
  | AfterId =>
    have hL : L < M := inv_lt_of_not_err hid h1 (by simp) (by simp)
    rw [slow_round _ b (Or.inl hL)]
    dsimp only
    rcases table_afterId_cases b with hE | hE | hE
    · rw [hE]
      dsimp only
      rw [stepState_lt_nc hL, applyAct_nothing, finishRound_other (by simp) (by simp)]
      exact ⟨inv_mk _ _ _ _ _ _ _ _ _ (by first | omega | (dsimp only; omega)) h2 rfl h4 (by simp) (by simp)
        (fun _ => h7 rfl), by simp⟩
    · rw [hE]
      dsimp only
      rw [stepState_lt_nc hL, applyAct_nothing]
      obtain ⟨t, ht⟩ := Option.isSome_iff_exists.mp (h7 rfl)
      rw [finishRound_eol rfl ht, resetPS_lit]
      exact ⟨inv_mk _ _ _ _ _ _ _ _ _ (by first | omega | (dsimp only; omega)) h2 rfl (by simp [midOk]) (by simp)
        (by simp) (by simp [mtypeNeeded]), emit_ok h4⟩
    · rw [hE]
      dsimp only [Entry.err]
      rw [stepState_lt_nc hL, applyAct_error]
      exact inv_err_step _ _ _ _ _ _ _ _ _ _ _ (by simp) (by first | omega | (dsimp only; omega)) h2 h4
  | BeforeArgument =>
    have hL : L < M := inv_lt_of_not_err hid h1 (by simp) (by simp)
    rw [slow_round _ b (Or.inl hL)]
    dsimp only
    rcases table_beforeArgument_cases b with hE | hE | hE | hE | hE
    · rw [hE]
      dsimp only
      rw [stepState_lt_nc hL, applyAct_nothing, finishRound_other (by simp) (by simp)]
      exact ⟨inv_mk _ _ _ _ _ _ _ _ _ (by first | omega | (dsimp only; omega)) h2 rfl h4 (by simp) (by simp)
        (fun _ => h7 rfl), by simp⟩
    · rw [hE]
      dsimp only
      rw [stepState_lt_nc hL, applyAct_nothing]
      obtain ⟨t, ht⟩ := Option.isSome_iff_exists.mp (h7 rfl)
      rw [finishRound_eol rfl ht, resetPS_lit]
      exact ⟨inv_mk _ _ _ _ _ _ _ _ _ (by first | omega | (dsimp only; omega)) h2 rfl (by simp [midOk]) (by simp)
        (by simp) (by simp [mtypeNeeded]), emit_ok h4⟩
    · rw [hE]
      dsimp only
      rw [stepState_lt_cr hL, applyAct_nothing, finishRound_other (by simp) (by simp)]
      exact ⟨inv_mk _ _ _ _ _ _ _ _ _ (by first | omega | (dsimp only; omega)) h2 rfl h4 (by simp)
        (fun _ => by simp) (fun _ => h7 rfl), by simp⟩
    · rw [hE]
      dsimp only [Entry.err]
      rw [stepState_lt_nc hL, applyAct_error]
      exact inv_err_step _ _ _ _ _ _ _ _ _ _ _ (by simp) (by first | omega | (dsimp only; omega)) h2 h4
    · rw [hE]
      dsimp only
      rw [stepState_lt_cr hL, applyAct_argument [b] (L + 1) _ (by simp),
          finishRound_other (by simp) (by simp)]
      exact ⟨inv_mk _ _ _ _ _ _ _ _ _ (by first | omega | (dsimp only; omega)) h2 rfl h4 (by simp)
        (fun _ => pushLast_ne_nil (by simp) [b]) (fun _ => h7 rfl), by simp⟩
  | Argument =>
    have hL : L < M := inv_lt_of_not_err hid h1 (by simp) (by simp)
    have har : ar ≠ [] := h6 (Or.inl rfl)
    rw [slow_round _ b (Or.inl hL)]
    dsimp only
    rcases table_argument_cases b with hE | hE | hE | hE | hE
    · rw [hE]
      dsimp only
      rw [stepState_lt_nc hL, applyAct_nothing, finishRound_other (by simp) (by simp)]
      exact ⟨inv_mk _ _ _ _ _ _ _ _ _ (by first | omega | (dsimp only; omega)) h2 rfl h4 (by simp) (by simp)
        (fun _ => h7 rfl), by simp⟩
    · rw [hE]
      dsimp only
      rw [stepState_lt_nc hL, applyAct_nothing]
      obtain ⟨t, ht⟩ := Option.isSome_iff_exists.mp (h7 rfl)
      rw [finishRound_eol rfl ht, resetPS_lit]
      exact ⟨inv_mk _ _ _ _ _ _ _ _ _ (by first | omega | (dsimp only; omega)) h2 rfl (by simp [midOk]) (by simp)
        (by simp) (by simp [mtypeNeeded]), emit_ok h4⟩
    · rw [hE]
      dsimp only
      rw [stepState_lt_nc hL, applyAct_nothing, finishRound_other (by simp) (by simp)]
      exact ⟨inv_mk _ _ _ _ _ _ _ _ _ (by first | omega | (dsimp only; omega)) h2 rfl h4 (by simp)
        (fun _ => har) (fun _ => h7 rfl), by simp⟩
    · rw [hE]
      dsimp only [Entry.err]
      rw [stepState_lt_nc hL, applyAct_error]
      exact inv_err_step _ _ _ _ _ _ _ _ _ _ _ (by simp) (by first | omega | (dsimp only; omega)) h2 h4
    · rw [hE]
      dsimp only
      rw [stepState_lt_nc hL, applyAct_argument [b] (L + 1) _ har,
          finishRound_other (by simp) (by simp)]
      exact ⟨inv_mk _ _ _ _ _ _ _ _ _ (by first | omega | (dsimp only; omega)) h2 rfl h4 (by simp)
        (fun _ => pushLast_ne_nil har [b]) (fun _ => h7 rfl), by simp⟩
  | ArgumentEscape =>
    have hL : L < M := inv_lt_of_not_err hid h1 (by simp) (by simp)
    have har : ar ≠ [] := h6 (Or.inr rfl)
    rw [slow_round _ b (Or.inl hL)]
    dsimp only
    rcases table_argumentEscape_cases b with hE | ⟨c0, hE⟩ | hE | hE
    · rw [hE]
      dsimp only
      rw [stepState_lt_nc hL, applyAct_nothing, finishRound_other (by simp) (by simp)]
      exact ⟨inv_mk _ _ _ _ _ _ _ _ _ (by first | omega | (dsimp only; omega)) h2 rfl h4 (by simp)
        (fun _ => har) (fun _ => h7 rfl), by simp⟩
    · rw [hE]
      dsimp only
      rw [stepState_lt_nc hL, applyAct_argEsc c0 [b] (L + 1) _ har,
          finishRound_other (by simp) (by simp)]
      exact ⟨inv_mk _ _ _ _ _ _ _ _ _ (by first | omega | (dsimp only; omega)) h2 rfl h4 (by simp)
        (fun _ => pushLast_ne_nil har [c0]) (fun _ => h7 rfl), by simp⟩
    · rw [hE]
      dsimp only [Entry.err]
      rw [stepState_lt_nc hL, applyAct_error]
      exact inv_err_step _ _ _ _ _ _ _ _ _ _ _ (by simp) (by first | omega | (dsimp only; omega)) h2 h4
    · rw [hE]
      dsimp only
      rw [stepState_lt_nc hL, applyAct_error]
      exact inv_eeol_step _ _ _ _ _ _ _ _ _ _ h2

theorem inv_round (ps : PState) (b : Nat) (h : Inv ps) :
    Inv (roundCore ps b []).2
    ∧ ∀ o, (roundCore ps b []).1 = some o → OutInv o := by
  rw [← roundCore_pre]
  exact inv_round_aux (preAdjust ps) b (inv_preAdjust h) (preAdjust_idem ps)

theorem inv_runS (data : List Nat) : ∀ ps : PState, Inv ps →
    Inv (runP false ps data).2 ∧ ∀ o ∈ (runP false ps data).1, OutInv o := by
  induction data with
  | nil =>
    intro ps h
    rw [runP_nil]
    exact ⟨h, by simp⟩
  | cons b rest ih =>
    intro ps h
    rw [runS_cons]
    obtain ⟨hr1, hr2⟩ := inv_round ps b h
    obtain ⟨ihs, iho⟩ := ih (roundCore ps b []).2 hr1
    cases hA : (roundCore ps b []).1 with
    | none => exact ⟨ihs, iho⟩
    | some o =>
      refine ⟨ihs, ?_⟩
      intro x hx
      rcases List.mem_cons.mp hx with rfl | hx'
      · exact hr2 _ hA
      · exact iho x hx'

theorem inv_of_rel {ps ps' : PState} (hrel : Rel ps ps') (h : Inv ps') : Inv ps := by
  obtain ⟨h1, h2, h3, h4, h5, h6, h7⟩ := h
  refine ⟨?_, ?_, ?_, ?_, ?_, ?_, ?_⟩
  · rw [hrel.lineLength_eq, hrel.maxLineLength_eq]
    exact h1
  · rw [hrel.panicked_eq]
    exact h2
  · rw [hrel.state_eq]
    exact h3
  · rw [hrel.mid_eq]
    exact h4
  · rw [hrel.state_eq, hrel.mid_eq]
    exact h5
  · rw [hrel.state_eq, hrel.arguments_eq]
    exact h6
  · rw [hrel.state_eq, hrel.mtype_eq]
    exact h7

theorem outInv_erase (o : Outcome) : OutInv (eraseOut o) ↔ OutInv o := by
  cases o with
  | ok m => exact Iff.rfl
  | err e => exact Iff.rfl

/-- The reachability invariant holds along every fast (source-semantics) run. -/
theorem inv_runF (data : List Nat) (ps : PState) (h : Inv ps) :
    Inv (runP true ps data).2 ∧ ∀ o ∈ (runP true ps data).1, OutInv o := by
  obtain ⟨heq, hrel⟩ := runF_eq_runS ps data
  obtain ⟨hs, ho⟩ := inv_runS data ps h
  refine ⟨inv_of_rel hrel hs, ?_⟩
  intro o hmem
  have h1 : eraseOut o ∈ (runP true ps data).1.map eraseOut :=
    List.mem_map_of_mem _ hmem
  rw [heq] at h1
  obtain ⟨o', ho', he'⟩ := List.mem_map.mp h1
  have h2 : OutInv (eraseOut o') := (outInv_erase o').mpr (ho o' ho')
  rw [he'] at h2
  exact (outInv_erase o).mp h2

theorem invStart (M : Nat) : Inv (initState M) := by
  unfold initState
  exact inv_mk _ _ _ _ _ _ _ _ _ (by omega) rfl rfl (by simp [midOk]) (by simp)
    (by simp) (by simp [mtypeNeeded])

theorem inv_resetPS {ps : PState} (h : Inv ps) : Inv (resetPS ps) := by
  obtain ⟨s, L, M, mt, nm, mi, ar, er, pk⟩ := ps
  obtain ⟨h1, h2, h3, h4, h5, h6, h7⟩ := h
  simp only at h2
  rw [resetPS_lit]
  exact inv_mk _ _ _ _ _ _ _ _ _ (by omega) h2 rfl (by simp [midOk]) (by simp)
    (by simp) (by simp [mtypeNeeded])

/-- The invariant holds after any sequence of `append` and `reset` calls. -/
theorem inv_runOps (ops : List Op) : ∀ ps : PState, Inv ps →
    Inv (runOps ps ops).2 ∧ ∀ o ∈ (runOps ps ops).1, OutInv o := by
  induction ops with
  | nil =>
    intro ps h
    exact ⟨h, by simp [runOps]⟩
  | cons op rest ih =>
    intro ps h
    cases op with
    | append data =>
      obtain ⟨hd1, hd2⟩ := inv_runF data ps h
      obtain ⟨ihs, iho⟩ := ih (runP true ps data).2 hd1
      refine ⟨ihs, ?_⟩
      intro o hmem
      have hsplit : (runOps ps (Op.append data :: rest)).1
          = (runP true ps data).1 ++ (runOps (runP true ps data).2 rest).1 := rfl
      rw [hsplit] at hmem
      rcases List.mem_append.mp hmem with hx | hx
      · exact hd2 o hx
      · exact iho o hx
    | reset => exact ih (resetPS ps) (inv_resetPS h)

/-! ## Byte-class facts about the table, and single rounds of the reference
parser (towards the round trip) -/

theorem table_beforeName_char {r : Nat} (h : nameHeadChar r) :
    table .BeforeName r = ⟨.Name, .Name, false⟩ := by
  unfold nameHeadChar at h
  simp only [table]
  unfold makeTable promoteLF beforeNameRow
  split_ifs <;> first | rfl | omega

theorem table_name_char {r : Nat} (h : nameTailChar r) :
    table .Name r = ⟨.Name, .Name, false⟩ := by
  unfold nameTailChar nameHeadChar at h
  simp only [table]
  unfold makeTable promoteLF nameRow
  split_ifs <;> first | rfl | omega

theorem table_beforeId_digit {r : Nat} (h1 : 49 ≤ r) (h2 : r ≤ 57) :
    table .BeforeId r = ⟨.Id, .Id, false⟩ := by
  simp only [table]
  unfold makeTable promoteLF beforeIdRow
  split_ifs <;> first | rfl | omega

theorem escapeFlag_false {c : Nat} (h : escapeFlag c = false) :
    ¬(c = 13 ∨ c = 10 ∨ c = 9 ∨ c = 27 ∨ c = 0 ∨ c = 92 ∨ c = 32) := by
  intro hc
  rw [escapeFlag_eq, decide_eq_false_iff_not] at h
  exact h hc

theorem table_arg_plain {c : Nat} (h : escapeFlag c = false) :
    table .Argument c = ⟨.Argument, .Argument, false⟩ := by
  have hn := escapeFlag_false h
  simp only [table]
  unfold makeTable promoteLF argumentRow
  split_ifs <;> first | rfl | omega

theorem table_beforeArg_plain {c : Nat} (h : escapeFlag c = false) :
    table .BeforeArgument c = ⟨.Argument, .Argument, true⟩ := by
  have hn := escapeFlag_false h
  simp only [table]
  unfold makeTable promoteLF argumentRow
  split_ifs <;> first | rfl | omega

theorem escapeFlag_true {c : Nat} (h : escapeFlag c = true) :
    c = 13 ∨ c = 10 ∨ c = 9 ∨ c = 27 ∨ c = 0 ∨ c = 92 ∨ c = 32 := by
  rw [escapeFlag_eq, decide_eq_true_iff] at h
  exact h

theorem table_argEsc_sym {c : Nat} (h : escapeFlag c = true) :
    table .ArgumentEscape (escapeSym c) = ⟨.ArgumentEscaped c, .Argument, false⟩ := by
  rcases escapeFlag_true h with rfl | rfl | rfl | rfl | rfl | rfl | rfl <;> decide

theorem table_argReady_space {s : State} (h : argReady s) :
    table s 32 = ⟨.Nothing, .BeforeArgument, false⟩ := by
  rcases h with rfl | rfl | rfl <;> decide

theorem table_argReady_lf {s : State} (h : argReady s) :
    table s 10 = ⟨.Nothing, .EndOfLine, false⟩ := by
  rcases h with rfl | rfl | rfl <;> decide

theorem round_nothing {s T : State} {L M : Nat} {mt : Option MessageType}
    {nm : List Nat} {mi : Option Int} {ar : List (List Nat)} {er : Option ParseError}
    {pk : Bool} {b : Nat}
    (hE : table s b = ⟨.Nothing, T, false⟩) (hL : L < M)
    (hT1 : T ≠ .EndOfLine) (hT2 : T ≠ .ErrorEndOfLine) :
    roundCore ⟨s, L, M, mt, nm, mi, ar, er, pk⟩ b []
      = (none, ⟨T, L + 1, M, mt, nm, mi, ar, er, pk⟩) := by
  rw [slow_roundH _ b hE (preAdjust_id (Or.inl hL))]
  dsimp only
  rw [stepState_lt_nc hL, applyAct_nothing]
  exact finishRound_other hT1 hT2

theorem round_nothing_cr {s T : State} {L M : Nat} {mt : Option MessageType}
    {nm : List Nat} {mi : Option Int} {ar : List (List Nat)} {er : Option ParseError}
    {pk : Bool} {b : Nat}
    (hE : table s b = ⟨.Nothing, T, true⟩) (hL : L < M)
    (hT1 : T ≠ .EndOfLine) (hT2 : T ≠ .ErrorEndOfLine) :
    roundCore ⟨s, L, M, mt, nm, mi, ar, er, pk⟩ b []
      = (none, ⟨T, L + 1, M, mt, nm, mi, ar ++ [[]], er, pk⟩) := by
  rw [slow_roundH _ b hE (preAdjust_id (Or.inl hL))]
  dsimp only
  rw [stepState_lt_cr hL, applyAct_nothing]
  exact finishRound_other hT1 hT2

theorem round_setType {s T : State} {L M : Nat} {mt : Option MessageType}
    {nm : List Nat} {mi : Option Int} {ar : List (List Nat)} {er : Option ParseError}
    {pk : Bool} {b : Nat} {t : MessageType}
    (hE : table s b = ⟨.SetType t, T, false⟩) (hL : L < M)
    (hT1 : T ≠ .EndOfLine) (hT2 : T ≠ .ErrorEndOfLine) :
    roundCore ⟨s, L, M, mt, nm, mi, ar, er, pk⟩ b []
      = (none, ⟨T, L + 1, M, some t, nm, mi, ar, er, pk⟩) := by
  rw [slow_roundH _ b hE (preAdjust_id (Or.inl hL))]
  dsimp only
  rw [stepState_lt_nc hL, applyAct_setType]
  exact finishRound_other hT1 hT2

theorem round_name {s T : State} {L M : Nat} {mt : Option MessageType}
    {nm : List Nat} {mi : Option Int} {ar : List (List Nat)} {er : Option ParseError}
    {pk : Bool} {b : Nat}
    (hE : table s b = ⟨.Name, T, false⟩) (hL : L < M)
    (hT1 : T ≠ .EndOfLine) (hT2 : T ≠ .ErrorEndOfLine) :
    roundCore ⟨s, L, M, mt, nm, mi, ar, er, pk⟩ b []
      = (none, ⟨T, L + 1, M, mt, nm ++ [b], mi, ar, er, pk⟩) := by
  rw [slow_roundH _ b hE (preAdjust_id (Or.inl hL))]
  dsimp only
  rw [stepState_lt_nc hL, applyAct_name]
  exact finishRound_other hT1 hT2

theorem round_argument_cr {s : State} {L M : Nat} {mt : Option MessageType}
    {nm : List Nat} {mi : Option Int} {ar : List (List Nat)} {er : Option ParseError}
    {pk : Bool} {b : Nat}
    (hE : table s b = ⟨.Argument, .Argument, true⟩) (hL : L < M) :
    roundCore ⟨s, L, M, mt, nm, mi, ar, er, pk⟩ b []
      = (none, ⟨.Argument, L + 1, M, mt, nm, mi, pushLast (ar ++ [[]]) [b], er, pk⟩) := by
  rw [slow_roundH _ b hE (preAdjust_id (Or.inl hL))]
  dsimp only
  rw [stepState_lt_cr hL, applyAct_argument [b] _ _ (by simp)]
  exact finishRound_other (by simp) (by simp)

theorem round_argument_nc {s : State} {L M : Nat} {mt : Option MessageType}
    {nm : List Nat} {mi : Option Int} {ar : List (List Nat)} {er : Option ParseError}
    {pk : Bool} {b : Nat}
    (hE : table s b = ⟨.Argument, .Argument, false⟩) (hL : L < M) (har : ar ≠ []) :
    roundCore ⟨s, L, M, mt, nm, mi, ar, er, pk⟩ b []
      = (none, ⟨.Argument, L + 1, M, mt, nm, mi, pushLast ar [b], er, pk⟩) := by
  rw [slow_roundH _ b hE (preAdjust_id (Or.inl hL))]
  dsimp only
  rw [stepState_lt_nc hL, applyAct_argument [b] _ _ har]
  exact finishRound_other (by simp) (by simp)

theorem round_argEsc {s : State} {L M : Nat} {mt : Option MessageType}
    {nm : List Nat} {mi : Option Int} {ar : List (List Nat)} {er : Option ParseError}
    {pk : Bool} {b c0 : Nat}
    (hE : table s b = ⟨.ArgumentEscaped c0, .Argument, false⟩) (hL : L < M)
    (har : ar ≠ []) :
    roundCore ⟨s, L, M, mt, nm, mi, ar, er, pk⟩ b []
      = (none, ⟨.Argument, L + 1, M, mt, nm, mi, pushLast ar [c0], er, pk⟩) := by
  rw [slow_roundH _ b hE (preAdjust_id (Or.inl hL))]
  dsimp only
  rw [stepState_lt_nc hL, applyAct_argEsc c0 [b] _ _ har]
  exact finishRound_other (by simp) (by simp)

theorem round_id {s : State} {L M : Nat} {mt : Option MessageType}
    {nm : List Nat} {ar : List (List Nat)} {er : Option ParseError}
    {pk : Bool} {b : Nat} {v : Int}
    (hE : table s b = ⟨.Id, .Id, false⟩) (hL : L < M)
    (hv : -(2 ^ 31) ≤ v * 10 + ((b : Int) - 48)
      ∧ v * 10 + ((b : Int) - 48) ≤ 2 ^ 31 - 1) :
    roundCore ⟨s, L, M, mt, nm, some v, ar, er, pk⟩ b []
      = (none, ⟨.Id, L + 1, M, mt, nm, some (v * 10 + ((b : Int) - 48)), ar, er, pk⟩) := by
  rw [slow_roundH _ b hE (preAdjust_id (Or.inl hL))]
  dsimp only
  rw [stepState_lt_nc hL]
  have hf : idFold (some v) [b] = (some (v * 10 + ((b : Int) - 48)), false) := by
    simp only [idFold, Option.getD_some]
    rw [if_pos hv]
  rw [show applyAct .Id [b] (L + 1) ⟨.Id, L + 1, M, mt, nm, some v, ar, er, pk⟩
      = (match idFold (some v) [b] with
         | (m, false) => (⟨.Id, L + 1, M, mt, nm, m, ar, er, pk⟩ : PState)
         | (m, true) => errorAt ⟨.Id, L + 1, M, mt, nm, m, ar, er, pk⟩
             "Message ID overflowed" (L + 1)) from rfl]
  rw [hf]
  dsimp only
  exact finishRound_other (by simp) (by simp)

theorem round_id0 {s : State} {L M : Nat} {mt : Option MessageType}
    {nm : List Nat} {ar : List (List Nat)} {er : Option ParseError}
    {pk : Bool} {b : Nat}
    (hE : table s b = ⟨.Id, .Id, false⟩) (hL : L < M)
    (hb1 : 48 ≤ b) (hb2 : b ≤ 57) :
    roundCore ⟨s, L, M, mt, nm, none, ar, er, pk⟩ b []
      = (none, ⟨.Id, L + 1, M, mt, nm, some (0 * 10 + ((b : Int) - 48)), ar, er, pk⟩) := by
  rw [slow_roundH _ b hE (preAdjust_id (Or.inl hL))]
  dsimp only
  rw [stepState_lt_nc hL]
  have hf : idFold none [b] = (some (0 * 10 + ((b : Int) - 48)), false) := by
    simp only [idFold, Option.getD_none]
    rw [if_pos (by constructor <;> omega)]
  rw [show applyAct .Id [b] (L + 1) ⟨.Id, L + 1, M, mt, nm, none, ar, er, pk⟩
      = (match idFold none [b] with
         | (m, false) => (⟨.Id, L + 1, M, mt, nm, m, ar, er, pk⟩ : PState)
         | (m, true) => errorAt ⟨.Id, L + 1, M, mt, nm, m, ar, er, pk⟩
             "Message ID overflowed" (L + 1)) from rfl]
  rw [hf]
  dsimp only
  exact finishRound_other (by simp) (by simp)

theorem round_eol {s : State} {L M : Nat} {mt : Option MessageType}
    {nm : List Nat} {mi : Option Int} {ar : List (List Nat)} {er : Option ParseError}
    {pk : Bool} {b : Nat} {t : MessageType}
    (hE : table s b = ⟨.Nothing, .EndOfLine, false⟩) (hL : L < M)
    (hmt : mt = some t) :
    roundCore ⟨s, L, M, mt, nm, mi, ar, er, pk⟩ b []
      = (some (.ok ⟨t, nm, mi, ar⟩), ⟨.Start, 0, M, none, [], none, [], none, pk⟩) := by
  rw [slow_roundH _ b hE (preAdjust_id (Or.inl hL))]
  dsimp only
  rw [stepState_lt_nc hL, applyAct_nothing, finishRound_eol rfl hmt, resetPS_lit]

theorem pushLast_last (A : List (List Nat)) (x c : List Nat) :
    pushLast (A ++ [x]) c = A ++ [x ++ c] := by
  induction A with
  | nil => rfl
  | cons a as ih =>
    cases as with
    | nil => rfl
    | cons a2 as2 =>
      show a :: pushLast ((a2 :: as2) ++ [x]) c = (a :: a2 :: as2) ++ [x ++ c]
      rw [ih]
      rfl

/-- A run of decimal digits in state `Id` accumulates the decimal value, with
no emission, as long as the final value stays in the `i32` range. -/
theorem slow_run_digits (ds : List Nat) : ∀ (L : Nat) (v : Int)
    {M : Nat} {mt : Option MessageType} {nm : List Nat} {ar : List (List Nat)}
    {er : Option ParseError} {pk : Bool},
    (∀ d ∈ ds, 48 ≤ d ∧ d ≤ 57) → 0 ≤ v → decVal v ds ≤ 2 ^ 31 - 1 →
    L + ds.length ≤ M →
    runP false ⟨.Id, L, M, mt, nm, some v, ar, er, pk⟩ ds
      = ([], ⟨.Id, L + ds.length, M, mt, nm, some (decVal v ds), ar, er, pk⟩) := by
  induction ds with
  | nil =>
    intro L v M mt nm ar er pk _ _ _ _
    rw [runP_nil]
    norm_num
  | cons d rest ih =>
    intro L v M mt nm ar er pk hdig hv0 hbound hcap
    simp only [List.length_cons] at hcap
    have hd := hdig d (by simp)
    have hstep : 0 ≤ v * 10 + ((d : Int) - 48) := by omega
    have hmono : v * 10 + ((d : Int) - 48) ≤ decVal (v * 10 + ((d : Int) - 48)) rest :=
      decVal_ge rest _ hstep (fun x hx => (hdig x (by simp [hx])).1)
    have hbc : decVal v (d :: rest) = decVal (v * 10 + ((d : Int) - 48)) rest := rfl
    rw [hbc] at hbound
    rw [runS_cons, round_id (table_id_digit hd.1 hd.2) (by omega)
      ⟨by omega, by omega⟩]
    rw [ih (L + 1) (v * 10 + ((d : Int) - 48)) (fun x hx => hdig x (by simp [hx]))
      hstep hbound (by omega)]
    rw [hbc]
    have harith : L + 1 + rest.length = L + (d :: rest).length := by
      simp only [List.length_cons]
      omega
    rw [harith]

/-- Consuming the encoded bytes of argument content from state `Argument`
extends the last argument with the decoded bytes. -/
theorem arg_content (cs : List Nat) : ∀ (L : Nat) (acc : List Nat)
    {M : Nat} {mt : Option MessageType} {nm : List Nat} {mi : Option Int}
    {ar0 : List (List Nat)} {er : Option ParseError} {pk : Bool},
    L + ((cs.map encByte).flatten).length ≤ M →
    runP false ⟨.Argument, L, M, mt, nm, mi, ar0 ++ [acc], er, pk⟩
        ((cs.map encByte).flatten)
      = ([], ⟨.Argument, L + ((cs.map encByte).flatten).length, M, mt, nm, mi,
          ar0 ++ [acc ++ cs], er, pk⟩) := by
  induction cs with
  | nil =>
    intro L acc M mt nm mi ar0 er pk _
    simp only [List.map_nil, List.flatten_nil, List.length_nil]
    rw [runP_nil]
    norm_num
  | cons c cs ih =>
    intro L acc M mt nm mi ar0 er pk hcap
    rw [show ((c :: cs).map encByte).flatten.length
        = (encByte c).length + ((cs.map encByte).flatten).length from by simp] at hcap
    rw [show ((c :: cs).map encByte).flatten = encByte c ++ (cs.map encByte).flatten
        from by simp]
    rw [show (encByte c ++ (cs.map encByte).flatten).length
        = (encByte c).length + ((cs.map encByte).flatten).length from by simp]
    by_cases hesc : escapeFlag c = true
    · have hb : encByte c = [92, escapeSym c] := by
        simp [encByte, hesc]
      rw [hb] at hcap ⊢
      simp only [List.length_cons, List.length_nil] at hcap
      rw [show ([92, escapeSym c] ++ (cs.map encByte).flatten)
          = 92 :: escapeSym c :: (cs.map encByte).flatten from rfl]
      rw [runS_cons,
        round_nothing (by decide : table .Argument 92 = ⟨.Nothing, .ArgumentEscape, false⟩)
          (by omega) (by simp) (by simp)]
      rw [runS_cons, round_argEsc (table_argEsc_sym hesc) (by omega) (by simp)]
      rw [pushLast_last]
      rw [ih (L + 1 + 1) (acc ++ [c]) (by omega)]
      have harith : L + 1 + 1 + ((cs.map encByte).flatten).length
          = L + ([92, escapeSym c].length + ((cs.map encByte).flatten).length) := by
        simp only [List.length_cons, List.length_nil]
        omega
      rw [harith]
      simp
    · have hesc' : escapeFlag c = false := by
        cases hx : escapeFlag c
        · rfl
        · exact absurd hx hesc
      have hb : encByte c = [c] := by
        simp [encByte, hesc']
      rw [hb] at hcap ⊢
      simp only [List.length_cons, List.length_nil] at hcap
      rw [show ([c] ++ (cs.map encByte).flatten) = c :: (cs.map encByte).flatten from rfl]
      rw [runS_cons, round_argument_nc (table_arg_plain hesc') (by omega) (by simp)]
      rw [pushLast_last]
      rw [ih (L + 1) (acc ++ [c]) (by omega)]
      have harith : L + 1 + ((cs.map encByte).flatten).length
          = L + ([c].length + ((cs.map encByte).flatten).length) := by
        simp only [List.length_cons, List.length_nil]
        omega
      rw [harith]
      simp

/-- Consuming the encoding of one argument from state `BeforeArgument` appends
exactly that argument. -/
theorem arg_seg (a : List Nat) (L : Nat) {M : Nat} {mt : Option MessageType}
    {nm : List Nat} {mi : Option Int} {ar : List (List Nat)}
    {er : Option ParseError} {pk : Bool}
    (hcap : L + (encodeArg a).length ≤ M) :
    runP false ⟨.BeforeArgument, L, M, mt, nm, mi, ar, er, pk⟩ (encodeArg a)
      = ([], ⟨.Argument, L + (encodeArg a).length, M, mt, nm, mi,
          ar ++ [a], er, pk⟩) := by
  cases a with
  | nil =>
    rw [show encodeArg [] = [92, 64] from rfl] at hcap ⊢
    simp only [List.length_cons, List.length_nil] at hcap
    rw [runS_cons,
      round_nothing_cr
        (by decide : table .BeforeArgument 92 = ⟨.Nothing, .ArgumentEscape, true⟩)
        (by omega) (by simp) (by simp)]
    rw [runS_cons,
      round_nothing (by decide : table .ArgumentEscape 64 = ⟨.Nothing, .Argument, false⟩)
        (by omega) (by simp) (by simp)]
    rw [runP_nil]
    norm_num
  | cons c cs =>
    have henc : encodeArg (c :: cs) = encByte c ++ (cs.map encByte).flatten := by
      simp [encodeArg]
    rw [henc] at hcap ⊢
    rw [show (encByte c ++ (cs.map encByte).flatten).length
        = (encByte c).length + ((cs.map encByte).flatten).length from by simp] at hcap ⊢
    by_cases hesc : escapeFlag c = true
    · have hb : encByte c = [92, escapeSym c] := by
        simp [encByte, hesc]
      rw [hb] at hcap ⊢
      simp only [List.length_cons, List.length_nil] at hcap
      rw [show ([92, escapeSym c] ++ (cs.map encByte).flatten)
          = 92 :: escapeSym c :: (cs.map encByte).flatten from rfl]
      rw [runS_cons,
        round_nothing_cr
          (by decide : table .BeforeArgument 92 = ⟨.Nothing, .ArgumentEscape, true⟩)
          (by omega) (by simp) (by simp)]
      rw [runS_cons, round_argEsc (table_argEsc_sym hesc) (by omega) (by simp)]
      rw [show pushLast (ar ++ [[]]) [c] = ar ++ [[] ++ [c]] from pushLast_last ar [] [c]]
      rw [arg_content cs (L + 1 + 1) ([] ++ [c]) (by omega)]
      have harith : L + 1 + 1 + ((cs.map encByte).flatten).length
          = L + ([92, escapeSym c].length + ((cs.map encByte).flatten).length) := by
        simp only [List.length_cons, List.length_nil]
        omega
      rw [harith]
      simp
    · have hesc' : escapeFlag c = false := by
        cases hx : escapeFlag c
        · rfl
        · exact absurd hx hesc
      have hb : encByte c = [c] := by
        simp [encByte, hesc']
      rw [hb] at hcap ⊢
      simp only [List.length_cons, List.length_nil] at hcap
      rw [show ([c] ++ (cs.map encByte).flatten) = c :: (cs.map encByte).flatten from rfl]
      rw [runS_cons, round_argument_cr (table_beforeArg_plain hesc') (by omega)]
      rw [show pushLast (ar ++ [[]]) [c] = ar ++ [[] ++ [c]] from pushLast_last ar [] [c]]
      rw [arg_content cs (L + 1) ([] ++ [c]) (by omega)]
      have harith : L + 1 + ((cs.map encByte).flatten).length
          = L + ([c].length + ((cs.map encByte).flatten).length) := by
        simp only [List.length_cons, List.length_nil]
        omega
      rw [harith]
      simp

/-- Consuming the full encoded argument list from an argument-ready state. -/
theorem slow_run_args (args : List (List Nat)) : ∀ (s : State) (L : Nat)
    {M : Nat} {mt : Option MessageType} {nm : List Nat} {mi : Option Int}
    {ar : List (List Nat)} {er : Option ParseError} {pk : Bool},
    argReady s →
    L + ((args.map (fun a => 32 :: encodeArg a)).flatten).length ≤ M →
    runP false ⟨s, L, M, mt, nm, mi, ar, er, pk⟩
        ((args.map (fun a => 32 :: encodeArg a)).flatten)
      = ([], ⟨(if args = [] then s else .Argument),
          L + ((args.map (fun a => 32 :: encodeArg a)).flatten).length, M,
          mt, nm, mi, ar ++ args, er, pk⟩) := by
  induction args with
  | nil =>
    intro s L M mt nm mi ar er pk _ _
    simp only [List.map_nil, List.flatten_nil, List.length_nil]
    rw [runP_nil]
    norm_num
  | cons a rest ih =>
    intro s L M mt nm mi ar er pk hready hcap
    rw [show (((a :: rest).map (fun x => 32 :: encodeArg x)).flatten).length
        = 1 + ((encodeArg a).length
            + ((rest.map (fun x => 32 :: encodeArg x)).flatten).length)
        from by simp; omega] at hcap
    rw [show (((a :: rest).map (fun x => 32 :: encodeArg x)).flatten)
        = 32 :: (encodeArg a ++ (rest.map (fun x => 32 :: encodeArg x)).flatten)
        from by simp]
    rw [show (32 :: (encodeArg a ++ (rest.map (fun x => 32 :: encodeArg x)).flatten)).length
        = 1 + ((encodeArg a).length
            + ((rest.map (fun x => 32 :: encodeArg x)).flatten).length)
        from by simp; omega]
    rw [runS_cons, round_nothing (table_argReady_space hready) (by omega)
      (by simp) (by simp)]
    rw [runS_append]
    rw [arg_seg a (L + 1) (by omega)]
    rw [ih .Argument (L + 1 + (encodeArg a).length) (Or.inr (Or.inr rfl)) (by omega)]
    have hne : (a :: rest : List (List Nat)) ≠ [] := by simp
    rw [if_neg hne]
    have harith : L + 1 + (encodeArg a).length
          + ((rest.map (fun x => 32 :: encodeArg x)).flatten).length
        = L + (1 + ((encodeArg a).length
            + ((rest.map (fun x => 32 :: encodeArg x)).flatten).length)) := by
      omega
    rw [harith]
    cases hrest : rest with
    | nil =>
      simp only [if_pos rfl]
      simp
    | cons r rs =>
      rw [if_neg (by simp)]
      simp

/-- Consuming the encoded arguments followed by the final LF emits exactly the
expected message and resets the parser. -/
theorem slow_run_tail (args : List (List Nat)) (s : State) (L : Nat) {M : Nat}
    {t : MessageType} {nm : List Nat} {mi : Option Int}
    (hready : argReady s)
    (hcap : L + ((((args.map (fun a => 32 :: encodeArg a)).flatten).length) + 1) ≤ M) :
    runP false ⟨s, L, M, some t, nm, mi, [], none, false⟩
        (((args.map (fun a => 32 :: encodeArg a)).flatten) ++ [10])
      = ([Outcome.ok ⟨t, nm, mi, args⟩], initState M) := by
  rw [runS_append]
  rw [slow_run_args args s L hready (by omega)]
  have hready' : argReady (if args = [] then s else .Argument) := by
    split_ifs
    · exact hready
    · exact Or.inr (Or.inr rfl)
  rw [runS_cons, round_eol (table_argReady_lf hready') (by omega) rfl]
  rw [runP_nil]
  simp [initState]

/-- Consuming the encoded optional message id from state `Name`. -/
theorem slow_run_midpart (mi : Option Int) (L : Nat) {M : Nat} {t : MessageType}
    {nm : List Nat}
    (hmid : ∀ v, mi = some v → 1 ≤ v ∧ v ≤ 2 ^ 31 - 1)
    (hcap : L + midPartLen mi ≤ M) :
    runP false ⟨.Name, L, M, some t, nm, none, [], none, false⟩ (midPart mi)
      = ([], ⟨(if mi = none then .Name else .AfterId), L + midPartLen mi, M,
          some t, nm, mi, [], none, false⟩) := by
  cases mi with
  | none =>
    dsimp only [midPart, midPartLen]
    rw [runP_nil]
    norm_num
  | some v =>
    obtain ⟨hv1, hv2⟩ := hmid v rfl
    dsimp only [midPart, midPartLen] at hcap ⊢
    rw [if_neg (by simp)]
    have hvnat : 1 ≤ v.toNat := by omega
    obtain ⟨d0, ds, hdd, hd1, hd9, hds9⟩ := decDigits_shape v.toNat hvnat
    have hmb : midBytes v.toNat = (d0 + 48) :: ds.map (· + 48) := by
      rw [midBytes, hdd]
      rfl
    have hlen2 : (decDigits v.toNat).length = ds.length + 1 := by
      rw [hdd]
      simp
    rw [hlen2] at hcap ⊢
    rw [hmb]
    rw [show ((91 : Nat) :: ((d0 + 48) :: ds.map (· + 48)) ++ [93])
        = 91 :: ((d0 + 48) :: (ds.map (· + 48) ++ [93])) from by simp]
    rw [runS_cons,
      round_nothing (by decide : table .Name 91 = ⟨.Nothing, .BeforeId, false⟩)
        (by omega) (by simp) (by simp)]
    rw [runS_cons, round_id0 (table_beforeId_digit (by omega) (by omega)) (by omega)
      (by omega) (by omega)]
    rw [runS_append]
    have hdecv : decVal (0 * 10 + (((d0 + 48 : Nat) : Int) - 48)) (ds.map (· + 48))
        = (v.toNat : Int) := by
      have hz : decVal 0 (midBytes v.toNat) = (v.toNat : Int) := by
        rw [decVal_midBytes]
        simp
      rw [hmb] at hz
      simpa using hz
    have hdig : ∀ d ∈ ds.map (· + 48), 48 ≤ d ∧ d ≤ 57 := by
      intro d hd
      obtain ⟨x, hx, rfl⟩ := List.mem_map.mp hd
      have := hds9 x hx
      omega
    rw [slow_run_digits (ds.map (· + 48)) (L + 1 + 1)
      (0 * 10 + (((d0 + 48 : Nat) : Int) - 48)) hdig (by omega)
      (by rw [hdecv]; omega) (by simp only [List.length_map]; omega)]
    rw [hdecv, Int.toNat_of_nonneg (by omega)]
    rw [runS_cons,
      round_nothing (by decide : table .Id 93 = ⟨.Nothing, .AfterId, false⟩)
        (by simp only [List.length_map]; omega) (by simp) (by simp)]
    rw [runP_nil]
    have harith : L + 1 + 1 + (ds.map (· + 48)).length + 1 = L + (2 + (ds.length + 1)) := by
      simp only [List.length_map]
      omega
    rw [harith]
    rfl

/-- The round trip on the reference byte-at-a-time semantics. -/
theorem slow_roundtrip (t : MessageType) (h0 : Nat) (tl : List Nat) (mi : Option Int)
    (args : List (List Nat)) (M : Nat) (hh : nameHeadChar h0)
    (htl : ∀ b ∈ tl, nameTailChar b)
    (hmid : ∀ v, mi = some v → 1 ≤ v ∧ v ≤ 2 ^ 31 - 1)
    (hM : (msgBytes ⟨t, h0 :: tl, mi, args⟩).length ≤ M) :
    runP false (initState M) (msgBytes ⟨t, h0 :: tl, mi, args⟩)
      = ([Outcome.ok ⟨t, h0 :: tl, mi, args⟩], initState M) := by
  have hsig : table .Start (typeSymbol t) = ⟨.SetType t, .BeforeName, false⟩ := by
    cases t <;> decide
  have hexp : msgBytes ⟨t, h0 :: tl, mi, args⟩
      = typeSymbol t :: ((h0 :: tl)
          ++ (midPart mi
            ++ (((args.map (fun a => 32 :: encodeArg a)).flatten) ++ [10]))) := by
    rw [msgBytes]
    cases mi <;> simp [midPart, List.append_assoc]
  rw [hexp] at hM ⊢
  have hmidlen : (midPart mi).length = midPartLen mi := by
    cases mi with
    | none => rfl
    | some v =>
      simp [midPart, midPartLen, midBytes]
      omega
  have hTOT : 1 + (1 + tl.length) + midPartLen mi
      + (((args.map (fun a => 32 :: encodeArg a)).flatten).length) + 1 ≤ M := by
    have hx := hM
    simp only [List.length_cons, List.length_append, hmidlen] at hx
    omega
  rw [show initState M = ⟨.Start, 0, M, none, [], none, [], none, false⟩ from rfl]
  rw [runS_cons, round_setType hsig (by omega) (by simp) (by simp)]
  rw [List.cons_append]
  rw [runS_cons, round_name (table_beforeName_char hh) (by omega) (by simp) (by simp)]
  rw [runS_append]
  have hname : runP false ⟨.Name, 0 + 1 + 1, M, some t, [] ++ [h0], none, [], none, false⟩ tl
      = ([], ⟨.Name, 0 + 1 + 1 + tl.length, M, some t, ([] ++ [h0]) ++ tl,
          none, [], none, false⟩) := by
    rw [slow_run_name tl ⟨.Name, 0 + 1 + 1, M, some t, [] ++ [h0], none, [], none, false⟩
      rfl (fun r hr => table_name_char (htl r hr)) (by dsimp only; omega)]
  rw [hname]
  rw [runS_append]
  rw [slow_run_midpart mi (0 + 1 + 1 + tl.length) hmid (by omega)]
  have hready : argReady (if mi = none then State.Name else State.AfterId) := by
    split_ifs
    · exact Or.inl rfl
    · exact Or.inr (Or.inl rfl)
  rw [slow_run_tail args _ _ hready (by omega)]
  simp [initState]

theorem map_eraseOut_ok_single {l : List Outcome} {m : Msg}
    (h : l.map eraseOut = [Outcome.ok m]) : l = [Outcome.ok m] := by
  cases l with
  | nil => simp at h
  | cons x xs =>
    cases xs with
    | nil =>
      simp only [List.map_cons, List.map_nil] at h
      injection h with h1 _
      cases x with
      | ok m2 =>
        rw [show eraseOut (.ok m2) = .ok m2 from rfl] at h1
        rw [h1]
      | err e =>
        exact absurd h1 (by simp [eraseOut])
    | cons y ys => simp at h

/-- The round trip on the fast (source) semantics. -/
theorem fast_roundtrip (t : MessageType) (h0 : Nat) (tl : List Nat) (mi : Option Int)
    (args : List (List Nat)) (M : Nat) (hh : nameHeadChar h0)
    (htl : ∀ b ∈ tl, nameTailChar b)
    (hmid : ∀ v, mi = some v → 1 ≤ v ∧ v ≤ 2 ^ 31 - 1)
    (hM : (msgBytes ⟨t, h0 :: tl, mi, args⟩).length ≤ M) :
    (runP true (initState M) (msgBytes ⟨t, h0 :: tl, mi, args⟩)).1
      = [Outcome.ok ⟨t, h0 :: tl, mi, args⟩] := by
  obtain ⟨heq, _⟩ := runF_eq_runS (initState M) (msgBytes ⟨t, h0 :: tl, mi, args⟩)
  rw [slow_roundtrip t h0 tl mi args M hh htl hmid hM] at heq
  simp only [List.map_cons, List.map_nil] at heq
  rw [show eraseOut (Outcome.ok ⟨t, h0 :: tl, mi, args⟩)
      = Outcome.ok ⟨t, h0 :: tl, mi, args⟩ from rfl] at heq
  exact map_eraseOut_ok_single heq

/-! ## Lines without CR/LF: no emission, no line reset -/

theorem table_no_eol (s : State) {b : Nat} (h10 : b ≠ 10) (h13 : b ≠ 13) :
    (table s b).state ≠ .EndOfLine ∧ (table s b).state ≠ .ErrorEndOfLine
    ∧ (table s b).action ≠ .ResetLineLength := by
  cases s with
  | Start =>
    simp only [table]
    unfold makeTable promoteLF startRow Entry.err
    split_ifs <;> first | (refine ⟨by decide, by decide, by decide⟩) | omega
  | Empty =>
    simp only [table]
    unfold makeTable promoteLF emptyRow Entry.err
    split_ifs <;> first | (refine ⟨by decide, by decide, by decide⟩) | omega
  | BeforeName =>
    simp only [table]
    unfold makeTable promoteLF beforeNameRow Entry.err
    split_ifs <;> first | (refine ⟨by decide, by decide, by decide⟩) | omega
  | Name =>
    simp only [table]
    unfold makeTable promoteLF nameRow Entry.err
    split_ifs <;> first | (refine ⟨by decide, by decide, by decide⟩) | omega
  | BeforeId =>
    simp only [table]
    unfold makeTable promoteLF beforeIdRow Entry.err
    split_ifs <;> first | (refine ⟨by decide, by decide, by decide⟩) | omega
  | Id =>
    simp only [table]
    unfold makeTable promoteLF idRow Entry.err
    split_ifs <;> first | (refine ⟨by decide, by decide, by decide⟩) | omega
  | AfterId =>
    simp only [table]
    unfold makeTable promoteLF afterIdRow Entry.err
    split_ifs <;> first | (refine ⟨by decide, by decide, by decide⟩) | omega
  | BeforeArgument =>
    simp only [table]
    unfold makeTable promoteLF argumentRow Entry.err
    split_ifs <;> first | (refine ⟨by decide, by decide, by decide⟩) | omega
  | Argument =>
    simp only [table]
    unfold makeTable promoteLF argumentRow Entry.err
    split_ifs <;> first | (refine ⟨by decide, by decide, by decide⟩) | omega
  | ArgumentEscape =>
    simp only [table]
    unfold makeTable
    split_ifs <;>
      first
        | omega
        | (rcases argumentEscapeRow_cases 32 with h | ⟨c0, h⟩ | h <;> rw [h] <;>
            exact ⟨by simp [Entry.err], by simp [Entry.err], by simp [Entry.err]⟩)
        | (rcases argumentEscapeRow_cases b with h | ⟨c0, h⟩ | h <;> rw [h] <;>
            exact ⟨by simp [Entry.err], by simp [Entry.err], by simp [Entry.err]⟩)
  | Error =>
    simp only [table]
    unfold makeTable promoteLF errorRow Entry.err
    split_ifs <;> first | (refine ⟨by decide, by decide, by decide⟩) | omega
  | EndOfLine =>
    simp only [table]
    unfold makeTable promoteLF errorRow Entry.err
    split_ifs <;> first | (refine ⟨by decide, by decide, by decide⟩) | omega
  | ErrorEndOfLine =>
    simp only [table]
    unfold makeTable promoteLF errorRow Entry.err
    split_ifs <;> first | (refine ⟨by decide, by decide, by decide⟩) | omega

theorem isTerminal_false_of_ne {T : State} (h1 : T ≠ .EndOfLine)
    (h2 : T ≠ .ErrorEndOfLine) : T.isTerminal = false := by
  cases T <;> simp_all [State.isTerminal]

/-- A round on a byte other than LF/CR emits nothing, stays in a
non-terminal state, advances the line length by one (saturating at the
maximum), and keeps "pending error implies Error state". -/
theorem round_crlf_free (ps : PState) (b : Nat) (h10 : b ≠ 10) (h13 : b ≠ 13)
    (hterm : ps.state.isTerminal = false) :
    (roundCore ps b []).1 = none
    ∧ (roundCore ps b []).2.state.isTerminal = false
    ∧ (roundCore ps b []).2.lineLength
        = (if ps.lineLength < ps.maxLineLength then ps.lineLength + 1 else ps.lineLength)
    ∧ (roundCore ps b []).2.maxLineLength = ps.maxLineLength
    ∧ ((ps.error = none ∨ ps.state = .Error) →
        ((roundCore ps b []).2.error = none ∨ (roundCore ps b []).2.state = .Error)) := by
  obtain ⟨s, L, M, mt, nm, mi, ar, er, pk⟩ := ps
  simp only at hterm ⊢
  by_cases hpa : M ≤ L ∧ s ≠ State.Error
  · obtain ⟨hML, hsErr⟩ := hpa
    have hpa : M ≤ L ∧ s ≠ State.Error := ⟨hML, hsErr⟩
    have hs_ne : s ≠ State.ErrorEndOfLine := by
      intro h
      subst h
      simp [State.isTerminal] at hterm
    have hps1 : preAdjust ⟨s, L, M, mt, nm, mi, ar, er, pk⟩
        = ⟨.Error, L, M, mt, nm, mi, [],
            (if er = none then some ⟨"Line too long", L + 1⟩ else er), pk⟩ := by
      unfold preAdjust
      rw [if_pos hpa, errorAt_lit _ _ _ _ _ _ _ _ _ _ _ hs_ne]
    rw [roundCore_eq, hps1]
    dsimp only
    simp only [List.length_nil, Nat.add_zero]
    rw [table_error_lit h10 h13]
    dsimp only
    rw [stepState_ge_nc (show ¬L < M from by omega), applyAct_error,
      errorAt_lit _ _ _ _ _ _ _ _ _ _ _ (by simp),
      finishRound_other (by simp) (by simp)]
    refine ⟨rfl, rfl, ?_, rfl, fun _ => Or.inr rfl⟩
    rw [if_neg (show ¬L < M from by omega)]
  · have hps1 : preAdjust ⟨s, L, M, mt, nm, mi, ar, er, pk⟩
        = ⟨s, L, M, mt, nm, mi, ar, er, pk⟩ := by
      unfold preAdjust
      exact if_neg hpa
    rw [roundCore_eq, hps1]
    dsimp only
    simp only [List.length_nil, Nat.add_zero]
    obtain ⟨A, T, c, hE⟩ : ∃ A T c, table s b = (⟨A, T, c⟩ : Entry) := ⟨_, _, _, rfl⟩
    obtain ⟨hT1, hT2, hA⟩ := table_no_eol s h10 h13
    rw [hE] at hT1 hT2 hA ⊢
    dsimp only at hT1 hT2 hA
    have hTt : T.isTerminal = false := isTerminal_false_of_ne hT1 hT2
    have hstep : stepState ⟨s, L, M, mt, nm, mi, ar, er, pk⟩ ⟨A, T, c⟩ 1
        = ⟨T, if L < M then L + 1 else L, M, mt, nm, mi,
            if c then ar ++ [[]] else ar, er, pk⟩ := by
      by_cases hL : L < M <;> simp [stepState, hL]
    rw [hstep]
    have hserr : A ≠ Action.Error → A.kind ≠ ActionKind.Id → s ≠ State.Error := by
      intro hA1 _ h
      subst h
      rw [table_error_lit h10 h13] at hE
      injection hE with hx _
      exact hA1 hx.symm
    cases A with
    | Nothing =>
      rw [applyAct_nothing, finishRound_other hT1 hT2]
      refine ⟨rfl, hTt, rfl, rfl, ?_⟩
      rintro (h | h)
      · exact Or.inl h
      · exact absurd h (hserr (fun hx => Action.noConfusion hx) (fun hx => ActionKind.noConfusion hx))
    | SetType t =>
      rw [applyAct_setType, finishRound_other hT1 hT2]
      refine ⟨rfl, hTt, rfl, rfl, ?_⟩
      rintro (h | h)
      · exact Or.inl h
      · exact absurd h (hserr (fun hx => Action.noConfusion hx) (fun hx => ActionKind.noConfusion hx))
    | Name =>
      rw [applyAct_name, finishRound_other hT1 hT2]
      refine ⟨rfl, hTt, rfl, rfl, ?_⟩
      rintro (h | h)
      · exact Or.inl h
      · exact absurd h (hserr (fun hx => Action.noConfusion hx) (fun hx => ActionKind.noConfusion hx))
    | Argument =>
      have hd : applyAct .Argument [b] (L + 1)
          ⟨T, if L < M then L + 1 else L, M, mt, nm, mi,
            if c then ar ++ [[]] else ar, er, pk⟩
          = if (if c then ar ++ [[]] else ar) = []
            then ⟨T, if L < M then L + 1 else L, M, mt, nm, mi,
              if c then ar ++ [[]] else ar, er, true⟩
            else ⟨T, if L < M then L + 1 else L, M, mt, nm, mi,
              pushLast (if c then ar ++ [[]] else ar) [b], er, pk⟩ := rfl
      by_cases hz : (if c then ar ++ [[]] else ar) = []
      · rw [hd, if_pos hz, finishRound_other hT1 hT2]
        refine ⟨rfl, hTt, rfl, rfl, ?_⟩
        rintro (h | h)
        · exact Or.inl h
        · exact absurd h (hserr (fun hx => Action.noConfusion hx) (fun hx => ActionKind.noConfusion hx))
      · rw [hd, if_neg hz, finishRound_other hT1 hT2]
        refine ⟨rfl, hTt, rfl, rfl, ?_⟩
        rintro (h | h)
        · exact Or.inl h
        · exact absurd h (hserr (fun hx => Action.noConfusion hx) (fun hx => ActionKind.noConfusion hx))
    | ArgumentEscaped c0 =>
      have hd : applyAct (.ArgumentEscaped c0) [b] (L + 1)
          ⟨T, if L < M then L + 1 else L, M, mt, nm, mi,
            if c then ar ++ [[]] else ar, er, pk⟩
          = if (if c then ar ++ [[]] else ar) = []
            then ⟨T, if L < M then L + 1 else L, M, mt, nm, mi,
              if c then ar ++ [[]] else ar, er, true⟩
            else ⟨T, if L < M then L + 1 else L, M, mt, nm, mi,
              pushLast (if c then ar ++ [[]] else ar) [c0], er, pk⟩ := rfl
      by_cases hz : (if c then ar ++ [[]] else ar) = []
      · rw [hd, if_pos hz, finishRound_other hT1 hT2]
        refine ⟨rfl, hTt, rfl, rfl, ?_⟩
        rintro (h | h)
        · exact Or.inl h
        · exact absurd h (hserr (fun hx => Action.noConfusion hx) (fun hx => ActionKind.noConfusion hx))
      · rw [hd, if_neg hz, finishRound_other hT1 hT2]
        refine ⟨rfl, hTt, rfl, rfl, ?_⟩
        rintro (h | h)
        · exact Or.inl h
        · exact absurd h (hserr (fun hx => Action.noConfusion hx) (fun hx => ActionKind.noConfusion hx))
    | Id =>
      rw [show applyAct .Id [b] (L + 1)
          ⟨T, if L < M then L + 1 else L, M, mt, nm, mi,
            if c then ar ++ [[]] else ar, er, pk⟩
          = (match idFold mi [b] with
             | (m, false) => (⟨T, if L < M then L + 1 else L, M, mt, nm, m,
                 if c then ar ++ [[]] else ar, er, pk⟩ : PState)
             | (m, true) => errorAt ⟨T, if L < M then L + 1 else L, M, mt, nm, m,
                 if c then ar ++ [[]] else ar, er, pk⟩
                 "Message ID overflowed" (L + 1)) from rfl]
      rcases hf : idFold mi [b] with ⟨m2, ov⟩
      cases ov with
      | false =>
        dsimp only
        rw [finishRound_other hT1 hT2]
        refine ⟨rfl, hTt, rfl, rfl, ?_⟩
        rintro (h | h)
        · exact Or.inl h
        · subst h
          rw [table_error_lit h10 h13] at hE
          injection hE with hx _
          exact absurd hx.symm (by simp)
      | true =>
        dsimp only
        rw [errorAt_lit _ _ _ _ _ _ _ _ _ _ _ hT2,
          finishRound_other (by simp) (by simp)]
        exact ⟨rfl, rfl, rfl, rfl, fun _ => Or.inr rfl⟩
    | ResetLineLength => exact absurd rfl hA
    | Error =>
      rw [applyAct_error, errorAt_lit _ _ _ _ _ _ _ _ _ _ _ hT2,
        finishRound_other (by simp) (by simp)]
      exact ⟨rfl, rfl, rfl, rfl, fun _ => Or.inr rfl⟩

/-- Running a CR/LF-free segment: nothing is emitted, the state stays
non-terminal, the line length advances saturating at the maximum, and a
pending error still implies the Error state. -/
theorem slow_run_crlf_free (data : List Nat) : ∀ ps : PState,
    10 ∉ data → 13 ∉ data → ps.state.isTerminal = false →
    ps.lineLength ≤ ps.maxLineLength →
    (runP false ps data).1 = []
    ∧ (runP false ps data).2.state.isTerminal = false
    ∧ (runP false ps data).2.lineLength
        = min (ps.lineLength + data.length) ps.maxLineLength
    ∧ (runP false ps data).2.maxLineLength = ps.maxLineLength
    ∧ ((ps.error = none ∨ ps.state = .Error) →
        ((runP false ps data).2.error = none ∨ (runP false ps data).2.state = .Error)) := by
  induction data with
  | nil =>
    intro ps _ _ hterm hL
    rw [runP_nil]
    exact ⟨rfl, hterm,
      by simp only [List.length_nil, Nat.add_zero]; exact (min_eq_left hL).symm,
      rfl, fun h => h⟩
  | cons b rest ih =>
    intro ps h10 h13 hterm hL
    have hb10 : b ≠ 10 := fun h => h10 (by simp [h])
    have hb13 : b ≠ 13 := fun h => h13 (by simp [h])
    obtain ⟨hc1, hc2, hc3, hc4, hc5⟩ := round_crlf_free ps b hb10 hb13 hterm
    obtain ⟨ih1, ih2, ih3, ih4, ih5⟩ := ih (roundCore ps b []).2
      (fun h => h10 (by simp [h])) (fun h => h13 (by simp [h])) hc2
      (by rw [hc3, hc4]; split_ifs <;> omega)
    rw [runS_cons, hc1]
    refine ⟨ih1, ih2, ?_, by rw [ih4, hc4], ?_⟩
    · rw [ih3, hc3, hc4]
      simp only [List.length_cons]
      split_ifs <;> omega
    · intro h
      exact ih5 (hc5 h)

/-! ## Error absorption up to the end of the line -/

/-- A round in a state whose entry promotes to `ErrorEndOfLine`, with a
pending error: the stored error is emitted and the parser resets. -/
theorem round_eeol {s : State} {L M : Nat} {mt : Option MessageType}
    {nm : List Nat} {mi : Option Int} {ar : List (List Nat)} {pk : Bool}
    {b : Nat} {e : ParseError}
    (hE : table s b = ⟨.Error, .ErrorEndOfLine, false⟩)
    (hid : preAdjust ⟨s, L, M, mt, nm, mi, ar, some e, pk⟩
      = ⟨s, L, M, mt, nm, mi, ar, some e, pk⟩) :
    roundCore ⟨s, L, M, mt, nm, mi, ar, some e, pk⟩ b []
      = (some (.err e), ⟨.Start, 0, M, none, [], none, [], none, pk⟩) := by
  rw [slow_roundH _ b hE hid]
  dsimp only
  by_cases hL : L < M
  · rw [stepState_lt_nc hL, applyAct_error, errorAt_eeol, if_neg (by simp),
      finishRound_eeol rfl rfl, resetPS_lit]
  · rw [stepState_ge_nc hL, applyAct_error, errorAt_eeol, if_neg (by simp),
      finishRound_eeol rfl rfl, resetPS_lit]

/-- In the Error state with a pending error, the rest of the line is absorbed
and the stored error is emitted once at the LF; parsing then continues as a
fresh parser (byte-at-a-time semantics). -/
theorem slow_error_line (w2 : List Nat) {L M : Nat} {mt : Option MessageType}
    {nm : List Nat} {mi : Option Int} {e : ParseError} {pk : Bool} (rest : List Nat)
    (h10 : 10 ∉ w2) (h13 : 13 ∉ w2) (hLM : M ≤ L) :
    runP false ⟨.Error, L, M, mt, nm, mi, [], some e, pk⟩ (w2 ++ 10 :: rest)
      = (Outcome.err e
          :: (runP false ⟨.Start, 0, M, none, [], none, [], none, pk⟩ rest).1,
         (runP false ⟨.Start, 0, M, none, [], none, [], none, pk⟩ rest).2) := by
  rw [runS_append]
  rw [slow_run_error w2 _ rfl (by simp) rfl
    (fun r hr => table_error_lit (fun h => h10 (h ▸ hr)) (fun h => h13 (h ▸ hr)))
    (Or.inr hLM)]
  rw [if_neg (show ¬L < M from by omega)]
  rw [runS_cons, round_eeol (by decide) (preAdjust_id (Or.inr rfl))]
  rfl

theorem chooseRun_terminal {ps : PState} {b : Nat} {rest : List Nat}
    (h : (table (preAdjust ps).state b).state.isTerminal = true) :
    chooseRun ps b rest = [] := by
  unfold chooseRun
  rw [if_pos (by rw [h]; rfl)]

/-- A fast round in the Error state with a pending error, on a byte other
than LF/CR, with any merged run: nothing is emitted, everything but the line
length is unchanged. -/
theorem roundF_error {L M : Nat} {mt : Option MessageType} {nm : List Nat}
    {mi : Option Int} {pk : Bool} {e : ParseError} {b : Nat} (run : List Nat)
    (hb10 : b ≠ 10) (hb13 : b ≠ 13) :
    roundCore ⟨.Error, L, M, mt, nm, mi, [], some e, pk⟩ b run
      = (none, ⟨.Error, if L < M then L + (1 + run.length) else L, M, mt, nm, mi, [],
          some e, pk⟩) := by
  rw [roundCore_noAdjust _ _ _ (preAdjust_id (Or.inr rfl)), table_error_lit hb10 hb13]
  dsimp only
  have hstep : stepState ⟨.Error, L, M, mt, nm, mi, [], some e, pk⟩
      ⟨.Error, .Error, false⟩ (1 + run.length)
      = ⟨.Error, if L < M then L + (1 + run.length) else L, M, mt, nm, mi, [],
          some e, pk⟩ := by
    by_cases hL : L < M <;> simp [stepState, hL]
  rw [hstep, applyAct_error, errorAt_lit _ _ _ _ _ _ _ _ _ _ _ (by simp),
    if_neg (show ¬((some e : Option ParseError) = none) from by simp)]
  exact finishRound_other (by simp) (by simp)

theorem mem_of_prefix_long {run D iseg rest : List Nat} {x : Nat}
    (h : run ++ D = iseg ++ x :: rest) (hlen : iseg.length < run.length) :
    x ∈ run := by
  have hx : x ∈ (iseg ++ x :: rest).take (iseg.length + 1) := by
    rw [List.take_append_eq_append_take, List.take_all_of_le (by omega)]
    simp
  rw [← h, List.take_append_eq_append_take] at hx
  rw [show iseg.length + 1 - run.length = 0 from by omega] at hx
  simp only [List.take_zero, List.append_nil] at hx
  exact List.mem_of_mem_take hx

/-- The stored error is emitted at LF (fast round). -/
theorem roundF_eeol {L M : Nat} {mt : Option MessageType} {nm : List Nat}
    {mi : Option Int} {pk : Bool} {e : ParseError} (rest : List Nat) :
    runP true ⟨.Error, L, M, mt, nm, mi, [], some e, pk⟩ (10 :: rest)
      = (Outcome.err e
          :: (runP true ⟨.Start, 0, M, none, [], none, [], none, pk⟩ rest).1,
         (runP true ⟨.Start, 0, M, none, [], none, [], none, pk⟩ rest).2) := by
  rw [runF_cons]
  have hcr : chooseRun ⟨.Error, L, M, mt, nm, mi, [], some e, pk⟩ 10 rest = [] := by
    apply chooseRun_terminal
    rw [preAdjust_id (Or.inr rfl)]
    exact (by decide : (table State.Error 10).state.isTerminal = true)
  rw [hcr, round_eeol (by decide) (preAdjust_id (Or.inr rfl))]
  simp

/-- Fast (source) semantics: from an errored state, the rest of the line is
absorbed, the stored error is emitted exactly once at the LF, and subsequent
input is parsed by a fresh parser. -/
theorem fastErrAbsorb : ∀ (n : Nat) (iseg : List Nat), iseg.length ≤ n →
    10 ∉ iseg → 13 ∉ iseg →
    ∀ (L M : Nat) (mt : Option MessageType) (nm : List Nat) (mi : Option Int)
      (e : ParseError) (pk : Bool) (rest : List Nat),
    runP true ⟨.Error, L, M, mt, nm, mi, [], some e, pk⟩ (iseg ++ 10 :: rest)
      = (Outcome.err e
          :: (runP true ⟨.Start, 0, M, none, [], none, [], none, pk⟩ rest).1,
         (runP true ⟨.Start, 0, M, none, [], none, [], none, pk⟩ rest).2) := by
  intro n
  induction n with
  | zero =>
    intro iseg hlen _ _ L M mt nm mi e pk rest
    have hnil : iseg = [] := by
      cases iseg with
      | nil => rfl
      | cons a t => simp at hlen
    subst hnil
    rw [List.nil_append]
    exact roundF_eeol rest
  | succ n ih =>
    intro iseg hlen h10 h13 L M mt nm mi e pk rest
    cases iseg with
    | nil =>
      rw [List.nil_append]
      exact roundF_eeol rest
    | cons c iseg2 =>
      have hc10 : c ≠ 10 := fun h => h10 (by simp [h])
      have hc13 : c ≠ 13 := fun h => h13 (by simp [h])
      rw [List.cons_append, runF_cons]
      by_cases hrun0 : chooseRun ⟨.Error, L, M, mt, nm, mi, [], some e, pk⟩ c
          (iseg2 ++ 10 :: rest) = []
      · rw [hrun0, roundF_error [] hc10 hc13]
        simp only [List.length_nil, List.drop_zero]
        rw [ih iseg2 (by simp at hlen; omega) (fun h => h10 (by simp [h]))
          (fun h => h13 (by simp [h])) _ M mt nm mi e pk rest]
      · obtain ⟨h1, h2, h3, h4, h5⟩ := chooseRun_spec
          ⟨.Error, L, M, mt, nm, mi, [], some e, pk⟩ c (iseg2 ++ 10 :: rest) hrun0
        rw [@preAdjust_id ⟨.Error, L, M, mt, nm, mi, [], some e, pk⟩ (Or.inr rfl)]
          at h1 h2 h3 h5
        set run := chooseRun ⟨.Error, L, M, mt, nm, mi, [], some e, pk⟩ c
          (iseg2 ++ 10 :: rest) with hrdef
        rw [show table (⟨.Error, L, M, mt, nm, mi, [], some e, pk⟩ : PState).state c
            = ⟨.Error, .Error, false⟩ from table_error_lit hc10 hc13] at h1 h2 h3
        dsimp only at h1 h2 h3
        have hrlen : run.length ≤ iseg2.length := by
          by_contra hgt
          have h10mem : (10 : Nat) ∈ run := mem_of_prefix_long h4 (by omega)
          exact absurd (h3 10 h10mem) (by decide)
        rw [roundF_error run hc10 hc13]
        rw [show (iseg2 ++ 10 :: rest).drop run.length
            = iseg2.drop run.length ++ 10 :: rest from by
          rw [List.drop_append_eq_append_drop,
            show run.length - iseg2.length = 0 from by omega]
          simp]
        rw [ih (iseg2.drop run.length)
          (by simp only [List.length_drop]; simp at hlen; omega)
          (fun h => h10 (by simp [List.mem_of_mem_drop h]))
          (fun h => h13 (by simp [List.mem_of_mem_drop h])) _ M mt nm mi e pk rest]

/-- From a healthy state that has already filled the line budget, the rest of
the line yields exactly one "Line too long" error at position max+1 and the
parser then continues fresh. -/
theorem slow_overflow_line (w2 rest : List Nat) (X : PState)
    (h10 : 10 ∉ w2) (h13 : 13 ∉ w2)
    (hst : X.state.isTerminal = false) (hsE : X.state ≠ .Error)
    (hLL : X.lineLength = X.maxLineLength) (herr : X.error = none)
    (hpk : X.panicked = false) :
    runP false X (w2 ++ 10 :: rest)
      = (Outcome.err ⟨"Line too long", X.maxLineLength + 1⟩
          :: (runP false (initState X.maxLineLength) rest).1,
         (runP false (initState X.maxLineLength) rest).2) := by
  obtain ⟨s, L, M, mt, nm, mi, ar, er, pk⟩ := X
  simp only at hst hsE hLL herr hpk ⊢
  have hML : M = L := hLL.symm
  subst hML
  subst herr
  subst hpk
  have hs_ne : s ≠ State.ErrorEndOfLine := (isTerminal_false hst).2
  have hpa : preAdjust ⟨s, M, M, mt, nm, mi, ar, none, false⟩
      = ⟨.Error, M, M, mt, nm, mi, [], some ⟨"Line too long", M + 1⟩, false⟩ := by
    unfold preAdjust
    rw [if_pos ⟨le_refl M, hsE⟩, errorAt_lit _ _ _ _ _ _ _ _ _ _ _ hs_ne]
    rw [if_pos rfl]
  cases w2 with
  | nil =>
    rw [List.nil_append, runS_cons]
    have hround : roundCore ⟨s, M, M, mt, nm, mi, ar, none, false⟩ 10 []
        = (some (.err ⟨"Line too long", M + 1⟩),
           ⟨.Start, 0, M, none, [], none, [], none, false⟩) := by
      rw [roundCore_eq, hpa]
      dsimp only
      simp only [List.length_nil, Nat.add_zero]
      rw [show table State.Error 10 = ⟨.Error, .ErrorEndOfLine, false⟩ from by decide]
      dsimp only
      rw [stepState_ge_nc (show ¬M < M from by omega), applyAct_error, errorAt_eeol,
        if_neg (by simp), finishRound_eeol rfl rfl, resetPS_lit]
    rw [hround]
    rfl
  | cons c w2' =>
    have hc10 : c ≠ 10 := fun h => h10 (by simp [h])
    have hc13 : c ≠ 13 := fun h => h13 (by simp [h])
    rw [List.cons_append, runS_cons]
    have hround : roundCore ⟨s, M, M, mt, nm, mi, ar, none, false⟩ c []
        = (none, ⟨.Error, M, M, mt, nm, mi, [],
            some ⟨"Line too long", M + 1⟩, false⟩) := by
      rw [roundCore_eq, hpa]
      dsimp only
      simp only [List.length_nil, Nat.add_zero]
      rw [table_error_lit hc10 hc13]
      dsimp only
      rw [stepState_ge_nc (show ¬M < M from by omega), applyAct_error,
        errorAt_lit _ _ _ _ _ _ _ _ _ _ _ (by simp),
        if_neg (show ¬((some (⟨"Line too long", M + 1⟩ : ParseError) : Option ParseError)
          = none) from by simp)]
      exact finishRound_other (by simp) (by simp)
    rw [hround]
    rw [slow_error_line w2' rest (fun h => h10 (by simp [h]))
      (fun h => h13 (by simp [h])) (le_refl M)]
    rfl

/-- A line longer than the maximum (with a healthy prefix) yields exactly one
"Line too long" error at position max+1 and subsequent input is parsed fresh
(byte-at-a-time semantics). -/
theorem slow_long_line (w rest : List Nat) (M : Nat)
    (h10 : 10 ∉ w) (h13 : 13 ∉ w) (hlen : M ≤ w.length)
    (hstate : (runP false (initState M) (w.take M)).2.state ≠ .Error) :
    runP false (initState M) (w ++ 10 :: rest)
      = (Outcome.err ⟨"Line too long", M + 1⟩
          :: (runP false (initState M) rest).1,
         (runP false (initState M) rest).2) := by
  have h10t : 10 ∉ w.take M := fun h => h10 (List.mem_of_mem_take h)
  have h13t : 13 ∉ w.take M := fun h => h13 (List.mem_of_mem_take h)
  obtain ⟨p1, p2, p3, p4, p5⟩ := slow_run_crlf_free (w.take M) (initState M)
    h10t h13t rfl (Nat.zero_le M)
  obtain ⟨⟨i1, i2, i3, i4, i5, i6, i7⟩, _⟩ := inv_runS (w.take M) (initState M)
    (invStart M)
  have hLL : (runP false (initState M) (w.take M)).2.lineLength
      = (runP false (initState M) (w.take M)).2.maxLineLength := by
    rw [p3, p4]
    have : (w.take M).length = M := by
      rw [List.length_take]
      omega
    rw [this]
    show min (0 + M) M = M
    omega
  have herr : (runP false (initState M) (w.take M)).2.error = none := by
    rcases p5 (Or.inl rfl) with h | h
    · exact h
    · exact absurd h hstate
  have hM4 : (runP false (initState M) (w.take M)).2.maxLineLength = M := p4
  conv_lhs => rw [show w = w.take M ++ w.drop M from (List.take_append_drop M w).symm]
  rw [List.append_assoc, runS_append]
  have hdrop10 : 10 ∉ w.drop M := fun h => h10 (List.mem_of_mem_drop h)
  have hdrop13 : 13 ∉ w.drop M := fun h => h13 (List.mem_of_mem_drop h)
  rw [slow_overflow_line (w.drop M) rest _ hdrop10 hdrop13 p2 hstate hLL herr i2]
  rw [p1, hM4]
  simp

theorem map_eraseOut_err_single {l : List Outcome} {e : ParseError}
    (hm : e.message ≠ ovText)
    (h : l.map eraseOut = [Outcome.err e]) : l = [Outcome.err e] := by
  cases l with
  | nil => simp at h
  | cons x xs =>
    cases xs with
    | nil =>
      simp only [List.map_cons, List.map_nil] at h
      injection h with h1 _
      cases x with
      | ok m2 => exact absurd h1 (by simp [eraseOut])
      | err e2 =>
        rw [show eraseOut (.err e2) = .err (eraseErr e2) from rfl] at h1
        injection h1 with h1
        unfold eraseErr at h1
        split_ifs at h1 with hov
        · exfalso
          apply hm
          have hmsg := congrArg ParseError.message h1
          dsimp only at hmsg
          rw [← hmsg]
          exact hov
        · rw [h1]
    | cons y ys => simp at h

/-- A line longer than the maximum (with a healthy prefix) yields exactly one
"Line too long" error at position max+1 (source semantics). -/
theorem fast_long_line (w : List Nat) (M : Nat)
    (h10 : 10 ∉ w) (h13 : 13 ∉ w) (hlen : M ≤ w.length)
    (hstate : (runP true (initState M) (w.take M)).2.state ≠ .Error) :
    (runP true (initState M) (w ++ [10])).1
      = [Outcome.err ⟨"Line too long", M + 1⟩] := by
  have hrel := (runF_eq_runS (initState M) (w.take M)).2
  have hstate' : (runP false (initState M) (w.take M)).2.state ≠ .Error := by
    intro h
    apply hstate
    rw [hrel.state_eq]
    exact h
  have hslow := slow_long_line w [] M h10 h13 hlen hstate'
  obtain ⟨heq, _⟩ := runF_eq_runS (initState M) (w ++ 10 :: [])
  rw [hslow] at heq
  rw [runP_nil] at heq
  rw [show (w ++ [10]) = w ++ 10 :: [] from rfl]
  refine map_eraseOut_err_single
    (show (("Line too long" : String) ≠ ovText) from by decide) ?_
  rw [heq]
  simp only [List.map_cons, List.map_nil]
  rw [show eraseOut (Outcome.err ⟨"Line too long", M + 1⟩)
      = Outcome.err ⟨"Line too long", M + 1⟩ from by
    simp [eraseOut, eraseErr, ovText]]

/-! ## Trailing whitespace before the end of line -/

theorem table_argReady_ws {s : State} {x : Nat} (h : argReady s)
    (hx : x = 32 ∨ x = 9) :
    table s x = ⟨.Nothing, .BeforeArgument, false⟩ := by
  rcases h with rfl | rfl | rfl <;> rcases hx with rfl | rfl <;> decide

theorem table_beforeArg_ws {x : Nat} (hx : x = 32 ∨ x = 9) :
    table .BeforeArgument x = ⟨.Nothing, .BeforeArgument, false⟩ := by
  rcases hx with rfl | rfl <;> decide

/-- Whitespace before the end of line, seen from `BeforeArgument`: no
argument slot is created, and the LF emits the message as-is. -/
theorem slow_ws_tail (ws : List Nat) : ∀ (L : Nat) {M : Nat} {t : MessageType}
    {nm : List Nat} {mi : Option Int} {ar : List (List Nat)},
    (∀ x ∈ ws, x = 32 ∨ x = 9) → L + (ws.length + 1) ≤ M →
    runP false ⟨.BeforeArgument, L, M, some t, nm, mi, ar, none, false⟩ (ws ++ [10])
      = ([Outcome.ok ⟨t, nm, mi, ar⟩], initState M) := by
  induction ws with
  | nil =>
    intro L M t nm mi ar _ hcap
    rw [List.nil_append, runS_cons,
      round_eol (by decide : table .BeforeArgument 10 = ⟨.Nothing, .EndOfLine, false⟩)
        (by omega) rfl]
    rw [runP_nil]
    rfl
  | cons x ws' ih =>
    intro L M t nm mi ar hws hcap
    simp only [List.length_cons] at hcap
    rw [List.cons_append, runS_cons,
      round_nothing (table_beforeArg_ws (hws x (by simp))) (by omega)
        (by simp) (by simp)]
    rw [ih (L + 1) (fun y hy => hws y (by simp [hy])) (by omega)]

/-- Trailing whitespace from any argument-ready state yields the message
without any extra empty trailing argument. -/
theorem slow_trailing_ws (ws : List Nat) (s : State) (L : Nat) {M : Nat}
    {t : MessageType} {nm : List Nat} {mi : Option Int} {ar : List (List Nat)}
    (hready : argReady s) (hws : ∀ x ∈ ws, x = 32 ∨ x = 9)
    (hne : ws ≠ []) (hcap : L + (ws.length + 1) ≤ M) :
    runP false ⟨s, L, M, some t, nm, mi, ar, none, false⟩ (ws ++ [10])
      = ([Outcome.ok ⟨t, nm, mi, ar⟩], initState M) := by
  cases ws with
  | nil => exact absurd rfl hne
  | cons x ws' =>
    simp only [List.length_cons] at hcap
    rw [List.cons_append, runS_cons,
      round_nothing (table_argReady_ws hready (hws x (by simp))) (by omega)
        (by simp) (by simp)]
    rw [slow_ws_tail ws' (L + 1) (fun y hy => hws y (by simp [hy])) (by omega)]

/-- A full well-formed line with trailing whitespace before the LF parses to
the message with exactly its own arguments (byte-at-a-time semantics). -/
theorem slow_roundtrip_ws (t : MessageType) (h0 : Nat) (tl : List Nat)
    (mi : Option Int) (args : List (List Nat)) (ws : List Nat) (M : Nat)
    (hh : nameHeadChar h0) (htl : ∀ b ∈ tl, nameTailChar b)
    (hmid : ∀ v, mi = some v → 1 ≤ v ∧ v ≤ 2 ^ 31 - 1)
    (hws : ∀ x ∈ ws, x = 32 ∨ x = 9) (hne : ws ≠ [])
    (hM : (msgBytes ⟨t, h0 :: tl, mi, args⟩).length + ws.length ≤ M) :
    runP false (initState M)
        (typeSymbol t :: ((h0 :: tl)
          ++ (midPart mi
            ++ (((args.map (fun a => 32 :: encodeArg a)).flatten) ++ (ws ++ [10])))))
      = ([Outcome.ok ⟨t, h0 :: tl, mi, args⟩], initState M) := by
  have hsig : table .Start (typeSymbol t) = ⟨.SetType t, .BeforeName, false⟩ := by
    cases t <;> decide
  have hmidlen : (midPart mi).length = midPartLen mi := by
    cases mi with
    | none => rfl
    | some v =>
      simp [midPart, midPartLen, midBytes]
      omega
  have hTOT : 1 + (1 + tl.length) + midPartLen mi
      + (((args.map (fun a => 32 :: encodeArg a)).flatten).length)
      + ws.length + 1 ≤ M := by
    have hx := hM
    have hexp : msgBytes ⟨t, h0 :: tl, mi, args⟩
        = typeSymbol t :: ((h0 :: tl)
            ++ (midPart mi
              ++ (((args.map (fun a => 32 :: encodeArg a)).flatten) ++ [10]))) := by
      rw [msgBytes]
      cases mi <;> simp [midPart, List.append_assoc]
    rw [hexp] at hx
    simp only [List.length_cons, List.length_append, hmidlen] at hx
    omega
  rw [show initState M = ⟨.Start, 0, M, none, [], none, [], none, false⟩ from rfl]
  rw [runS_cons, round_setType hsig (by omega) (by simp) (by simp)]
  rw [List.cons_append]
  rw [runS_cons, round_name (table_beforeName_char hh) (by omega) (by simp) (by simp)]
  rw [runS_append]
  have hname : runP false
      ⟨.Name, 0 + 1 + 1, M, some t, [] ++ [h0], none, [], none, false⟩ tl
      = ([], ⟨.Name, 0 + 1 + 1 + tl.length, M, some t, ([] ++ [h0]) ++ tl,
          none, [], none, false⟩) := by
    rw [slow_run_name tl ⟨.Name, 0 + 1 + 1, M, some t, [] ++ [h0], none, [], none, false⟩
      rfl (fun r hr => table_name_char (htl r hr)) (by dsimp only; omega)]
  rw [hname]
  rw [runS_append]
  rw [slow_run_midpart mi (0 + 1 + 1 + tl.length) hmid (by omega)]
  have hready : argReady (if mi = none then State.Name else State.AfterId) := by
    split_ifs
    · exact Or.inl rfl
    · exact Or.inr (Or.inl rfl)
  rw [runS_append]
  rw [slow_run_args args _ _ hready (by omega)]
  have hready2 : argReady (if args = [] then
      (if mi = none then State.Name else State.AfterId) else State.Argument) := by
    split_ifs
    · exact Or.inl rfl
    · exact Or.inr (Or.inl rfl)
    · exact Or.inr (Or.inr rfl)
  rw [slow_trailing_ws ws _ _ hready2 hws hne (by omega)]
  simp [initState]

/-- The trailing-whitespace round trip on the fast (source) semantics. -/
theorem fast_roundtrip_ws (t : MessageType) (h0 : Nat) (tl : List Nat)
    (mi : Option Int) (args : List (List Nat)) (ws : List Nat) (M : Nat)
    (hh : nameHeadChar h0) (htl : ∀ b ∈ tl, nameTailChar b)
    (hmid : ∀ v, mi = some v → 1 ≤ v ∧ v ≤ 2 ^ 31 - 1)
    (hws : ∀ x ∈ ws, x = 32 ∨ x = 9) (hne : ws ≠ [])
    (hM : (msgBytes ⟨t, h0 :: tl, mi, args⟩).length + ws.length ≤ M) :
    (runP true (initState M)
        (typeSymbol t :: ((h0 :: tl)
          ++ (midPart mi
            ++ (((args.map (fun a => 32 :: encodeArg a)).flatten) ++ (ws ++ [10])))))).1
      = [Outcome.ok ⟨t, h0 :: tl, mi, args⟩] := by
  obtain ⟨heq, _⟩ := runF_eq_runS (initState M)
    (typeSymbol t :: ((h0 :: tl)
      ++ (midPart mi
        ++ (((args.map (fun a => 32 :: encodeArg a)).flatten) ++ (ws ++ [10])))))
  rw [slow_roundtrip_ws t h0 tl mi args ws M hh htl hmid hws hne hM] at heq
  simp only [List.map_cons, List.map_nil] at heq
  rw [show eraseOut (Outcome.ok ⟨t, h0 :: tl, mi, args⟩)
      = Outcome.ok ⟨t, h0 :: tl, mi, args⟩ from rfl] at heq
  exact map_eraseOut_ok_single heq

/-! ## Chunked appends agree with a single append modulo erasure -/

theorem appendAll_erased (chunks : List (List Nat)) : ∀ ps : PState,
    (appendAll ps chunks).1.map eraseOut
      = (runP false ps chunks.flatten).1.map eraseOut
    ∧ Rel (appendAll ps chunks).2 (runP false ps chunks.flatten).2 := by
  induction chunks with
  | nil =>
    intro ps
    rw [show (List.flatten ([] : List (List Nat))) = [] from rfl, runP_nil]
    exact ⟨rfl, Rel.refl ps⟩
  | cons c cs ih =>
    intro ps
    obtain ⟨f1, f2⟩ := runF_eq_runS ps c
    obtain ⟨i1, i2⟩ := ih (runP true ps c).2
    obtain ⟨r1, r2⟩ := runS_rel f2 cs.flatten
    rw [show (c :: cs).flatten = c ++ cs.flatten from by simp, runS_append]
    constructor
    · rw [show (appendAll ps (c :: cs)).1
          = (runP true ps c).1 ++ (appendAll (runP true ps c).2 cs).1 from rfl]
      rw [List.map_append, List.map_append, f1, i1, r1]
    · exact i2.trans r2

/-! ## The configured maximum line length never changes -/

theorem errorAt_max (ps : PState) (m : String) (p : Nat) :
    (errorAt ps m p).maxLineLength = ps.maxLineLength := by
  unfold errorAt
  by_cases he : ps.error = none <;> by_cases hs : ps.state = .ErrorEndOfLine <;>
    simp [he, hs]

theorem applyAct_max (a : Action) (ch : List Nat) (p : Nat) (ps : PState) :
    (applyAct a ch p ps).maxLineLength = ps.maxLineLength := by
  cases a with
  | Nothing => rfl
  | Name => rfl
  | SetType t => rfl
  | ResetLineLength => rfl
  | Id =>
    rw [show applyAct .Id ch p ps = (match idFold ps.mid ch with
        | (m, false) => { ps with mid := m }
        | (m, true) => errorAt { ps with mid := m } "Message ID overflowed" p)
      from rfl]
    rcases idFold ps.mid ch with ⟨m2, ov⟩
    cases ov with
    | false => rfl
    | true =>
      dsimp only
      rw [errorAt_max]
  | Argument =>
    rw [show applyAct .Argument ch p ps
        = if ps.arguments = [] then { ps with panicked := true }
          else { ps with arguments := pushLast ps.arguments ch } from rfl]
    split_ifs <;> rfl
  | ArgumentEscaped c0 =>
    rw [show applyAct (.ArgumentEscaped c0) ch p ps
        = if ps.arguments = [] then { ps with panicked := true }
          else { ps with arguments := pushLast ps.arguments [c0] } from rfl]
    split_ifs <;> rfl
  | Error =>
    rw [applyAct_error, errorAt_max]

theorem finishRound_max (ps : PState) :
    (finishRound ps).2.maxLineLength = ps.maxLineLength := by
  unfold finishRound
  cases hs : ps.state <;>
    first
      | rfl
      | (rcases hmt : ps.mtype with _ | t <;> rfl)
      | (rcases her : ps.error with _ | e <;> rfl)

theorem roundCore_max (ps : PState) (b : Nat) (run : List Nat) :
    (roundCore ps b run).2.maxLineLength = ps.maxLineLength := by
  rw [roundCore_eq, finishRound_max, applyAct_max]
  rw [show (stepState (preAdjust ps) (table (preAdjust ps).state b)
        (1 + run.length)).maxLineLength = (preAdjust ps).maxLineLength from rfl]
  unfold preAdjust
  split_ifs
  · rw [errorAt_max]
  · rfl

theorem runS_max (data : List Nat) : ∀ ps : PState,
    (runP false ps data).2.maxLineLength = ps.maxLineLength := by
  induction data with
  | nil =>
    intro ps
    rw [runP_nil]
  | cons b rest ih =>
    intro ps
    rw [runS_cons]
    show (runP false (roundCore ps b []).2 rest).2.maxLineLength = _
    rw [ih, roundCore_max]

theorem runF_max (ps : PState) (data : List Nat) :
    (runP true ps data).2.maxLineLength = ps.maxLineLength := by
  rw [(runF_eq_runS ps data).2.maxLineLength_eq, runS_max]

theorem runOps_max (ops : List Op) : ∀ ps : PState,
    (runOps ps ops).2.maxLineLength = ps.maxLineLength := by
  induction ops with
  | nil =>
    intro ps
    rfl
  | cons op rest ih =>
    intro ps
    cases op with
    | append data =>
      rw [show (runOps ps (Op.append data :: rest)).2
          = (runOps (runP true ps data).2 rest).2 from rfl]
      rw [ih, runF_max]
    | reset =>
      rw [show runOps ps (Op.reset :: rest) = runOps (resetPS ps) rest from rfl]
      rw [ih]
      rfl

/-! ## The fuel evaluator agrees with the parser -/

theorem runPF_eq : ∀ (fuel : Nat) (fast : Bool) (ps : PState) (data : List Nat),
    data.length ≤ fuel → runPF fuel fast ps data = runP fast ps data := by
  intro fuel
  induction fuel with
  | zero =>
    intro fast ps data h
    have hd : data = [] := by
      cases data with
      | nil => rfl
      | cons b r => simp at h
    subst hd
    rw [runP_nil]
    rfl
  | succ n ih =>
    intro fast ps data h
    cases data with
    | nil =>
      rw [runP_nil]
      rfl
    | cons b rest =>
      have h' : rest.length ≤ n := by
        simp only [List.length_cons] at h
        omega
      cases fast with
      | false =>
        rw [runS_cons]
        have hL : runPF (n + 1) false ps (b :: rest)
            = (match (roundCore ps b []).1 with
               | some o => o :: (runPF n false (roundCore ps b []).2 rest).1
               | none => (runPF n false (roundCore ps b []).2 rest).1,
               (runPF n false (roundCore ps b []).2 rest).2) := rfl
        rw [hL, ih false (roundCore ps b []).2 rest h']
      | true =>
        rw [runF_cons]
        have hL : runPF (n + 1) true ps (b :: rest)
            = (match (roundCore ps b (chooseRun ps b rest)).1 with
               | some o => o :: (runPF n true (roundCore ps b (chooseRun ps b rest)).2
                   (rest.drop (chooseRun ps b rest).length)).1
               | none => (runPF n true (roundCore ps b (chooseRun ps b rest)).2
                   (rest.drop (chooseRun ps b rest).length)).1,
               (runPF n true (roundCore ps b (chooseRun ps b rest)).2
                 (rest.drop (chooseRun ps b rest).length)).2) := rfl
        rw [hL, ih true (roundCore ps b (chooseRun ps b rest)).2
          (rest.drop (chooseRun ps b rest).length)
          (by simp only [List.length_drop]; omega)]

theorem appendAllF_eq (fuel : Nat) : ∀ (ps : PState) (chunks : List (List Nat)),
    (∀ c ∈ chunks, c.length ≤ fuel) → appendAllF fuel ps chunks = appendAll ps chunks := by
  intro ps chunks
  induction chunks generalizing ps with
  | nil =>
    intro h
    rfl
  | cons c cs ih =>
    intro h
    have h1 : runPF fuel true ps c = runP true ps c :=
      runPF_eq fuel true ps c (h c (by simp))
    have hL : appendAllF fuel ps (c :: cs)
        = ((runPF fuel true ps c).1 ++ (appendAllF fuel (runPF fuel true ps c).2 cs).1,
           (appendAllF fuel (runPF fuel true ps c).2 cs).2) := rfl
    rw [hL, h1, ih (runP true ps c).2 (fun x hx => h x (by simp [hx]))]
    rfl

/-! ## Helper facts for the claims -/

/-- `error_at` never replaces an already-recorded error: the first error on a
line wins. -/
theorem errorAt_keep {ps : PState} {e : ParseError} (he : ps.error = some e)
    (m : String) (p : Nat) : (errorAt ps m p).error = some e := by
  unfold errorAt
  by_cases hs : ps.state = .ErrorEndOfLine <;> simp [hs, he]

/-- A round whose `Id` action overflows ends with the "Message ID overflowed"
error recorded at the chunk position `L + 1` and emits nothing. -/
theorem round_id_ov (s : State) (L M : Nat) (mt : Option MessageType)
    (nm : List Nat) (mi m2 : Option Int) (ar : List (List Nat))
    (er : Option ParseError) (pk : Bool) (b : Nat) (run : List Nat)
    (hE : table s b = ⟨.Id, .Id, false⟩) (hL : L < M)
    (hov : idFold mi (b :: run) = (m2, true)) :
    roundCore ⟨s, L, M, mt, nm, mi, ar, er, pk⟩ b run
      = (none, errorAt ⟨.Id, L + (1 + run.length), M, mt, nm, m2, ar, er, pk⟩
          "Message ID overflowed" (L + 1)) := by
  have hid : preAdjust ⟨s, L, M, mt, nm, mi, ar, er, pk⟩
      = ⟨s, L, M, mt, nm, mi, ar, er, pk⟩ := preAdjust_id (Or.inl hL)
  rw [roundCore_noAdjust _ _ _ hid, hE]
  dsimp only
  have hstepN : stepState ⟨s, L, M, mt, nm, mi, ar, er, pk⟩ ⟨.Id, .Id, false⟩
      (1 + run.length) = ⟨.Id, L + (1 + run.length), M, mt, nm, mi, ar, er, pk⟩ := by
    simp [stepState, hL]
  rw [hstepN]
  rw [show applyAct .Id (b :: run) (L + 1)
        ⟨.Id, L + (1 + run.length), M, mt, nm, mi, ar, er, pk⟩
      = (match idFold mi (b :: run) with
         | (m, false) => (⟨.Id, L + (1 + run.length), M, mt, nm, m, ar, er, pk⟩ : PState)
         | (m, true) => errorAt ⟨.Id, L + (1 + run.length), M, mt, nm, m, ar, er, pk⟩
             "Message ID overflowed" (L + 1))
      from rfl]
  rw [hov]
  dsimp only
  have hst : (errorAt ⟨.Id, L + (1 + run.length), M, mt, nm, m2, ar, er, pk⟩
      "Message ID overflowed" (L + 1)).state = .Error := by
    rw [errorAt_state]
    simp
  have h1 : (errorAt ⟨.Id, L + (1 + run.length), M, mt, nm, m2, ar, er, pk⟩
      "Message ID overflowed" (L + 1)).state ≠ State.EndOfLine := by
    rw [hst]
    decide
  have h2 : (errorAt ⟨.Id, L + (1 + run.length), M, mt, nm, m2, ar, er, pk⟩
      "Message ID overflowed" (L + 1)).state ≠ State.ErrorEndOfLine := by
    rw [hst]
    decide
  rw [finishRound_other h1 h2]

/-! ## The claims -/

/-- C1: for every well-formed message `m` (valid `[A-Za-z][A-Za-z0-9-]*` name,
id absent or in `[1, 2^31-1]`, arbitrary argument bytes), feeding the
formatter's encoding `msgBytes m` to a fresh parser whose maximum line length
is at least the encoded size yields exactly the single outcome `Ok m`. -/
theorem C1_roundtrip (m : Msg) (M : Nat)
    (hname : ∃ h0 tl, m.name = h0 :: tl ∧ nameHeadChar h0 ∧ ∀ b ∈ tl, nameTailChar b)
    (hmid : ∀ v, m.mid = some v → 1 ≤ v ∧ v ≤ 2 ^ 31 - 1)
    (hM : (msgBytes m).length ≤ M) :
    (runP true (initState M) (msgBytes m)).1 = [Outcome.ok m] := by
  obtain ⟨h0, tl, hn, hh, htl⟩ := hname
  obtain ⟨t, nm, mi, args⟩ := m
  dsimp only at hn hmid hM ⊢
  subst hn
  exact fast_roundtrip t h0 tl mi args M hh htl hmid hM

theorem C1_roundtrip_w :
    (runP true (initState 12) (msgBytes ⟨.Request, [104, 105], none, [[]]⟩)).1
      = [Outcome.ok ⟨.Request, [104, 105], none, [[]]⟩] :=
  C1_roundtrip ⟨.Request, [104, 105], none, [[]]⟩ 12
    ⟨104, [105], rfl, Or.inr (by omega),
      fun b hb => by
        rw [List.mem_singleton] at hb
        subst hb
        exact Or.inl (Or.inr (by omega))⟩
    (fun v hv => Option.noConfusion hv)
    (by decide)

/-- C2 (corrected): splitting the same bytes over several `append` calls can
move the recorded position of a "Message ID overflowed" error, because the
overflow position is the start of the merged digit chunk, which depends on the
chunk boundaries. -/
theorem C2_chunk_counterexample :
    ¬((appendAll (initState 100)
        [[63, 97, 91, 57], [57, 57, 57, 57, 57, 57, 57, 57, 57, 93, 10]]).1
      = (appendAll (initState 100)
          [[63, 97, 91, 57, 57, 57, 57, 57, 57, 57, 57, 57, 57, 93, 10]]).1) := by
  intro hc
  rw [← appendAllF_eq 15 (initState 100)
        [[63, 97, 91, 57], [57, 57, 57, 57, 57, 57, 57, 57, 57, 93, 10]] (by decide),
      ← appendAllF_eq 15 (initState 100)
        [[63, 97, 91, 57, 57, 57, 57, 57, 57, 57, 57, 57, 57, 93, 10]] (by decide)] at hc
  exact absurd hc (by decide)

/-- C2 (amended): for every byte sequence, every partition of it into
consecutive chunks and every maximum line length, appending the chunks in
order produces the same ordered outcome sequence as a single append, up to
the recorded position of "Message ID overflowed" errors (`eraseOut`), and
leaves the parser in the same state up to that position (`Rel`). -/
theorem C2_chunk_insensitivity (chunks : List (List Nat)) (M : Nat) :
    (appendAll (initState M) chunks).1.map eraseOut
      = (appendAll (initState M) [chunks.flatten]).1.map eraseOut
    ∧ Rel (appendAll (initState M) chunks).2
        (appendAll (initState M) [chunks.flatten]).2 := by
  obtain ⟨a1, a2⟩ := appendAll_erased chunks (initState M)
  obtain ⟨b1, b2⟩ := appendAll_erased [chunks.flatten] (initState M)
  rw [show ([chunks.flatten] : List (List Nat)).flatten = chunks.flatten
    from by simp] at b1 b2
  exact ⟨a1.trans b1.symm, a2.trans b2.symm⟩

/-- C3 (corrected): the fast-table bulk path can record a different position
for a "Message ID overflowed" error than the byte-at-a-time reference parser
(the chunk start versus the offending digit). -/
theorem C3_fast_counterexample :
    ¬((runP true (initState 100)
        [63, 97, 91, 57, 57, 57, 57, 57, 57, 57, 57, 57, 57, 93, 10]).1
      = (runP false (initState 100)
          [63, 97, 91, 57, 57, 57, 57, 57, 57, 57, 57, 57, 57, 93, 10]).1) := by
  intro hc
  rw [← runPF_eq 15 true (initState 100)
        [63, 97, 91, 57, 57, 57, 57, 57, 57, 57, 57, 57, 57, 93, 10] (by decide),
      ← runPF_eq 15 false (initState 100)
        [63, 97, 91, 57, 57, 57, 57, 57, 57, 57, 57, 57, 57, 93, 10] (by decide)] at hc
  exact absurd hc (by decide)

/-- C3 (amended): from every parser state and input, the fast-table bulk path
(`runP true`) emits the same outcome sequence and reaches the same final state
as the byte-at-a-time reference (`runP false`), up to the recorded position of
"Message ID overflowed" errors; and the fast table marks `b'` exactly when the
transition on `b'` stays in the same state with the same action kind and does
not create an argument. -/
theorem C3_fast_slow :
    (∀ (ps : PState) (data : List Nat),
      (runP true ps data).1.map eraseOut = (runP false ps data).1.map eraseOut
        ∧ Rel (runP true ps data).2 (runP false ps data).2)
    ∧ (∀ (t : State) (k : ActionKind) (b : Nat),
        fastOkB t k b = true
          ↔ ((table t b).state = t ∧ (table t b).action.kind = k
              ∧ (table t b).createArgument = false)) := by
  refine ⟨fun ps data => runF_eq_runS ps data, fun t k b => ⟨fastOkB_spec, fun h => ?_⟩⟩
  simpa [fastOkB] using h

/-- C4: `write_size` computes exactly the size described by the specification:
1 sigil byte, the name, 2 plus the decimal digits when the id is present, one
space plus the encoded length per argument (2 for an empty argument, length
plus escaped-byte count otherwise), and the trailing LF. -/
theorem C4_write_size (m : Msg) : writeSize m = specSize m :=
  writeSize_eq_specSize m

/-- C5: `write_out` produces exactly `write_size m` bytes, so the allocation
path that checks the written length against `write_size` succeeds and returns
exactly the encoded bytes. -/
theorem C5_write_out (m : Msg) :
    (msgBytes m).length = writeSize m ∧ toVec m = some (msgBytes m) := by
  refine ⟨msgBytes_length m, ?_⟩
  unfold toVec
  rw [if_pos (msgBytes_length m)]

/-- C6: once a line has errored, the rest of the line is absorbed in the
`Error` state; at its LF exactly one `Err` outcome is emitted, carrying the
stored (first) error, and the remaining input is parsed exactly as by a fresh
parser; moreover `error_at` never overwrites an already-recorded error, so the
first error on a line wins. -/
theorem C6_error_line :
    (∀ (iseg : List Nat), 10 ∉ iseg → 13 ∉ iseg →
      ∀ (L M : Nat) (mt : Option MessageType) (nm : List Nat) (mi : Option Int)
        (e : ParseError) (pk : Bool) (rest : List Nat),
      runP true ⟨.Error, L, M, mt, nm, mi, [], some e, pk⟩ (iseg ++ 10 :: rest)
        = (Outcome.err e
            :: (runP true ⟨.Start, 0, M, none, [], none, [], none, pk⟩ rest).1,
           (runP true ⟨.Start, 0, M, none, [], none, [], none, pk⟩ rest).2))
    ∧ (∀ (ps : PState) (e : ParseError) (m : String) (p : Nat),
        ps.error = some e → (errorAt ps m p).error = some e) := by
  refine ⟨?_, ?_⟩
  · intro iseg h10 h13 L M mt nm mi e pk rest
    exact fastErrAbsorb iseg.length iseg le_rfl h10 h13 L M mt nm mi e pk rest
  · intro ps e m p he
    exact errorAt_keep he m p

theorem C6_error_line_w :
    runP true ⟨.Error, 3, 100, none, [], none, [], some ⟨"Empty message", 1⟩, false⟩
        ([120] ++ 10 :: [10])
      = (Outcome.err ⟨"Empty message", 1⟩
          :: (runP true ⟨.Start, 0, 100, none, [], none, [], none, false⟩ [10]).1,
         (runP true ⟨.Start, 0, 100, none, [], none, [], none, false⟩ [10]).2) :=
  C6_error_line.1 [120] (by decide) (by decide) 3 100 none [] none
    ⟨"Empty message", 1⟩ false [10]

/-- C7: after any sequence of `append` and `reset` calls the buffered line
length never exceeds the configured maximum; a line that fits exactly
(including its LF) still parses; and a longer LF-terminated line yields
`Err("Line too long")` at position `max_line_length + 1`. -/
theorem C7_line_length :
    (∀ (M : Nat) (ops : List Op), bufferSize (runOps (initState M) ops).2 ≤ M)
    ∧ (∀ (t : MessageType) (h0 : Nat) (tl : List Nat) (mi : Option Int)
        (args : List (List Nat)),
        nameHeadChar h0 → (∀ b ∈ tl, nameTailChar b) →
        (∀ v, mi = some v → 1 ≤ v ∧ v ≤ 2 ^ 31 - 1) →
        (runP true (initState ((msgBytes ⟨t, h0 :: tl, mi, args⟩).length))
            (msgBytes ⟨t, h0 :: tl, mi, args⟩)).1
          = [Outcome.ok ⟨t, h0 :: tl, mi, args⟩])
    ∧ (∀ (w : List Nat) (M : Nat), 10 ∉ w → 13 ∉ w → M ≤ w.length →
        (runP true (initState M) (w.take M)).2.state ≠ .Error →
        (runP true (initState M) (w ++ [10])).1
          = [Outcome.err ⟨"Line too long", M + 1⟩]) := by
  refine ⟨?_, ?_, ?_⟩
  · intro M ops
    have h := (inv_runOps ops (initState M) (invStart M)).1.1
    rw [runOps_max ops (initState M)] at h
    exact h
  · intro t h0 tl mi args hh htl hmid
    exact fast_roundtrip t h0 tl mi args _ hh htl hmid le_rfl
  · intro w M h10 h13 hlen hstate
    exact fast_long_line w M h10 h13 hlen hstate

theorem C7_line_length_w :
    bufferSize (runOps (initState 10)
        [Op.append [63, 104, 101, 108, 108, 111, 49, 50, 51, 52, 10]]).2 ≤ 10
    ∧ (runP true (initState 10)
          ([63, 104, 101, 108, 108, 111, 49, 50, 51, 52] ++ [10])).1
        = [Outcome.err ⟨"Line too long", 10 + 1⟩] :=
  ⟨C7_line_length.1 10 [Op.append [63, 104, 101, 108, 108, 111, 49, 50, 51, 52, 10]],
   C7_line_length.2.2 [63, 104, 101, 108, 108, 111, 49, 50, 51, 52] 10
     (by decide) (by decide) (by decide)
     (by
       rw [← runPF_eq 10 true (initState 10)
             (List.take 10 [63, 104, 101, 108, 108, 111, 49, 50, 51, 52]) (by decide)]
       decide)⟩

/-- C8: the `Id` action accumulates the message id digit by digit as
`mid := (mid or 0) * 10 + (d - 48)` while the value stays in the signed 32-bit
range, and stops consuming the chunk with an overflow the moment it leaves
`[1, 2^31-1]`; a round whose chunk overflows records "Message ID overflowed"
at the chunk position and emits nothing; and every id inside an emitted `Ok`
message lies in `[1, 2^31-1]`. -/
theorem C8_id_accumulation :
    (∀ (mid : Option Int) (d : Nat) (ds : List Nat),
      ((-(2 ^ 31) ≤ mid.getD 0 * 10 + ((d : Int) - 48)
          ∧ mid.getD 0 * 10 + ((d : Int) - 48) ≤ 2 ^ 31 - 1) →
        idFold mid (d :: ds)
          = idFold (some (mid.getD 0 * 10 + ((d : Int) - 48))) ds)
      ∧ (¬(-(2 ^ 31) ≤ mid.getD 0 * 10 + ((d : Int) - 48)
          ∧ mid.getD 0 * 10 + ((d : Int) - 48) ≤ 2 ^ 31 - 1) →
        idFold mid (d :: ds) = (mid, true)))
    ∧ (∀ (s : State) (L M : Nat) (mt : Option MessageType) (nm : List Nat)
        (mi m2 : Option Int) (ar : List (List Nat)) (er : Option ParseError)
        (pk : Bool) (b : Nat) (run : List Nat),
        table s b = ⟨.Id, .Id, false⟩ → L < M →
        idFold mi (b :: run) = (m2, true) →
        roundCore ⟨s, L, M, mt, nm, mi, ar, er, pk⟩ b run
          = (none, errorAt ⟨.Id, L + (1 + run.length), M, mt, nm, m2, ar, er, pk⟩
              "Message ID overflowed" (L + 1)))
    ∧ (∀ (M : Nat) (data : List Nat) (m : Msg),
        Outcome.ok m ∈ (runP true (initState M) data).1 →
        ∀ v, m.mid = some v → 1 ≤ v ∧ v ≤ 2 ^ 31 - 1) := by
  refine ⟨?_, ?_, ?_⟩
  · intro mid d ds
    constructor
    · intro hin
      rw [show idFold mid (d :: ds)
          = (if -(2 ^ 31) ≤ mid.getD 0 * 10 + ((d : Int) - 48)
                ∧ mid.getD 0 * 10 + ((d : Int) - 48) ≤ 2 ^ 31 - 1
             then idFold (some (mid.getD 0 * 10 + ((d : Int) - 48))) ds
             else (mid, true)) from rfl]
      rw [if_pos hin]
    · intro hin
      rw [show idFold mid (d :: ds)
          = (if -(2 ^ 31) ≤ mid.getD 0 * 10 + ((d : Int) - 48)
                ∧ mid.getD 0 * 10 + ((d : Int) - 48) ≤ 2 ^ 31 - 1
             then idFold (some (mid.getD 0 * 10 + ((d : Int) - 48))) ds
             else (mid, true)) from rfl]
      rw [if_neg hin]
  · intro s L M mt nm mi m2 ar er pk b run hE hL hov
    exact round_id_ov s L M mt nm mi m2 ar er pk b run hE hL hov
  · intro M data m hmem v hv
    exact (inv_runF data (initState M) (invStart M)).2 (Outcome.ok m) hmem v hv

theorem C8_id_accumulation_w :
    idFold (some 214748364) [56, 57] = (some 214748364, true)
    ∧ roundCore ⟨.Id, 5, 100, none, [], some 214748364, [], none, false⟩ 56 []
        = (none, errorAt ⟨.Id, 5 + (1 + 0), 100, none, [], some 214748364, [], none, false⟩
            "Message ID overflowed" (5 + 1)) :=
  ⟨(C8_id_accumulation.1 (some 214748364) 56 [57]).2 (by decide),
   C8_id_accumulation.2.1 .Id 5 100 none [] (some 214748364) (some 214748364)
     [] none false 56 [] (by decide) (by decide) (by decide)⟩

/-- C9: the `BeforeArgument` row creates an argument slot only on transitions
that start argument content (into `Argument` or `ArgumentEscape`), never on
the EOL transition; consequently a line with trailing space/tab bytes before
its LF yields the message without an extra empty trailing argument. -/
theorem C9_trailing_ws :
    (table .BeforeArgument 10 = ⟨.Nothing, .EndOfLine, false⟩)
    ∧ (∀ b : Nat, (table .BeforeArgument b).createArgument = true →
        (table .BeforeArgument b).state = .Argument
          ∨ (table .BeforeArgument b).state = .ArgumentEscape)
    ∧ (∀ (t : MessageType) (h0 : Nat) (tl : List Nat) (mi : Option Int)
        (args : List (List Nat)) (ws : List Nat) (M : Nat),
        nameHeadChar h0 → (∀ b ∈ tl, nameTailChar b) →
        (∀ v, mi = some v → 1 ≤ v ∧ v ≤ 2 ^ 31 - 1) →
        (∀ x ∈ ws, x = 32 ∨ x = 9) → ws ≠ [] →
        (msgBytes ⟨t, h0 :: tl, mi, args⟩).length + ws.length ≤ M →
        (runP true (initState M)
            (typeSymbol t :: ((h0 :: tl)
              ++ (midPart mi
                ++ (((args.map (fun a => 32 :: encodeArg a)).flatten)
                  ++ (ws ++ [10])))))).1
          = [Outcome.ok ⟨t, h0 :: tl, mi, args⟩]) := by
  refine ⟨by decide, ?_, ?_⟩
  · intro b hcr
    rcases table_beforeArgument_cases b with hE | hE | hE | hE | hE
    · rw [hE] at hcr
      exact absurd hcr (by decide)
    · rw [hE] at hcr
      exact absurd hcr (by decide)
    · rw [hE]
      exact Or.inr rfl
    · rw [hE] at hcr
      exact absurd hcr (by decide)
    · rw [hE]
      exact Or.inl rfl
  · intro t h0 tl mi args ws M hh htl hmid hws hne hM
    exact fast_roundtrip_ws t h0 tl mi args ws M hh htl hmid hws hne hM

theorem C9_trailing_ws_w :
    (runP true (initState 6)
        (typeSymbol .Request :: (([104] : List Nat)
          ++ (midPart none
            ++ ((([] : List (List Nat)).map (fun a => 32 :: encodeArg a)).flatten
              ++ ([32] ++ [10])))))).1
      = [Outcome.ok ⟨.Request, [104], none, []⟩] :=
  C9_trailing_ws.2.2 .Request 104 [] none [] [32] 6
    (Or.inr (by omega))
    (fun b hb => absurd hb (List.not_mem_nil b))
    (fun v hv => Option.noConfusion hv)
    (fun x hx => Or.inl (by
      rw [List.mem_singleton] at hx
      exact hx))
    (by decide)
    (by decide)

/-- C10: no modelled `unwrap` inside `apply` or `next_message` can fail: after
any sequence of `append` and `reset` calls on a fresh parser the `panicked`
instrument — set whenever an `Argument`/`ArgumentEscaped` action finds no
argument slot, an `EndOfLine` finds no message type, or an `ErrorEndOfLine`
finds no stored error — is still `false`. -/
theorem C10_no_panic (M : Nat) (ops : List Op) :
    (runOps (initState M) ops).2.panicked = false :=
  ((inv_runOps ops (initState M) (invStart M)).1).2.1

end Katcp
